import Mathlib

/-!
# MauCppHttpServer: routing and dispatch core

A shallow embedding of `src/HttpServerWebcc.cpp` (classes `HttpServerWebcc`
and `HttpServerWebcc::HttpServerWebccPrivate`), `src/HttpServer.h`,
`src/HttpServer.cpp` and `src/Exception.h`, followed by theorems about
endpoint registration, removal, request dispatch, the response built for a
request and the life cycle of the server.

Conventions of the embedding:

* `QString` is a list of characters, `QByteArray` a list of bytes.
* `QHash<K, V>` is the list of its `(key, value)` items in iteration order.
  Qt does not specify that order, so statements about dispatch are proved for
  every list.
* C++ `int` values are `Int`; enum `HttpMethod` is its underlying number.
* A member function that can leave through `Raise()` returns its result as
  an `Except` next to the member state it leaves behind.
* The Qt classes the server calls but does not define (`QUrl`, the newline
  convention of `QRegularExpression`) are collected in the structure `Qt`.
-/

namespace Mau

/-! ## Strings -/

/-- A `QString`, as the list of its characters. -/
abbrev QString := List Char

/-- A `QByteArray`, as the list of its bytes. -/
abbrev QByteArray := List UInt8

/-- `QString::indexOf(c)`: index of the first occurrence, `-1` when there is none. -/
def indexOf (c : Char) : QString → Int
  | [] => -1
  | x :: xs => if x = c then 0 else
      let r := indexOf c xs
      if r < 0 then -1 else r + 1

/-- `QString::contains(c)`. -/
def contains (s : QString) (c : Char) : Bool :=
  s.any (fun x => x == c)

/-- `QString::replace(c, after)`: every occurrence of the character `c`
becomes the string `after`. -/
def replaceChar (c : Char) (after : QString) : QString → QString
  | [] => []
  | x :: xs => if x = c then after ++ replaceChar c after xs else x :: replaceChar c after xs

/-- `QString::split(sep)` with the default `KeepEmptyParts`: the empty string
splits into one empty part. -/
def split (sep : Char) : QString → List QString
  | [] => [[]]
  | x :: xs =>
    if x = sep then [] :: split sep xs
    else
      match split sep xs with
      | [] => [[x]]
      | w :: ws => (x :: w) :: ws

/-- `QStringList::join(sep)`. -/
def join (sep : Char) : List QString → QString
  | [] => []
  | [w] => w
  | w :: ws => w ++ sep :: join sep ws

/-- `QString::endsWith(c)`. -/
def endsWith (s : QString) (c : Char) : Bool :=
  s.getLast? == some c

/-- The C string `s.toUtf8().data()` as a callee taking a `const char*` (or a
`std::string_view` made of one) reads it: the characters before the first
U+0000. -/
def toUtf8Data (s : QString) : QString :=
  s.takeWhile (fun c => c != '\x00')

/-! ## QHash -/

/-- A `QHash<K, V>`: its items in iteration order. Keys are unique in a hash
built through `QHash.insert`. -/
abbrev QHash (κ : Type) (ν : Type) := List (κ × ν)

namespace QHash

variable {κ ν : Type} [DecidableEq κ]

/-- `QHash::constFind` / `contains` with `operator[]` on a present key. -/
def find (h : QHash κ ν) (k : κ) : Option ν :=
  match h with
  | [] => none
  | (k', v) :: rest => if k' = k then some v else find rest k

/-- `QHash::contains(key)`. -/
def containsKey (h : QHash κ ν) (k : κ) : Bool :=
  (find h k).isSome

/-- `QHash::insert(key, value)`: the value of a present key is replaced, a new
key gets a new item. -/
def insert (h : QHash κ ν) (k : κ) (v : ν) : QHash κ ν :=
  match h with
  | [] => [(k, v)]
  | (k', v') :: rest => if k' = k then (k, v) :: rest else (k', v') :: insert rest k v

/-- `QHash::remove(key)`: every item with that key is removed. -/
def remove (h : QHash κ ν) (k : κ) : QHash κ ν :=
  h.filter (fun it => decide (it.1 ≠ k))

/-- `QHash::count()`. -/
def count (h : QHash κ ν) : Int :=
  (h.length : Int)

/-- The keys of a well-formed hash are pairwise distinct. -/
def UniqueKeys (h : QHash κ ν) : Prop :=
  (h.map Prod.fst).Nodup

instance (h : QHash κ ν) : Decidable (UniqueKeys h) := by
  unfold UniqueKeys
  infer_instance

end QHash

/-! ## HttpServer.h -/

/-- `enum HttpMethod`, as its underlying value. -/
abbrev HttpMethod := Nat

namespace HttpMethod

def UNKNOWN : HttpMethod := 0x0000
def GET : HttpMethod := 0x0001
def POST : HttpMethod := 0x0002
def PUT : HttpMethod := 0x0004
def DELETE : HttpMethod := 0x0008
def HEAD : HttpMethod := 0x0010
def OPTIONS : HttpMethod := 0x0020
def PATCH : HttpMethod := 0x0040
def ALL : HttpMethod := GET ||| PUT ||| DELETE ||| POST ||| HEAD ||| OPTIONS ||| PATCH

end HttpMethod

/-- `struct HttpRequest` (the protocol version is the constant `HTTP_1_1`). -/
structure HttpRequest where
  method : HttpMethod
  headers : QHash QString QString
  body : QByteArray
deriving DecidableEq

/-- `struct HttpResponse`. -/
structure HttpResponse where
  statusCode : Int
  headers : QHash QString QString
  body : QByteArray
deriving DecidableEq

/-- `struct PathInfo`. -/
structure PathInfo where
  path : QString
  variablesMap : QHash QString QString
  multiLevel : QString
  query : QHash QString QString
deriving DecidableEq

/-! ## Exception.h -/

/-- `Exception::Severities`. -/
inductive Severities where
  | warning
  | error
deriving DecidableEq

/-- The event names the macros `Ex(id)`, `Warn(id)` and `ThrowUnknownEx()` are
used with. -/
inductive EventId where
  | Unknown
  | FailedToStart
  | InvalidEndpoint
  | InvalidEndpointHashtagWildcard
  | InvalidCharacterInEndpoint
  | UnsupportedHttpMethod
  | AmbiguousEndpoint
  | InvalidStatusCode
  | ReserverHeader
  | MissingCertificate
  | MissingPrivateKey
  | HeadWithBody
  | InvalidAddress
  | InvalidPort
deriving DecidableEq

/-- `class Exception`: the event id, the severity and the arguments given by
`Arg`. The source location and the localized message table are left out. -/
structure Exception where
  id : EventId
  severity : Severities
  args : List QString
deriving DecidableEq

/-- `Exception::Arg(const QString&)`. -/
def Exception.Arg (e : Exception) (arg : QString) : Exception :=
  { e with args := e.args ++ [arg] }

/-- The macro `Ex(id)`: an error event, not yet raised. -/
def Ex (id : EventId) : Exception :=
  { id := id, severity := Severities.error, args := [] }

/-- The macro `Warn(id)`. -/
def Warn (id : EventId) : Exception :=
  { id := id, severity := Severities.warning, args := [] }

/-- The macro `ThrowUnknownEx()`: it expands to the construction of the
`UnknownEx` event and its `Location`; there is no `Raise()` in it. -/
def ThrowUnknownEx : Exception :=
  { id := EventId.Unknown, severity := Severities.error, args := [] }

deriving instance DecidableEq for Except

/-! ## Qt -/

/-- What the server takes from Qt without defining it. -/
structure Qt where
  /-- `QUrl::setPath(p)` followed by `QUrl::path()`. -/
  urlPath : QString → QString
  /-- `QUrl url("localhost"); url.setPath(p); url.isValid()`. -/
  urlValid : QString → Bool
  /-- The characters the regular expression `.` matches (every character
  that is not a line break, as no `DotMatchesEverythingOption` is set). -/
  dot : Char → Bool

/-- A reference instance for concrete evaluations: paths without a percent
sign come back from `QUrl` unchanged, a path is valid when it is not empty,
does not start with two slashes and, when relative, has no colon before its
first slash; `.` matches everything except the line feed. -/
def qtRef : Qt where
  urlPath := fun p => p
  urlValid := fun p =>
    match p with
    | [] => false
    | '/' :: '/' :: _ => false
    | '/' :: _ => true
    | _ => !(contains (p.takeWhile (fun c => c != '/')) ':')
  dot := fun c => c != '\n'

/-! ## The path variable pattern -/

/-- Length of the shortest continuation `.*?\}` at the start of the string:
the characters up to and including the first closing brace, all characters
before it being matched by `.`. -/
def closeLen (dot : Char → Bool) : QString → Option Nat
  | [] => none
  | c :: cs =>
    if c = '}' then some 1
    else if dot c then (closeLen dot cs).map (fun n => n + 1)
    else none

/-- Length of the match of `pathVariableRx`, that is `\{(.+)\}` with
`InvertedGreedinessOption`, at the start of the string. -/
def pathVariableRxLen (dot : Char → Bool) : QString → Option Nat
  | '{' :: c :: cs => if dot c then (closeLen dot cs).map (fun n => n + 2) else none
  | _ => none

/-- `QString::replace(pathVariableRx, after)`: every match, found from left to
right, is replaced. `skip` counts the characters of the current match that are
still to be dropped. -/
def replacePathVariables (dot : Char → Bool) (after : QString) : Nat → QString → QString
  | _, [] => []
  | skip + 1, _ :: cs => replacePathVariables dot after skip cs
  | 0, c :: cs =>
    match pathVariableRxLen dot (c :: cs) with
    | some n => after ++ replacePathVariables dot after (n - 1) cs
    | none => c :: replacePathVariables dot after 0 cs

/-- `pathVariableExactRx.match(level)`: the anchored pattern matches a level
that starts with an opening brace, ends with a closing brace and has at least
one character in between, each matched by `.`; the result is `captured(1)`. -/
def pathVariableExact (dot : Char → Bool) : QString → Option QString
  | '{' :: rest =>
    if 2 ≤ rest.length ∧ rest.getLast? = some '}' ∧ rest.dropLast.all dot then
      some rest.dropLast
    else none
  | _ => none

/-! ## AddEndpoint and RemoveEndpoint -/

/-- The member `endpoints`: `QHash<QPair<QString, HttpMethod>, QString>`. -/
abbrev Endpoints := QHash (QString × HttpMethod) QString

/-- The local `endpointAdjusted` of `AddEndpoint`: path variables replaced by
`[variableName]`, then `#` by `hashtag`. -/
def endpointAdjusted (qt : Qt) (endpoint : QString) : QString :=
  replaceChar '#' "hashtag".toList
    (replacePathVariables qt.dot "[variableName]".toList 0 endpoint)

/-- `HttpServerWebccPrivate::AddEndpoint`: the result (or the raised event)
and the member `endpoints` after the call. -/
def AddEndpoint (qt : Qt) (endpoints : Endpoints) (endpoint : QString) (method : HttpMethod) :
    Except Exception Bool × Endpoints :=
  if contains endpoint '#' ∧ indexOf '#' endpoint ≠ (endpoint.length : Int) - 1 then
    (Except.error ((Ex EventId.InvalidEndpointHashtagWildcard).Arg endpoint), endpoints)
  else if contains (endpointAdjusted qt endpoint) '{' then
    (Except.error ((Ex EventId.InvalidCharacterInEndpoint).Arg ['{']), endpoints)
  else if contains (endpointAdjusted qt endpoint) '}' then
    (Except.error ((Ex EventId.InvalidCharacterInEndpoint).Arg ['}']), endpoints)
  else if ¬ qt.urlValid (endpointAdjusted qt endpoint) then
    (Except.error ((Ex EventId.InvalidEndpoint).Arg endpoint), endpoints)
  else
    match QHash.find endpoints (endpointAdjusted qt endpoint, method) with
    | some registered =>
      (Except.error (((Ex EventId.AmbiguousEndpoint).Arg endpoint).Arg registered), endpoints)
    | none =>
      (Except.ok true, QHash.insert endpoints (endpointAdjusted qt endpoint, method) endpoint)

/-- The loop of `RemoveEndpoint` over the items still to visit. -/
def RemoveEndpoint.loop (endpoints : Endpoints) (endpoint : QString) (method : HttpMethod) :
    List ((QString × HttpMethod) × QString) → Bool × Endpoints
  | [] => (false, endpoints)
  | it :: rest =>
    if it.2 = endpoint ∧ it.1.2 = method then (true, QHash.remove endpoints it.1)
    else RemoveEndpoint.loop endpoints endpoint method rest

/-- `HttpServerWebccPrivate::RemoveEndpoint`: the result and the member
`endpoints` after the call. -/
def RemoveEndpoint (endpoints : Endpoints) (endpoint : QString) (method : HttpMethod) :
    Bool × Endpoints :=
  RemoveEndpoint.loop endpoints endpoint method endpoints

/-! ## Matches -/

/-- `struct UrlMatch` (the member `match` is called `matched` here). -/
structure UrlMatch where
  matched : Bool
  level : Int
  endpoint : QString
  pathVariables : QHash QString QString
  multiLevel : QString
deriving DecidableEq

/-- The `for` loop of `Matches`, from index `i` on, over the endpoint levels
still to visit. An early `return match` leaves with what was accumulated so
far and `match` still false. -/
def Matches.loop (qt : Qt) (urlLevels : List QString) :
    Nat → List QString → UrlMatch → UrlMatch
  | _, [], m => { m with matched := true }
  | i, endpointLevel :: rest, m =>
    match pathVariableExact qt.dot endpointLevel with
    | some name =>
      Matches.loop qt urlLevels (i + 1) rest
        { m with
          pathVariables := QHash.insert m.pathVariables name (urlLevels.getD i [])
          level := m.level + 1 }
    | none =>
      if endpointLevel = ['#'] then
        Matches.loop qt urlLevels (i + 1) rest
          { m with
            multiLevel := '/' :: join '/' (urlLevels.drop i)
            level := (urlLevels.length : Int) - (i : Int) + 1 }
      else if urlLevels.getD i [] ≠ endpointLevel then m
      else Matches.loop qt urlLevels (i + 1) rest m

/-- `HttpServerWebccPrivate::Matches`. -/
def Matches (qt : Qt) (endpoint url : QString) : UrlMatch :=
  let m : UrlMatch :=
    { matched := false, level := 0, endpoint := endpoint, pathVariables := [], multiLevel := [] }
  let escapedEndpoint := qt.urlPath endpoint
  let urlLevels := split '/' url
  let endpointLevels := split '/' escapedEndpoint
  if urlLevels.length < endpointLevels.length then m
  else if urlLevels.length > endpointLevels.length ∧ ¬ endsWith escapedEndpoint '#' then m
  else Matches.loop qt urlLevels 0 endpointLevels m

/-! ## webcc -/

/-- What `HandleRequest` and `ProcessRequest` read from a `webcc::Request`. -/
structure WebccRequest where
  /-- `method()`. -/
  method : QString
  /-- `url().path()`. -/
  path : QString
  /-- `url().query()`, the query string. -/
  urlQuery : QString
  /-- `query()`, the parameters in order. -/
  query : List (QString × QString)
  /-- `headers()`, in order. -/
  headers : List (QString × QString)
  /-- `data()`. -/
  data : QByteArray
deriving DecidableEq

/-- What the server puts into a `webcc::Response`: the arguments given to the
`ResponseBuilder` and the `SetHeader` calls made afterwards, in order. -/
structure WebccResponse where
  code : Int
  /-- The characters the `std::string_view` given to `MediaType` was made
  over. -/
  mediaType : QString
  body : QByteArray
  utf8 : Bool
  headers : List (QString × QString)
  /-- The view given to `MediaType` was made over `constData()` of a temporary
  `QByteArray`, which is destroyed at the end of the statement that made the
  view, before the builder reads it: what the builder reads there is not
  defined by the program, `mediaType` is only what the buffer held. -/
  viewOfTemporary : Bool := false
deriving DecidableEq

namespace WebccResponse

/-- `webcc::ResponseBuilder{}.Code(code)()`. -/
def Code (code : Int) : WebccResponse :=
  { code := code, mediaType := [], body := [], utf8 := false, headers := [] }

/-- `webcc::ResponseBuilder{}.NotFound()()`. -/
def NotFound : WebccResponse := Code 404

/-- `webcc::ResponseBuilder{}.InternalServerError()()`. -/
def InternalServerError : WebccResponse := Code 500

/-- `webcc::Response::SetHeader(key, value)`. -/
def SetHeader (r : WebccResponse) (key value : QString) : WebccResponse :=
  { r with headers := r.headers ++ [(key, value)] }

end WebccResponse

/-- The constants of `webcc::methods`. -/
def kGet : QString := "GET".toList
def kPost : QString := "POST".toList
def kPut : QString := "PUT".toList
def kDelete : QString := "DELETE".toList
def kPatch : QString := "PATCH".toList
def kHead : QString := "HEAD".toList
def kOptions : QString := "OPTIONS".toList

/-- `HttpServerWebccPrivate::MapMethod(QString)`. -/
def MapMethod (method : QString) : HttpMethod :=
  if method = "Unknown".toList then HttpMethod.UNKNOWN
  else if method = kGet then HttpMethod.GET
  else if method = kPost then HttpMethod.POST
  else if method = kPut then HttpMethod.PUT
  else if method = kDelete then HttpMethod.DELETE
  else if method = kPatch then HttpMethod.PATCH
  else if method = kHead then HttpMethod.HEAD
  else if method = kOptions then HttpMethod.OPTIONS
  else if method = "All".toList then HttpMethod.ALL
  else HttpMethod.UNKNOWN

/-! ## ProcessRequest -/

/-- The virtual `HttpServer::OnRequest(endpoint, url, pathInfo, request)`. -/
abbrev Callback := QString → QString → PathInfo → HttpRequest → HttpResponse

/-- The member `reservedHeaders`. -/
def reservedHeaders : List QString :=
  ["Server".toList, "Content-Length".toList, "Connection".toList, "Date".toList]

/-- The status code test of `ProcessRequest` (the condition under the `!`). -/
def statusCodeAllowed (code : Int) : Bool :=
  decide ((code ≥ 200 ∧ code ≤ 208) ∨ code = 226 ∨
    (code ≥ 300 ∧ code ≤ 308 ∧ code ≠ 306) ∨
    (code ≥ 400 ∧ code ≤ 417) ∨
    (code ≥ 421 ∧ code ≤ 424) ∨ code = 426 ∨
    (code ≥ 428 ∧ code ≤ 429) ∨ code = 431 ∨ code = 451 ∨
    (code ≥ 500 ∧ code ≤ 508) ∨ code = 510 ∨ code = 511)

/-- The loop "Set headers" of `ProcessRequest` over the response headers
still to visit. The reserved names are looked up with the `QString`, while
`SetHeader` is given `header.toUtf8().data()` and `i.value().toUtf8().data()`,
which end at the first U+0000. -/
def ProcessRequest.setHeaders (response : WebccResponse) :
    List (QString × QString) → WebccResponse
  | [] => response
  | (header, value) :: rest =>
    if header ∈ reservedHeaders then WebccResponse.InternalServerError
    else
      ProcessRequest.setHeaders (response.SetHeader (toUtf8Data header) (toUtf8Data value))
        rest

/-- The first part of `ProcessRequest`, up to "Call callback": the response
the callback returns for the arguments built from the match and the request. -/
def ProcessRequest.call (OnRequest : Callback) (serverName : QString) (um : UrlMatch)
    (requestData : WebccRequest) : HttpResponse :=
  let query : QHash QString QString :=
    requestData.query.foldl (fun q parameter => QHash.insert q parameter.1 parameter.2) []
  let headers : QHash QString QString :=
    requestData.headers.foldl (fun h header => QHash.insert h header.1 header.2) []
  let path : PathInfo :=
    { path := requestData.path, variablesMap := um.pathVariables,
      multiLevel := um.multiLevel, query := query }
  let request : HttpRequest :=
    { method := MapMethod requestData.method, headers := headers, body := requestData.data }
  let url : QString :=
    if requestData.urlQuery ≠ [] then serverName ++ requestData.path ++ '?' :: requestData.urlQuery
    else serverName ++ requestData.path
  OnRequest um.endpoint url path request

/-- The second part of `ProcessRequest`, from "Verify status code" on: the
transport response made of the callback's response. The calls of `Log()` are
left out here, `Exception::Log` does nothing; with them goes the test for a
`HEAD` request with a body, which does nothing else. What is logged is given
by `ProcessRequest.logged`. The local `contentType` is a `std::string_view`:
over a string literal for the two defaults, and over
`httpResponse.headers["Content-Type"].toUtf8().constData()` when the header
is set, a C string in the buffer of a temporary that no longer exists when
`MediaType(contentType)` reads the view. -/
def ProcessRequest.emit (httpResponse : HttpResponse) : WebccResponse :=
  if ¬ statusCodeAllowed httpResponse.statusCode then WebccResponse.InternalServerError
  else
    let contentType : QString :=
      match QHash.find httpResponse.headers "Content-Type".toList with
      | some value => toUtf8Data value
      | none =>
        if httpResponse.body.length = 0 then "application/x-empty".toList
        else "application/octet-stream".toList
    let response : WebccResponse :=
      { code := httpResponse.statusCode, mediaType := contentType,
        body := httpResponse.body, utf8 := true, headers := [],
        viewOfTemporary := QHash.containsKey httpResponse.headers "Content-Type".toList }
    ProcessRequest.setHeaders response httpResponse.headers

/-- `HttpServerWebccPrivate::ProcessRequest`. -/
def ProcessRequest (OnRequest : Callback) (serverName : QString) (um : UrlMatch)
    (requestData : WebccRequest) : WebccResponse :=
  ProcessRequest.emit (ProcessRequest.call OnRequest serverName um requestData)

/-! ## HandleRequest -/

/-- One pass of the first loop of `HandleRequest`: the local `matches` after
the item `it` of `endpoints` has been visited. -/
def HandleRequest.visit (qt : Qt) (url : QString) (found : QHash HttpMethod UrlMatch)
    (it : (QString × HttpMethod) × QString) : QHash HttpMethod UrlMatch :=
  let um := Matches qt it.2 url
  if um.matched then
    match QHash.find found it.1.2 with
    | some kept =>
      if kept.level > um.level then QHash.insert found it.1.2 um
      else if kept.level = um.level then
        let _event := ThrowUnknownEx
        found
      else found
    | none => QHash.insert found it.1.2 um
  else found

/-- The local `matches` of `HandleRequest` after its first loop. -/
def HandleRequest.matches (qt : Qt) (endpoints : Endpoints) (url : QString) :
    QHash HttpMethod UrlMatch :=
  endpoints.foldl (HandleRequest.visit qt url) []

/-- `HttpServerWebccPrivate::HandleRequest`. No statement of it raises, so the
result is always `Except.ok`. -/
def HandleRequest (qt : Qt) (OnRequest : Callback) (serverName : QString)
    (endpoints : Endpoints) (requestData : WebccRequest) : Except Exception WebccResponse :=
  let found := HandleRequest.matches qt endpoints requestData.path
  if QHash.count found > 0 then
    match QHash.find found (MapMethod requestData.method) with
    | some um => Except.ok (ProcessRequest OnRequest serverName um requestData)
    | none =>
      match QHash.find found HttpMethod.ALL with
      | some um => Except.ok (ProcessRequest OnRequest serverName um requestData)
      | none => Except.ok (WebccResponse.Code 405)
  else Except.ok WebccResponse.NotFound

/-! ## Notions used in the statements -/

/-- Some registered template matches the path. -/
def MatchesPath (qt : Qt) (endpoints : Endpoints) (url : QString) : Prop :=
  ∃ it ∈ endpoints, (Matches qt it.2 url).matched = true

/-- Some template registered under `method` matches the path. -/
def MatchesUnder (qt : Qt) (endpoints : Endpoints) (url : QString) (method : HttpMethod) : Prop :=
  ∃ it ∈ endpoints, it.1.2 = method ∧ (Matches qt it.2 url).matched = true

instance (qt : Qt) (endpoints : Endpoints) (url : QString) :
    Decidable (MatchesPath qt endpoints url) := by
  unfold MatchesPath
  infer_instance

instance (qt : Qt) (endpoints : Endpoints) (url : QString) (method : HttpMethod) :
    Decidable (MatchesUnder qt endpoints url method) := by
  unfold MatchesUnder
  infer_instance

/-- The template passes the three checks of `AddEndpoint` that come before
the look-up in `endpoints`. -/
def PassesValidation (qt : Qt) (endpoint : QString) : Prop :=
  ¬ (contains endpoint '#' ∧ indexOf '#' endpoint ≠ (endpoint.length : Int) - 1) ∧
  contains (endpointAdjusted qt endpoint) '{' = false ∧
  contains (endpointAdjusted qt endpoint) '}' = false ∧
  qt.urlValid (endpointAdjusted qt endpoint) = true

instance (qt : Qt) (endpoint : QString) : Decidable (PassesValidation qt endpoint) := by
  unfold PassesValidation
  infer_instance

/-- The registries a server can hold: the empty one, and what `AddEndpoint`
and `RemoveEndpoint` leave behind; as the iteration order of a `QHash` is not
specified, every reordering of the items counts too. -/
inductive Reachable (qt : Qt) : Endpoints → Prop where
  | empty : Reachable qt []
  | add (r : Endpoints) (t : QString) (m : HttpMethod) :
      Reachable qt r → Reachable qt (AddEndpoint qt r t m).2
  | remove (r : Endpoints) (t : QString) (m : HttpMethod) :
      Reachable qt r → Reachable qt (RemoveEndpoint r t m).2
  | reorder (r r2 : Endpoints) : Reachable qt r → List.Perm r r2 → Reachable qt r2

/-- Every key is the adjusted form of the template stored under it, and no
key occurs twice. -/
def WellFormed (qt : Qt) (r : Endpoints) : Prop :=
  QHash.UniqueKeys r ∧ ∀ it ∈ r, it.1.1 = endpointAdjusted qt it.2

/-! ## Fixtures for the concrete scenarios -/

/-- A request with the given method and path and nothing else. -/
def plainRequest (method path : QString) : WebccRequest :=
  { method := method, path := path, urlQuery := [], query := [], headers := [], data := [] }

/-- A callback that answers 200 and reports the endpoint it was called with
in the header `X-Endpoint`. -/
def echoEndpoint : Callback :=
  fun endpoint _ _ _ =>
    { statusCode := 200, headers := [("X-Endpoint".toList, endpoint)], body := [] }

/-- A callback that answers with the given status code, no headers, no body. -/
def answerStatus (code : Int) : Callback :=
  fun _ _ _ _ => { statusCode := code, headers := [], body := [] }

/-- The registry after the two successful calls `AddEndpoint(first, m1)` and
`AddEndpoint(second, m2)` on an empty server. -/
def registryOfTwo (first : QString) (m1 : HttpMethod) (second : QString) (m2 : HttpMethod) :
    Endpoints :=
  (AddEndpoint qtRef (AddEndpoint qtRef [] first m1).2 second m2).2

/-! ## Notions used in the statements on templates and on Matches -/

/-- Every brace of the string lies in a run `{name}` of the kind
`pathVariableRx` finds from left to right: an opening brace, a first character
matched by `.`, then characters matched by `.` that are no closing brace, then
the closing brace. Outside the runs there is no brace. -/
inductive BracesInRuns (dot : Char → Bool) : QString → Prop where
  | done : BracesInRuns dot []
  | plain (c : Char) (s : QString) :
      c ≠ '{' → c ≠ '}' → BracesInRuns dot s → BracesInRuns dot (c :: s)
  | run (c : Char) (cs s : QString) :
      dot c = true → (∀ x ∈ cs, dot x = true ∧ x ≠ '}') → BracesInRuns dot s →
      BracesInRuns dot ('{' :: c :: cs ++ '}' :: s)

/-- The local `endpointLevels` of `Matches`: the levels of the endpoint after
its way through `QUrl`. -/
def endpointLevels (qt : Qt) (endpoint : QString) : List QString :=
  split '/' (qt.urlPath endpoint)

/-- The endpoint level visited at index `i` does not end the loop of `Matches`
early: it is a path variable, or `#`, or equal to the url level at `i`. -/
def LevelPasses (qt : Qt) (urlLevels : List QString) (i : Nat) (level : QString) : Prop :=
  pathVariableExact qt.dot level ≠ none ∨ level = ['#'] ∨ urlLevels.getD i [] = level

/-- The endpoint levels, visited from index `i` on, all pass. -/
def AllPass (qt : Qt) (urlLevels : List QString) : Nat → List QString → Prop
  | _, [] => True
  | i, level :: rest => LevelPasses qt urlLevels i level ∧ AllPass qt urlLevels (i + 1) rest

instance (qt : Qt) (urlLevels : List QString) (i : Nat) (level : QString) :
    Decidable (LevelPasses qt urlLevels i level) := by
  unfold LevelPasses
  infer_instance

/-- Whether the endpoint levels all pass can be computed level by level. -/
def AllPass.decidable (qt : Qt) (urlLevels : List QString) :
    ∀ (i : Nat) (l : List QString), Decidable (AllPass qt urlLevels i l)
  | _, [] => isTrue trivial
  | i, level :: rest =>
    have : Decidable (AllPass qt urlLevels (i + 1) rest) :=
      AllPass.decidable qt urlLevels (i + 1) rest
    inferInstanceAs
      (Decidable (LevelPasses qt urlLevels i level ∧ AllPass qt urlLevels (i + 1) rest))

instance (qt : Qt) (urlLevels : List QString) (i : Nat) (l : List QString) :
    Decidable (AllPass qt urlLevels i l) :=
  AllPass.decidable qt urlLevels i l

/-- The local `match` of `Matches` as it is before the loop, which is also
what the two early returns on the number of levels give back. -/
def UrlMatch.initial (endpoint : QString) : UrlMatch :=
  { matched := false, level := 0, endpoint := endpoint, pathVariables := [], multiLevel := [] }

/-- The names of the path variables among the levels, in order. -/
def variableNames (qt : Qt) (levels : List QString) : List QString :=
  levels.filterMap (pathVariableExact qt.dot)

/-! ## What ProcessRequest logs and passes on -/

/-- `QString::number(int)`. -/
def number (n : Int) : QString :=
  (toString n).toList

/-- `Exception::Arg(int)`. -/
def Exception.ArgInt (e : Exception) (arg : Int) : Exception :=
  e.Arg (number arg)

/-- The local `query` of `ProcessRequest`, which goes into the `PathInfo`
given to the callback. -/
def ProcessRequest.query (requestData : WebccRequest) : QHash QString QString :=
  requestData.query.foldl (fun q parameter => QHash.insert q parameter.1 parameter.2) []

/-- The events on which `ProcessRequest` calls `Log()`, in order: the invalid
status code, or else the warning for a `HEAD` request answered with a body
followed by the first reserved header the loop "Set headers" meets. -/
def ProcessRequest.logged (OnRequest : Callback) (serverName : QString) (um : UrlMatch)
    (requestData : WebccRequest) : List Exception :=
  let httpResponse := ProcessRequest.call OnRequest serverName um requestData
  if ¬ statusCodeAllowed httpResponse.statusCode then
    [(((Ex EventId.InvalidStatusCode).Arg serverName).Arg um.endpoint).ArgInt
      httpResponse.statusCode]
  else
    (if (MapMethod requestData.method &&& HttpMethod.HEAD) ≠ 0 ∧ httpResponse.body.length > 0
      then [((Warn EventId.HeadWithBody).Arg serverName).Arg um.endpoint]
      else []) ++
    match httpResponse.headers.find? (fun h => decide (h.1 ∈ reservedHeaders)) with
    | some h => [(((Ex EventId.ReserverHeader).Arg serverName).Arg um.endpoint).Arg h.1]
    | none => []

/-- The allow-list of status codes as the specification words it: the set
200..208, 226, 300..305, 307, 308, 400..417, 421..424, 426, 428, 429, 431,
451, 500..508, 510, 511. -/
def statusCodeListed (code : Int) : Prop :=
  (200 ≤ code ∧ code ≤ 208) ∨ code = 226 ∨ (300 ≤ code ∧ code ≤ 305) ∨ code = 307 ∨
  code = 308 ∨ (400 ≤ code ∧ code ≤ 417) ∨ (421 ≤ code ∧ code ≤ 424) ∨ code = 426 ∨
  code = 428 ∨ code = 429 ∨ code = 431 ∨ code = 451 ∨ (500 ≤ code ∧ code ≤ 508) ∨
  code = 510 ∨ code = 511

instance (code : Int) : Decidable (statusCodeListed code) := by
  unfold statusCodeListed
  infer_instance

/-- A callback that answers every request with the given response. -/
def answerWith (response : HttpResponse) : Callback :=
  fun _ _ _ _ => response

/-- A callback that answers 200 and reports the query map it was called with
as the headers of its response. -/
def echoQuery : Callback :=
  fun _ _ path _ => { statusCode := 200, headers := path.query, body := [] }

/-- A request with the given method, path, query string and the parameters
of the query string in order, and nothing else. -/
def queryRequest (method path urlQuery : QString) (query : List (QString × QString)) :
    WebccRequest :=
  { method := method, path := path, urlQuery := urlQuery, query := query, headers := [],
    data := [] }

/-! ## The server: HttpServer.cpp and the lifecycle part of HttpServerWebcc.cpp -/

/-- `enum SslKeyAlgorithm`. -/
inductive SslKeyAlgorithm where
  | RSA
  | DSA
  | EllipticCurve
  | DiffieHellman
deriving DecidableEq

/-- `enum SslEncoding`. -/
inductive SslEncoding where
  | PEM
  | DER
deriving DecidableEq

/-- What the server takes from QtNetwork and webcc without defining it. -/
structure Transport where
  /-- `QTcpSocket::bind(port, DontShareAddress)`: the `localPort()` of the
  bound socket, or the `errorString()` when binding fails. -/
  bindPort : Int → Except QString Int
  /-- The result of `server->Route(...)`. -/
  route : Bool
  /-- `QSslCertificate(data, encoding)`: `none` for a null certificate, else
  its `toPem()`. -/
  certificate : QByteArray → SslEncoding → Option QByteArray
  /-- `QSslKey(data, algorithm, encoding, QSsl::PrivateKey, passphraseData)`,
  with the `passphraseData` that `SetPrivateKey` makes of the passphrase given
  here: `none` for a null key, else its `toPem()`. -/
  privateKey : QByteArray → SslKeyAlgorithm → SslEncoding → QString → Option QByteArray
  /-- `QHostAddress::setAddress(address)`: `none` when it fails, else the
  `toString()` of the address. -/
  hostAddress : QString → Option QString

/-- A reference transport for concrete evaluations: port 0 is bound to 49152,
every other port number up to 65535 to itself, routing succeeds, and every
non-empty buffer or string is a certificate, a key, an address. -/
def trRef : Transport where
  bindPort := fun port =>
    if port = 0 then Except.ok 49152
    else if 0 < port ∧ port ≤ 65535 then Except.ok port
    else Except.error "The address is not available".toList
  route := true
  certificate := fun data _ => if data = [] then none else some data
  privateKey := fun data _ _ _ => if data = [] then none else some data
  hostAddress := fun address => if address = [] then none else some address

/-- The server object `new webcc::Server(v4, port)` or
`new webcc::SslServer(v4, port)` with the certificate chain and the private
key given to its SSL context. -/
inductive WebccServer where
  | Server (port : Int)
  | SslServer (port : Int) (certificateChain privateKey : QByteArray)
deriving DecidableEq

/-- The members of `HttpServerWebcc` and of its `HttpServerWebccPrivate`:
`address` holds the `toString()` of the `QHostAddress`, a null certificate or
key is `none`, and `server` is `none` while no server object exists. -/
structure HttpServerWebcc where
  address : QString
  port : Int
  certificate : Option QByteArray
  privateKey : Option QByteArray
  server : Option WebccServer
  serverName : QString
  endpoints : Endpoints
deriving DecidableEq

/-- `HttpServerWebccPrivate::GetFreePort`. -/
def GetFreePort (tr : Transport) (port : Int) : Except Exception Int :=
  match tr.bindPort port with
  | Except.ok assignedPort => Except.ok assignedPort
  | Except.error errorString => Except.error ((Ex EventId.FailedToStart).Arg errorString)

/-- The end of `HttpServerWebccPrivate::Start`, from `server->Route` on, once
the server object exists. -/
def StartRouted (tr : Transport) (sslEnabled : Bool) (serverAddress : QString)
    (s : HttpServerWebcc) : Except Exception Bool × HttpServerWebcc :=
  if ¬ tr.route then
    (Except.error ((Ex EventId.FailedToStart).Arg "Routing failed.".toList), s)
  else
    (Except.ok true,
      { s with
        serverName :=
          (if sslEnabled then "https://".toList else "http://".toList) ++ serverAddress })

/-- `HttpServerWebccPrivate::Start(address, port)`, called with the members
`address` and `port` of the server, `port` by reference. -/
def StartPrivate (tr : Transport) (s : HttpServerWebcc) :
    Except Exception Bool × HttpServerWebcc :=
  match GetFreePort tr s.port with
  | Except.error e => (Except.error e, s)
  | Except.ok port =>
    match s.certificate, s.privateKey with
    | some _, none =>
      (Except.error ((Ex EventId.MissingPrivateKey).Arg
        ("https://".toList ++ (s.address ++ ':' :: number port))), { s with port := port })
    | none, some _ =>
      (Except.error ((Ex EventId.MissingCertificate).Arg
        ("https://".toList ++ (s.address ++ ':' :: number port))), { s with port := port })
    | some certificateData, some privateKeyData =>
      StartRouted tr true (s.address ++ ':' :: number port)
        { s with
          port := port
          server := some (WebccServer.SslServer port certificateData privateKeyData) }
    | none, none =>
      StartRouted tr false (s.address ++ ':' :: number port)
        { s with port := port, server := some (WebccServer.Server port) }

/-- `HttpServerWebccPrivate::Stop`. -/
def StopPrivate (s : HttpServerWebcc) : Except Exception Bool × HttpServerWebcc :=
  (Except.ok true, { s with server := none })

/-- `HttpServerWebccPrivate::SetCertificate`. -/
def SetCertificatePrivate (tr : Transport) (data : QByteArray) (encoding : SslEncoding)
    (s : HttpServerWebcc) : Except Exception Bool × HttpServerWebcc :=
  (Except.ok (tr.certificate data encoding).isSome,
    { s with certificate := tr.certificate data encoding })

/-- `HttpServerWebccPrivate::SetPrivateKey`. -/
def SetPrivateKeyPrivate (tr : Transport) (data : QByteArray) (encoding : SslEncoding)
    (algorithm : SslKeyAlgorithm) (passphrase : QString) (s : HttpServerWebcc) :
    Except Exception Bool × HttpServerWebcc :=
  match algorithm with
  | SslKeyAlgorithm.DiffieHellman => (Except.ok false, s)
  | _ =>
    (Except.ok (tr.privateKey data algorithm encoding passphrase).isSome,
      { s with privateKey := tr.privateKey data algorithm encoding passphrase })

/-- `HttpServerWebccPrivate::IsHttps`. -/
def IsHttpsPrivate (s : HttpServerWebcc) : Bool :=
  s.certificate.isSome || s.privateKey.isSome

/-- `HttpServerWebcc::AddressImpl(const QString&)`. -/
def AddressImpl (tr : Transport) (address : QString) (s : HttpServerWebcc) :
    Except Exception Bool × HttpServerWebcc :=
  match tr.hostAddress address with
  | none => (Except.error ((Ex EventId.InvalidAddress).Arg address), s)
  | some hostAddress => (Except.ok true, { s with address := hostAddress })

/-- `HttpServerWebcc::PortImpl(int)`. -/
def PortImpl (port : Int) (s : HttpServerWebcc) : Except Exception Bool × HttpServerWebcc :=
  if port < 0 ∨ port > 65535 then (Except.error ((Ex EventId.InvalidPort).ArgInt port), s)
  else (Except.ok true, { s with port := port })

/-- The object of the abstract class `HttpServer`: its member `started` and
the members of the derived class. -/
structure HttpServer (σ : Type) where
  started : Bool
  derived : σ
deriving DecidableEq

/-- The pure virtual functions of `HttpServer`. Those that change the object
give their result, or the raised event, and the members they leave behind;
the setters of address and port, which return nothing, give `true`. The
overloads `AddressImpl()` and `PortImpl()` without argument are the fields
`AddressImplGet` and `PortImplGet`. -/
structure HttpServerImpl (σ : Type) where
  AddressImpl : QString → σ → Except Exception Bool × σ
  PortImpl : Int → σ → Except Exception Bool × σ
  IsHttpsImpl : σ → Bool
  StartImpl : σ → Except Exception Bool × σ
  StopImpl : σ → Except Exception Bool × σ
  AddEndpointImpl : QString → HttpMethod → σ → Except Exception Bool × σ
  RemoveEndpointImpl : QString → HttpMethod → σ → Except Exception Bool × σ
  SetCertificateImpl : QByteArray → SslEncoding → σ → Except Exception Bool × σ
  SetPrivateKeyImpl :
    QByteArray → SslEncoding → SslKeyAlgorithm → QString → σ → Except Exception Bool × σ
  AddressImplGet : σ → QString
  PortImplGet : σ → Int

namespace HttpServer

variable {σ : Type}

/-- A call of an implementation function from a function of `HttpServer` that
does not touch `started`. -/
def forward (s : HttpServer σ) (r : Except Exception Bool × σ) :
    Except Exception Bool × HttpServer σ :=
  (r.1, { started := s.started, derived := r.2 })

/-- `HttpServer::Start`: `started ? false : started = StartImpl()`. -/
def Start (impl : HttpServerImpl σ) (s : HttpServer σ) :
    Except Exception Bool × HttpServer σ :=
  if s.started then (Except.ok false, s)
  else
    match impl.StartImpl s.derived with
    | (Except.ok r, d) => (Except.ok r, { started := r, derived := d })
    | (Except.error e, d) => (Except.error e, { started := s.started, derived := d })

/-- `HttpServer::Stop`: `!started ? false : !(started = !StopImpl())`. -/
def Stop (impl : HttpServerImpl σ) (s : HttpServer σ) :
    Except Exception Bool × HttpServer σ :=
  if ¬ s.started then (Except.ok false, s)
  else
    match impl.StopImpl s.derived with
    | (Except.ok r, d) => (Except.ok (!(!r)), { started := !r, derived := d })
    | (Except.error e, d) => (Except.error e, { started := s.started, derived := d })

/-- `HttpServer::Running`. -/
def Running (s : HttpServer σ) : Bool :=
  s.started

/-- `HttpServer::IsHttps`. -/
def IsHttps (impl : HttpServerImpl σ) (s : HttpServer σ) : Bool :=
  impl.IsHttpsImpl s.derived

/-- `HttpServer::Address()`. -/
def Address (impl : HttpServerImpl σ) (s : HttpServer σ) : QString :=
  impl.AddressImplGet s.derived

/-- `HttpServer::Port()`. -/
def Port (impl : HttpServerImpl σ) (s : HttpServer σ) : Int :=
  impl.PortImplGet s.derived

/-- `HttpServer::SetCertificate`. -/
def SetCertificate (impl : HttpServerImpl σ) (certificateData : QByteArray)
    (encoding : SslEncoding) (s : HttpServer σ) : Except Exception Bool × HttpServer σ :=
  if s.started then (Except.ok false, s)
  else forward s (impl.SetCertificateImpl certificateData encoding s.derived)

/-- `HttpServer::SetPrivateKey`. -/
def SetPrivateKey (impl : HttpServerImpl σ) (keyData : QByteArray) (encoding : SslEncoding)
    (algorithm : SslKeyAlgorithm) (passphrase : QString) (s : HttpServer σ) :
    Except Exception Bool × HttpServer σ :=
  if s.started then (Except.ok false, s)
  else forward s (impl.SetPrivateKeyImpl keyData encoding algorithm passphrase s.derived)

/-- The calls of `HttpServer` that can change the object. -/
inductive Call where
  | Address (address : QString)
  | Port (port : Int)
  | Start
  | Stop
  | AddEndpoint (endpoint : QString) (method : HttpMethod)
  | RemoveEndpoint (endpoint : QString) (method : HttpMethod)
  | SetCertificate (certificateData : QByteArray) (encoding : SslEncoding)
  | SetPrivateKey (keyData : QByteArray) (encoding : SslEncoding)
      (algorithm : SslKeyAlgorithm) (passphrase : QString)
deriving DecidableEq

/-- The function of `HttpServer` a call names, applied to the object. -/
def perform (impl : HttpServerImpl σ) (c : Call) (s : HttpServer σ) :
    Except Exception Bool × HttpServer σ :=
  match c with
  | Call.Address address => forward s (impl.AddressImpl address s.derived)
  | Call.Port port => forward s (impl.PortImpl port s.derived)
  | Call.Start => Start impl s
  | Call.Stop => Stop impl s
  | Call.AddEndpoint endpoint method => forward s (impl.AddEndpointImpl endpoint method s.derived)
  | Call.RemoveEndpoint endpoint method =>
    forward s (impl.RemoveEndpointImpl endpoint method s.derived)
  | Call.SetCertificate data encoding => SetCertificate impl data encoding s
  | Call.SetPrivateKey data encoding algorithm passphrase =>
    SetPrivateKey impl data encoding algorithm passphrase s

/-- The object after a sequence of calls, a raised event ending only the call
that raised it. -/
def performAll (impl : HttpServerImpl σ) : List Call → HttpServer σ → HttpServer σ
  | [], s => s
  | c :: rest, s => performAll impl rest (perform impl c s).2

/-- What `Running()` is after a sequence of calls by the claim "true exactly
after a `Start()` that returned true and before the next `Stop()` that
returned true", starting from the value `running`. -/
def runningByCalls (impl : HttpServerImpl σ) : List Call → HttpServer σ → Bool → Bool
  | [], _, running => running
  | c :: rest, s, running =>
    runningByCalls impl rest (perform impl c s).2
      (if c = Call.Start ∧ (perform impl c s).1 = Except.ok true then true
       else if c = Call.Stop ∧ (perform impl c s).1 = Except.ok true then false
       else running)

end HttpServer

/-- `HttpServerWebcc::AddressImpl()`. -/
def AddressImplGet (s : HttpServerWebcc) : QString :=
  s.address

/-- `HttpServerWebcc::PortImpl()`. -/
def PortImplGet (s : HttpServerWebcc) : Int :=
  s.port

/-- The implementation functions of `HttpServerWebcc`, each forwarding to the
function of `HttpServerWebccPrivate` of the same name. -/
def webccImpl (qt : Qt) (tr : Transport) : HttpServerImpl HttpServerWebcc where
  AddressImpl := AddressImpl tr
  PortImpl := PortImpl
  IsHttpsImpl := IsHttpsPrivate
  StartImpl := StartPrivate tr
  StopImpl := StopPrivate
  AddEndpointImpl := fun endpoint method s =>
    ((AddEndpoint qt s.endpoints endpoint method).1,
      { s with endpoints := (AddEndpoint qt s.endpoints endpoint method).2 })
  RemoveEndpointImpl := fun endpoint method s =>
    (Except.ok (RemoveEndpoint s.endpoints endpoint method).1,
      { s with endpoints := (RemoveEndpoint s.endpoints endpoint method).2 })
  SetCertificateImpl := SetCertificatePrivate tr
  SetPrivateKeyImpl := SetPrivateKeyPrivate tr
  AddressImplGet := AddressImplGet
  PortImplGet := PortImplGet

/-- A server that was never started, listening address `127.0.0.1`, with the
given port, certificate and private key and no endpoint. -/
def newServer (port : Int) (certificate privateKey : Option QByteArray) :
    HttpServer HttpServerWebcc :=
  { started := false
    derived :=
      { address := "127.0.0.1".toList, port := port, certificate := certificate,
        privateKey := privateKey, server := none, serverName := [], endpoints := [] } }

/-! ## Matches with checked accesses, and the specified matcher -/

/-- The `for` loop of `Matches` with every access `endpointLevels[i]` and
`urlLevels[i]` checked: `none` when an index is out of bounds, else the result
with the number of iterations begun. `remaining` is
`endpointLevels.length() - i`, so that the loop condition
`i < endpointLevels.length()` reads `remaining ≠ 0`. The call
`urlLevels.mid(i)` of the `#` branch takes any position. -/
def Matches.loopChecked (qt : Qt) (urlLevels endpointLevels : List QString) :
    Nat → Nat → UrlMatch → Option (UrlMatch × Nat)
  | 0, _, m => some ({ m with matched := true }, 0)
  | remaining + 1, i, m =>
    match endpointLevels[i]? with
    | none => none
    | some endpointLevel =>
      match pathVariableExact qt.dot endpointLevel with
      | some name =>
        match urlLevels[i]? with
        | none => none
        | some urlLevel =>
          (Matches.loopChecked qt urlLevels endpointLevels remaining (i + 1)
            { m with
              pathVariables := QHash.insert m.pathVariables name urlLevel
              level := m.level + 1 }).map (fun r => (r.1, r.2 + 1))
      | none =>
        if endpointLevel = ['#'] then
          (Matches.loopChecked qt urlLevels endpointLevels remaining (i + 1)
            { m with
              multiLevel := '/' :: join '/' (urlLevels.drop i)
              level := (urlLevels.length : Int) - (i : Int) + 1 }).map (fun r => (r.1, r.2 + 1))
        else
          match urlLevels[i]? with
          | none => none
          | some urlLevel =>
            if urlLevel ≠ endpointLevel then some (m, 1)
            else
              (Matches.loopChecked qt urlLevels endpointLevels remaining (i + 1) m).map
                (fun r => (r.1, r.2 + 1))

/-- `HttpServerWebccPrivate::Matches` with the accesses of its loop checked:
`none` when an index is out of bounds, else the result with the number of
iterations of the loop. -/
def MatchesChecked (qt : Qt) (endpoint url : QString) : Option (UrlMatch × Nat) :=
  let m : UrlMatch :=
    { matched := false, level := 0, endpoint := endpoint, pathVariables := [], multiLevel := [] }
  let escapedEndpoint := qt.urlPath endpoint
  let urlLevels := split '/' url
  let endpointLevels := split '/' escapedEndpoint
  if urlLevels.length < endpointLevels.length then some (m, 0)
  else if urlLevels.length > endpointLevels.length ∧ ¬ endsWith escapedEndpoint '#' then
    some (m, 0)
  else Matches.loopChecked qt urlLevels endpointLevels endpointLevels.length 0 m

/-- The walk of the path matcher as the specification gives it (step 4): a
path variable records the url level and raises the level, a level `#` sets
`multiLevel` and the level and ends the walk, any other level must equal the
url level. A walk that ends without "no match" gives `match = true`. -/
def MatchesSpecified.loop (qt : Qt) (urlLevels : List QString) :
    Nat → List QString → UrlMatch → UrlMatch
  | _, [], m => { m with matched := true }
  | i, templateLevel :: rest, m =>
    match pathVariableExact qt.dot templateLevel with
    | some name =>
      MatchesSpecified.loop qt urlLevels (i + 1) rest
        { m with
          pathVariables := QHash.insert m.pathVariables name (urlLevels.getD i [])
          level := m.level + 1 }
    | none =>
      if templateLevel = ['#'] then
        { m with
          multiLevel := '/' :: join '/' (urlLevels.drop i)
          level := (urlLevels.length : Int) - (i : Int) + 1
          matched := true }
      else if urlLevels.getD i [] ≠ templateLevel then m
      else MatchesSpecified.loop qt urlLevels (i + 1) rest m

/-- The path matcher as the specification gives it (steps 1 to 5), on the
path form of the template. -/
def MatchesSpecified (qt : Qt) (template url : QString) : UrlMatch :=
  let m : UrlMatch :=
    { matched := false, level := 0, endpoint := template, pathVariables := [], multiLevel := [] }
  let urlLevels := split '/' url
  let templateLevels := split '/' (qt.urlPath template)
  if urlLevels.length < templateLevels.length then m
  else if urlLevels.length > templateLevels.length ∧ ¬ endsWith (qt.urlPath template) '#' then m
  else MatchesSpecified.loop qt urlLevels 0 templateLevels m

/-! ## Lemmas on QHash -/

namespace QHash

variable {κ ν : Type} [DecidableEq κ]

theorem find_insert_self (h : QHash κ ν) (k : κ) (v : ν) :
    find (insert h k v) k = some v := by
  induction h with
  | nil => simp [insert, find]
  | cons e rest ih =>
    obtain ⟨k', v'⟩ := e
    by_cases hk : k' = k
    · simp [insert, find, hk]
    · simp [insert, find, hk, ih]

theorem find_insert_ne (h : QHash κ ν) (k k2 : κ) (v : ν) (hne : k2 ≠ k) :
    find (insert h k v) k2 = find h k2 := by
  induction h with
  | nil => simp [insert, find, Ne.symm hne]
  | cons e rest ih =>
    obtain ⟨k', v'⟩ := e
    by_cases hk : k' = k
    · subst hk
      simp [insert, find, Ne.symm hne]
    · by_cases hk2 : k' = k2
      · subst hk2
        simp [insert, find, hne]
      · simp [insert, find, hk, hk2, ih]

theorem find_some_mem (h : QHash κ ν) (k : κ) (v : ν) (hf : find h k = some v) :
    (k, v) ∈ h := by
  induction h with
  | nil => simp [find] at hf
  | cons e rest ih =>
    obtain ⟨k', v'⟩ := e
    by_cases hk : k' = k
    · simp [find, hk] at hf
      simp [hk, hf]
    · simp [find, hk] at hf
      exact List.mem_cons_of_mem _ (ih hf)

theorem find_none_iff (h : QHash κ ν) (k : κ) :
    find h k = none ↔ ∀ it ∈ h, it.1 ≠ k := by
  induction h with
  | nil => simp [find]
  | cons e rest ih =>
    obtain ⟨k', v'⟩ := e
    by_cases hk : k' = k
    · simp [find, hk]
    · simp [find, hk, ih]

theorem insert_ne_nil (h : QHash κ ν) (k : κ) (v : ν) : insert h k v ≠ [] := by
  cases h with
  | nil => simp [insert]
  | cons e rest =>
    obtain ⟨k', v'⟩ := e
    by_cases hk : k' = k <;> simp [insert, hk]

theorem insert_of_find_none (h : QHash κ ν) (k : κ) (v : ν) (hf : find h k = none) :
    insert h k v = h ++ [(k, v)] := by
  induction h with
  | nil => simp [insert]
  | cons e rest ih =>
    obtain ⟨k', v'⟩ := e
    by_cases hk : k' = k
    · simp [find, hk] at hf
    · simp [find, hk] at hf
      simp [insert, hk, ih hf]

theorem exists_find_of_ne_nil (h : QHash κ ν) (hne : h ≠ []) :
    ∃ k v, find h k = some v := by
  cases h with
  | nil => exact absurd rfl hne
  | cons e rest =>
    obtain ⟨k', v'⟩ := e
    exact ⟨k', v', by simp [find]⟩

end QHash

theorem QHash.count_pos_iff {κ ν : Type} [DecidableEq κ] (h : QHash κ ν) :
    QHash.count h > 0 ↔ h ≠ [] := by
  cases h with
  | nil => simp [QHash.count]
  | cons e rest =>
    simp only [QHash.count, List.length_cons, ne_eq, reduceCtorEq, not_false_eq_true, iff_true]
    omega


/-! ## Lemmas on the first loop of HandleRequest -/

/-- What the local `matches` holds after the items `l` have been visited:
every kept match is the match of a visited item of that method, no visited
matching item of that method has a lower level, and every method with a
visited matching item has a kept match. -/
theorem HandleRequest.matches_spec (qt : Qt) (url : QString) (l : Endpoints) :
    (∀ m um, QHash.find (HandleRequest.matches qt l url) m = some um →
      (∃ it ∈ l, it.1.2 = m ∧ Matches qt it.2 url = um ∧ um.matched = true) ∧
      (∀ it ∈ l, it.1.2 = m → (Matches qt it.2 url).matched = true →
        um.level ≤ (Matches qt it.2 url).level)) ∧
    (∀ it ∈ l, (Matches qt it.2 url).matched = true →
      ∃ um, QHash.find (HandleRequest.matches qt l url) it.1.2 = some um) := by
  induction l using List.reverseRecOn with
  | nil =>
    constructor
    · intro m um h
      simp [HandleRequest.matches, QHash.find] at h
    · intro it hit
      simp at hit
  | append_singleton l it ih =>
    obtain ⟨ih1, ih2⟩ := ih
    have hstep : HandleRequest.matches qt (l ++ [it]) url =
        HandleRequest.visit qt url (HandleRequest.matches qt l url) it := by
      simp [HandleRequest.matches, List.foldl_append]
    rw [hstep]
    generalize hfound : HandleRequest.matches qt l url = found at ih1 ih2
    by_cases hm : (Matches qt it.2 url).matched = true
    · cases hk : QHash.find found it.1.2 with
      | none =>
        have hv : HandleRequest.visit qt url found it =
            QHash.insert found it.1.2 (Matches qt it.2 url) := by
          simp [HandleRequest.visit, hm, hk]
        rw [hv]
        constructor
        · intro m um h
          by_cases hmm : m = it.1.2
          · subst hmm
            rw [QHash.find_insert_self] at h
            injection h with h
            subst h
            refine ⟨⟨it, by simp, rfl, rfl, hm⟩, ?_⟩
            intro it2 hit2 hmeth hmat
            rcases List.mem_append.1 hit2 with h2 | h2
            · obtain ⟨um2, hum2⟩ := ih2 it2 h2 hmat
              rw [hmeth, hk] at hum2
              cases hum2
            · simp at h2
              subst h2
              exact le_refl _
          · rw [QHash.find_insert_ne _ _ _ _ hmm] at h
            obtain ⟨⟨it1, hit1, h1a, h1b, h1c⟩, hmin⟩ := ih1 m um h
            refine ⟨⟨it1, List.mem_append_left _ hit1, h1a, h1b, h1c⟩, ?_⟩
            intro it2 hit2 hmeth hmat
            rcases List.mem_append.1 hit2 with h2 | h2
            · exact hmin it2 h2 hmeth hmat
            · simp at h2
              subst h2
              exact absurd hmeth.symm hmm
        · intro it2 hit2 hmat
          by_cases hmm : it2.1.2 = it.1.2
          · rw [hmm, QHash.find_insert_self]
            exact ⟨_, rfl⟩
          · rw [QHash.find_insert_ne _ _ _ _ hmm]
            rcases List.mem_append.1 hit2 with h2 | h2
            · exact ih2 it2 h2 hmat
            · simp at h2
              subst h2
              exact absurd rfl hmm
      | some kept =>
        obtain ⟨⟨it0, hit0, h0a, h0b, h0c⟩, hmin0⟩ := ih1 it.1.2 kept hk
        by_cases hgt : kept.level > (Matches qt it.2 url).level
        · have hv : HandleRequest.visit qt url found it =
              QHash.insert found it.1.2 (Matches qt it.2 url) := by
            simp [HandleRequest.visit, hm, hk, hgt]
          rw [hv]
          constructor
          · intro m um h
            by_cases hmm : m = it.1.2
            · subst hmm
              rw [QHash.find_insert_self] at h
              injection h with h
              subst h
              refine ⟨⟨it, by simp, rfl, rfl, hm⟩, ?_⟩
              intro it2 hit2 hmeth hmat
              rcases List.mem_append.1 hit2 with h2 | h2
              · have := hmin0 it2 h2 hmeth hmat
                omega
              · simp at h2
                subst h2
                exact le_refl _
            · rw [QHash.find_insert_ne _ _ _ _ hmm] at h
              obtain ⟨⟨it1, hit1, h1a, h1b, h1c⟩, hmin⟩ := ih1 m um h
              refine ⟨⟨it1, List.mem_append_left _ hit1, h1a, h1b, h1c⟩, ?_⟩
              intro it2 hit2 hmeth hmat
              rcases List.mem_append.1 hit2 with h2 | h2
              · exact hmin it2 h2 hmeth hmat
              · simp at h2
                subst h2
                exact absurd hmeth.symm hmm
          · intro it2 hit2 hmat
            by_cases hmm : it2.1.2 = it.1.2
            · rw [hmm, QHash.find_insert_self]
              exact ⟨_, rfl⟩
            · rw [QHash.find_insert_ne _ _ _ _ hmm]
              rcases List.mem_append.1 hit2 with h2 | h2
              · exact ih2 it2 h2 hmat
              · simp at h2
                subst h2
                exact absurd rfl hmm
        · have hv : HandleRequest.visit qt url found it = found := by
            simp [HandleRequest.visit, hm, hk, hgt]
          rw [hv]
          constructor
          · intro m um h
            obtain ⟨⟨it1, hit1, h1a, h1b, h1c⟩, hmin⟩ := ih1 m um h
            refine ⟨⟨it1, List.mem_append_left _ hit1, h1a, h1b, h1c⟩, ?_⟩
            intro it2 hit2 hmeth hmat
            rcases List.mem_append.1 hit2 with h2 | h2
            · exact hmin it2 h2 hmeth hmat
            · simp at h2
              subst h2
              rw [← hmeth, hk] at h
              injection h with h
              subst h
              omega
          · intro it2 hit2 hmat
            rcases List.mem_append.1 hit2 with h2 | h2
            · exact ih2 it2 h2 hmat
            · simp at h2
              subst h2
              exact ⟨kept, hk⟩
    · have hv : HandleRequest.visit qt url found it = found := by
        simp [HandleRequest.visit, hm]
      rw [hv]
      constructor
      · intro m um h
        obtain ⟨⟨it1, hit1, h1a, h1b, h1c⟩, hmin⟩ := ih1 m um h
        refine ⟨⟨it1, List.mem_append_left _ hit1, h1a, h1b, h1c⟩, ?_⟩
        intro it2 hit2 hmeth hmat
        rcases List.mem_append.1 hit2 with h2 | h2
        · exact hmin it2 h2 hmeth hmat
        · simp at h2
          subst h2
          exact absurd hmat hm
      · intro it2 hit2 hmat
        rcases List.mem_append.1 hit2 with h2 | h2
        · exact ih2 it2 h2 hmat
        · simp at h2
          subst h2
          exact absurd hmat hm


/-! ## Lemmas on HandleRequest -/

theorem HandleRequest.matches_ne_nil_iff (qt : Qt) (endpoints : Endpoints) (url : QString) :
    HandleRequest.matches qt endpoints url ≠ [] ↔ MatchesPath qt endpoints url := by
  constructor
  · intro hne
    obtain ⟨m, um, hf⟩ := QHash.exists_find_of_ne_nil _ hne
    obtain ⟨⟨it, hit, _, hum, hmat⟩, _⟩ := (HandleRequest.matches_spec qt url endpoints).1 m um hf
    exact ⟨it, hit, by rw [hum]; exact hmat⟩
  · rintro ⟨it, hit, hmat⟩ hnil
    obtain ⟨um, hum⟩ := (HandleRequest.matches_spec qt url endpoints).2 it hit hmat
    rw [hnil] at hum
    simp [QHash.find] at hum

theorem HandleRequest.kept_some_iff (qt : Qt) (endpoints : Endpoints) (url : QString)
    (m : HttpMethod) :
    (∃ um, QHash.find (HandleRequest.matches qt endpoints url) m = some um) ↔
      MatchesUnder qt endpoints url m := by
  constructor
  · rintro ⟨um, hf⟩
    obtain ⟨⟨it, hit, hme, hum, hmat⟩, _⟩ := (HandleRequest.matches_spec qt url endpoints).1 m um hf
    exact ⟨it, hit, hme, by rw [hum]; exact hmat⟩
  · rintro ⟨it, hit, hme, hmat⟩
    obtain ⟨um, hum⟩ := (HandleRequest.matches_spec qt url endpoints).2 it hit hmat
    exact ⟨um, by rw [← hme]; exact hum⟩

theorem HandleRequest.kept_none_iff (qt : Qt) (endpoints : Endpoints) (url : QString)
    (m : HttpMethod) :
    QHash.find (HandleRequest.matches qt endpoints url) m = none ↔
      ¬ MatchesUnder qt endpoints url m := by
  rw [← HandleRequest.kept_some_iff]
  cases h : QHash.find (HandleRequest.matches qt endpoints url) m <;> simp

/-- The three exits of `HandleRequest`, by what matched. -/
theorem handleRequest_exits (qt : Qt) (OnRequest : Callback) (serverName : QString)
    (endpoints : Endpoints) (requestData : WebccRequest) :
    (¬ MatchesPath qt endpoints requestData.path ∧
      HandleRequest qt OnRequest serverName endpoints requestData =
        Except.ok WebccResponse.NotFound) ∨
    (MatchesPath qt endpoints requestData.path ∧
      ¬ MatchesUnder qt endpoints requestData.path (MapMethod requestData.method) ∧
      ¬ MatchesUnder qt endpoints requestData.path HttpMethod.ALL ∧
      HandleRequest qt OnRequest serverName endpoints requestData =
        Except.ok (WebccResponse.Code 405)) ∨
    (∃ um, QHash.find (HandleRequest.matches qt endpoints requestData.path)
        (MapMethod requestData.method) = some um ∧
      HandleRequest qt OnRequest serverName endpoints requestData =
        Except.ok (ProcessRequest OnRequest serverName um requestData)) ∨
    (∃ um, ¬ MatchesUnder qt endpoints requestData.path (MapMethod requestData.method) ∧
      QHash.find (HandleRequest.matches qt endpoints requestData.path) HttpMethod.ALL = some um ∧
      HandleRequest qt OnRequest serverName endpoints requestData =
        Except.ok (ProcessRequest OnRequest serverName um requestData)) := by
  by_cases hp : MatchesPath qt endpoints requestData.path
  · have hne := (HandleRequest.matches_ne_nil_iff qt endpoints requestData.path).2 hp
    have hc := (QHash.count_pos_iff _).2 hne
    cases h1 : QHash.find (HandleRequest.matches qt endpoints requestData.path)
        (MapMethod requestData.method) with
    | some um =>
      right; right; left
      exact ⟨um, rfl, by simp [HandleRequest, hc, h1]⟩
    | none =>
      have hn1 := (HandleRequest.kept_none_iff qt endpoints requestData.path _).1 h1
      cases h2 : QHash.find (HandleRequest.matches qt endpoints requestData.path)
          HttpMethod.ALL with
      | some um =>
        right; right; right
        exact ⟨um, hn1, rfl, by simp [HandleRequest, hc, h1, h2]⟩
      | none =>
        have hn2 := (HandleRequest.kept_none_iff qt endpoints requestData.path _).1 h2
        right; left
        exact ⟨hp, hn1, hn2, by simp [HandleRequest, hc, h1, h2]⟩
  · left
    have hnil : HandleRequest.matches qt endpoints requestData.path = [] := by
      by_contra hne
      exact hp ((HandleRequest.matches_ne_nil_iff qt endpoints requestData.path).1 hne)
    exact ⟨hp, by simp [HandleRequest, hnil, QHash.count]⟩

/-! ## Lemmas on ProcessRequest -/

theorem ProcessRequest.setHeaders_code (response : WebccResponse)
    (hs : List (QString × QString)) :
    (ProcessRequest.setHeaders response hs).code = response.code ∨
      (ProcessRequest.setHeaders response hs).code = 500 := by
  induction hs generalizing response with
  | nil => left; rfl
  | cons h rest ih =>
    obtain ⟨header, value⟩ := h
    by_cases hr : header ∈ reservedHeaders
    · right
      simp [ProcessRequest.setHeaders, hr, WebccResponse.InternalServerError, WebccResponse.Code]
    · simp only [ProcessRequest.setHeaders, hr, if_false]
      rcases ih (response.SetHeader (toUtf8Data header) (toUtf8Data value)) with h1 | h1
      · left
        rw [h1]
        rfl
      · right
        exact h1

/-- The status code of a processed request is the callback's or 500. -/
theorem ProcessRequest.code_cases (OnRequest : Callback) (serverName : QString) (um : UrlMatch)
    (requestData : WebccRequest) :
    (ProcessRequest OnRequest serverName um requestData).code = 500 ∨
    ∃ endpoint url pathInfo request,
      (ProcessRequest OnRequest serverName um requestData).code =
        (OnRequest endpoint url pathInfo request).statusCode := by
  unfold ProcessRequest ProcessRequest.emit
  by_cases ha : statusCodeAllowed (ProcessRequest.call OnRequest serverName um requestData).statusCode = true
  · simp only [ha, not_true_eq_false, if_false]
    rcases ProcessRequest.setHeaders_code
      { code := (ProcessRequest.call OnRequest serverName um requestData).statusCode,
        mediaType :=
          match QHash.find (ProcessRequest.call OnRequest serverName um requestData).headers
              "Content-Type".toList with
          | some value => toUtf8Data value
          | none =>
            if (ProcessRequest.call OnRequest serverName um requestData).body.length = 0 then
              "application/x-empty".toList
            else "application/octet-stream".toList,
        body := (ProcessRequest.call OnRequest serverName um requestData).body,
        utf8 := true, headers := [],
        viewOfTemporary :=
          QHash.containsKey (ProcessRequest.call OnRequest serverName um requestData).headers
            "Content-Type".toList }
      (ProcessRequest.call OnRequest serverName um requestData).headers with h | h
    · right
      exact ⟨_, _, _, _, h⟩
    · left
      exact h
  · left
    simp [ha, WebccResponse.InternalServerError, WebccResponse.Code]


/-! ## Dispatch: selection among matching templates (C1 to C4) -/

/-- C1, as stated, fails: with `/x/{a}` GET and `/x/#` GET registered (in
either iteration order) both templates match a GET of `/x/y`, `/x/{a}` at
level 1 and `/x/#` at the higher level 2, and the callback is called with the
endpoint `/x/{a}`, not with the `#` template. -/
theorem C1_highest_level_counterexample :
    (Matches qtRef "/x/{a}".toList "/x/y".toList).matched = true ∧
    (Matches qtRef "/x/{a}".toList "/x/y".toList).level = 1 ∧
    (Matches qtRef "/x/#".toList "/x/y".toList).matched = true ∧
    (Matches qtRef "/x/#".toList "/x/y".toList).level = 2 ∧
    HandleRequest qtRef echoEndpoint []
        (registryOfTwo "/x/{a}".toList HttpMethod.GET "/x/#".toList HttpMethod.GET)
        (plainRequest kGet "/x/y".toList) =
      Except.ok { code := 200, mediaType := "application/x-empty".toList, body := [],
                  utf8 := true, headers := [("X-Endpoint".toList, "/x/{a}".toList)] } ∧
    HandleRequest qtRef echoEndpoint []
        (registryOfTwo "/x/#".toList HttpMethod.GET "/x/{a}".toList HttpMethod.GET)
        (plainRequest kGet "/x/y".toList) =
      Except.ok { code := 200, mediaType := "application/x-empty".toList, body := [],
                  utf8 := true, headers := [("X-Endpoint".toList, "/x/{a}".toList)] } := by
  decide

/-- C1, amended: for every registry and request path, the match kept for a
method is the match of a registered template of that method that matches the
path, and no registered matching template of that method has a lower level;
a method with a matching template always has a kept match. In particular with
`/x/{a}` GET and `/x/#` GET registered, a GET of `/x/y` is processed with the
match of the `/x/{a}` template. -/
theorem C1_kept_match_has_lowest_level (qt : Qt) (endpoints : Endpoints) (url : QString)
    (m : HttpMethod) :
    (∀ um, QHash.find (HandleRequest.matches qt endpoints url) m = some um →
      (∃ it ∈ endpoints, it.1.2 = m ∧ Matches qt it.2 url = um ∧ um.matched = true) ∧
      (∀ it ∈ endpoints, it.1.2 = m → (Matches qt it.2 url).matched = true →
        um.level ≤ (Matches qt it.2 url).level)) ∧
    (MatchesUnder qt endpoints url m →
      ∃ um, QHash.find (HandleRequest.matches qt endpoints url) m = some um) ∧
    (∀ (OnRequest : Callback) (serverName : QString),
      HandleRequest qtRef OnRequest serverName
          (registryOfTwo "/x/{a}".toList HttpMethod.GET "/x/#".toList HttpMethod.GET)
          (plainRequest kGet "/x/y".toList) =
        Except.ok (ProcessRequest OnRequest serverName
          (Matches qtRef "/x/{a}".toList "/x/y".toList) (plainRequest kGet "/x/y".toList))) := by
  refine ⟨(HandleRequest.matches_spec qt url endpoints).1 m, ?_, ?_⟩
  · exact (HandleRequest.kept_some_iff qt endpoints url m).2
  · intro OnRequest serverName
    have hfound : HandleRequest.matches qtRef
        (registryOfTwo "/x/{a}".toList HttpMethod.GET "/x/#".toList HttpMethod.GET)
        (plainRequest kGet "/x/y".toList).path =
        [(HttpMethod.GET, Matches qtRef "/x/{a}".toList "/x/y".toList)] := by decide
    have hmethod : MapMethod (plainRequest kGet "/x/y".toList).method = HttpMethod.GET := by
      decide
    simp only [HandleRequest, hfound, hmethod]
    simp [QHash.count, QHash.find]

/-- C1, amended, at the scenario: the match kept for GET on `/x/y` is the
one of `/x/{a}`, and its level 1 is not above the level of `/x/#`. -/
theorem C1_kept_match_has_lowest_level_witness :
    (∃ it ∈ registryOfTwo "/x/{a}".toList HttpMethod.GET "/x/#".toList HttpMethod.GET,
        it.1.2 = HttpMethod.GET ∧
        Matches qtRef it.2 "/x/y".toList = Matches qtRef "/x/{a}".toList "/x/y".toList ∧
        (Matches qtRef "/x/{a}".toList "/x/y".toList).matched = true) ∧
    (∀ it ∈ registryOfTwo "/x/{a}".toList HttpMethod.GET "/x/#".toList HttpMethod.GET,
        it.1.2 = HttpMethod.GET → (Matches qtRef it.2 "/x/y".toList).matched = true →
        (Matches qtRef "/x/{a}".toList "/x/y".toList).level ≤
          (Matches qtRef it.2 "/x/y".toList).level) :=
  (C1_kept_match_has_lowest_level qtRef
    (registryOfTwo "/x/{a}".toList HttpMethod.GET "/x/#".toList HttpMethod.GET)
    "/x/y".toList HttpMethod.GET).1 (Matches qtRef "/x/{a}".toList "/x/y".toList) (by decide)

/-- C2: the code does not raise. After `AddEndpoint("/a/{x}", GET)` and
`AddEndpoint("/{y}/b", GET)`, both accepted, a GET of `/a/b` matches both
templates at level 1; `HandleRequest` returns normally, with the response of
`ProcessRequest` for the template visited first. No call of `HandleRequest`
ends in a raised event. -/
theorem C2_equal_level_is_not_raised :
    (AddEndpoint qtRef [] "/a/{x}".toList HttpMethod.GET).1 = Except.ok true ∧
    (AddEndpoint qtRef (AddEndpoint qtRef [] "/a/{x}".toList HttpMethod.GET).2
        "/{y}/b".toList HttpMethod.GET).1 = Except.ok true ∧
    (Matches qtRef "/a/{x}".toList "/a/b".toList).matched = true ∧
    (Matches qtRef "/{y}/b".toList "/a/b".toList).matched = true ∧
    (Matches qtRef "/a/{x}".toList "/a/b".toList).level =
      (Matches qtRef "/{y}/b".toList "/a/b".toList).level ∧
    (∀ (OnRequest : Callback) (serverName : QString),
      HandleRequest qtRef OnRequest serverName
          (registryOfTwo "/a/{x}".toList HttpMethod.GET "/{y}/b".toList HttpMethod.GET)
          (plainRequest kGet "/a/b".toList) =
        Except.ok (ProcessRequest OnRequest serverName
          (Matches qtRef "/a/{x}".toList "/a/b".toList) (plainRequest kGet "/a/b".toList))) ∧
    (∀ (qt : Qt) (OnRequest : Callback) (serverName : QString) (endpoints : Endpoints)
        (requestData : WebccRequest) (e : Exception),
      HandleRequest qt OnRequest serverName endpoints requestData ≠ Except.error e) := by
  refine ⟨by decide, by decide, by decide, by decide, by decide, ?_, ?_⟩
  · intro OnRequest serverName
    have hfound : HandleRequest.matches qtRef
        (registryOfTwo "/a/{x}".toList HttpMethod.GET "/{y}/b".toList HttpMethod.GET)
        (plainRequest kGet "/a/b".toList).path =
        [(HttpMethod.GET, Matches qtRef "/a/{x}".toList "/a/b".toList)] := by decide
    have hmethod : MapMethod (plainRequest kGet "/a/b".toList).method = HttpMethod.GET := by
      decide
    simp only [HandleRequest, hfound, hmethod]
    simp [QHash.count, QHash.find]
  · intro qt OnRequest serverName endpoints requestData e h
    rcases handleRequest_exits qt OnRequest serverName endpoints requestData with
      ⟨_, h1⟩ | ⟨_, _, _, h1⟩ | ⟨um, _, h1⟩ | ⟨um, _, _, h1⟩ <;>
    · rw [h1] at h
      cases h


/-- C3, as stated, fails in its "only if" halves: with `/ping` registered for
GET and a callback that answers 404 (resp. 405), a GET of `/ping` is answered
404 (resp. 405) although the template matches under the request method. -/
theorem C3_callback_status_counterexample :
    MatchesUnder qtRef [(("/ping".toList, HttpMethod.GET), "/ping".toList)] "/ping".toList
      HttpMethod.GET ∧
    HandleRequest qtRef (answerStatus 404) []
        [(("/ping".toList, HttpMethod.GET), "/ping".toList)] (plainRequest kGet "/ping".toList) =
      Except.ok { code := 404, mediaType := "application/x-empty".toList, body := [],
                  utf8 := true, headers := [] } ∧
    HandleRequest qtRef (answerStatus 405) []
        [(("/ping".toList, HttpMethod.GET), "/ping".toList)] (plainRequest kGet "/ping".toList) =
      Except.ok { code := 405, mediaType := "application/x-empty".toList, body := [],
                  utf8 := true, headers := [] } := by
  decide

/-- C3, amended: for every registry, path and request method, `HandleRequest`
answers 404 when no registered template matches the path, and 405 when at
least one template matches the path but none is registered under the request
method and none under ALL (e.g. `/ping` registered for POST only, GET `/ping`
gives 405); in every other case the answer is the one of `ProcessRequest` for
a kept match. Hence for a callback that never answers 404 (resp. 405) itself,
the answer is 404 (resp. 405) exactly in the first (resp. second) case. -/
theorem C3_not_found_versus_method_not_allowed (qt : Qt) (OnRequest : Callback)
    (serverName : QString) (endpoints : Endpoints) (requestData : WebccRequest) :
    (¬ MatchesPath qt endpoints requestData.path →
      HandleRequest qt OnRequest serverName endpoints requestData =
        Except.ok WebccResponse.NotFound) ∧
    (MatchesPath qt endpoints requestData.path →
      ¬ MatchesUnder qt endpoints requestData.path (MapMethod requestData.method) →
      ¬ MatchesUnder qt endpoints requestData.path HttpMethod.ALL →
      HandleRequest qt OnRequest serverName endpoints requestData =
        Except.ok (WebccResponse.Code 405)) ∧
    (MatchesUnder qt endpoints requestData.path (MapMethod requestData.method) ∨
        MatchesUnder qt endpoints requestData.path HttpMethod.ALL →
      ∃ um, um.matched = true ∧
        HandleRequest qt OnRequest serverName endpoints requestData =
          Except.ok (ProcessRequest OnRequest serverName um requestData)) ∧
    ((∀ endpoint url pathInfo request,
        (OnRequest endpoint url pathInfo request).statusCode ≠ 404) →
      ((∃ response, HandleRequest qt OnRequest serverName endpoints requestData =
          Except.ok response ∧ response.code = 404) ↔
        ¬ MatchesPath qt endpoints requestData.path)) ∧
    ((∀ endpoint url pathInfo request,
        (OnRequest endpoint url pathInfo request).statusCode ≠ 405) →
      ((∃ response, HandleRequest qt OnRequest serverName endpoints requestData =
          Except.ok response ∧ response.code = 405) ↔
        (MatchesPath qt endpoints requestData.path ∧
          ¬ MatchesUnder qt endpoints requestData.path (MapMethod requestData.method) ∧
          ¬ MatchesUnder qt endpoints requestData.path HttpMethod.ALL))) ∧
    WebccResponse.NotFound.code = 404 ∧ (WebccResponse.Code 405).code = 405 := by
  have hpath_of_under : ∀ m, MatchesUnder qt endpoints requestData.path m →
      MatchesPath qt endpoints requestData.path := by
    rintro m ⟨it, hit, _, hmat⟩
    exact ⟨it, hit, hmat⟩
  have hkept : ∀ m um,
      QHash.find (HandleRequest.matches qt endpoints requestData.path) m = some um →
      um.matched = true ∧ MatchesUnder qt endpoints requestData.path m := by
    intro m um hf
    obtain ⟨⟨it, hit, hme, hum, hmat⟩, _⟩ :=
      (HandleRequest.matches_spec qt requestData.path endpoints).1 m um hf
    exact ⟨hmat, it, hit, hme, by rw [hum]; exact hmat⟩
  have hcode : ∀ (um : UrlMatch) (c : Int), c ≠ 500 →
      (∀ endpoint url pathInfo request,
        (OnRequest endpoint url pathInfo request).statusCode ≠ c) →
      (ProcessRequest OnRequest serverName um requestData).code ≠ c := by
    intro um c hc hcb
    rcases ProcessRequest.code_cases OnRequest serverName um requestData with h | ⟨e, u, p, r, h⟩
    · rw [h]
      exact Ne.symm hc
    · rw [h]
      exact hcb e u p r
  rcases handleRequest_exits qt OnRequest serverName endpoints requestData with
    ⟨hn, h1⟩ | ⟨hp, hn1, hn2, h1⟩ | ⟨um, hf, h1⟩ | ⟨um, hn1, hf, h1⟩
  · refine ⟨fun _ => h1, fun hp => absurd hp hn, ?_, ?_, ?_, rfl, rfl⟩
    · rintro (h | h)
      · exact absurd (hpath_of_under _ h) hn
      · exact absurd (hpath_of_under _ h) hn
    · intro _
      exact ⟨fun _ => hn, fun _ => ⟨_, h1, rfl⟩⟩
    · intro _
      constructor
      · rintro ⟨response, hr, hc⟩
        rw [h1] at hr
        injection hr with hr
        subst hr
        simp [WebccResponse.NotFound, WebccResponse.Code] at hc
      · rintro ⟨hp, _⟩
        exact absurd hp hn
  · refine ⟨fun hn => absurd hp hn, fun _ _ _ => h1, ?_, ?_, ?_, rfl, rfl⟩
    · rintro (h | h)
      · exact absurd h hn1
      · exact absurd h hn2
    · intro _
      constructor
      · rintro ⟨response, hr, hc⟩
        rw [h1] at hr
        injection hr with hr
        subst hr
        simp [WebccResponse.Code] at hc
      · intro hn
        exact absurd hp hn
    · intro _
      exact ⟨fun _ => ⟨hp, hn1, hn2⟩, fun _ => ⟨_, h1, rfl⟩⟩
  · obtain ⟨hmat, hunder⟩ := hkept _ um hf
    have hp := hpath_of_under _ hunder
    refine ⟨fun hn => absurd hp hn, fun _ hn1 _ => absurd hunder hn1,
      fun _ => ⟨um, hmat, h1⟩, ?_, ?_, rfl, rfl⟩
    · intro hcb
      constructor
      · rintro ⟨response, hr, hc⟩
        rw [h1] at hr
        injection hr with hr
        subst hr
        exact absurd hc (hcode um 404 (by decide) hcb)
      · intro hn
        exact absurd hp hn
    · intro hcb
      constructor
      · rintro ⟨response, hr, hc⟩
        rw [h1] at hr
        injection hr with hr
        subst hr
        exact absurd hc (hcode um 405 (by decide) hcb)
      · rintro ⟨_, hn1, _⟩
        exact absurd hunder hn1
  · obtain ⟨hmat, hunder⟩ := hkept _ um hf
    have hp := hpath_of_under _ hunder
    refine ⟨fun hn => absurd hp hn, fun _ _ hn2 => absurd hunder hn2,
      fun _ => ⟨um, hmat, h1⟩, ?_, ?_, rfl, rfl⟩
    · intro hcb
      constructor
      · rintro ⟨response, hr, hc⟩
        rw [h1] at hr
        injection hr with hr
        subst hr
        exact absurd hc (hcode um 404 (by decide) hcb)
      · intro hn
        exact absurd hp hn
    · intro hcb
      constructor
      · rintro ⟨response, hr, hc⟩
        rw [h1] at hr
        injection hr with hr
        subst hr
        exact absurd hc (hcode um 405 (by decide) hcb)
      · rintro ⟨_, _, hn2⟩
        exact absurd hunder hn2

/-- C3, amended, at the scenario: `/ping` registered for POST only, a GET of
`/ping` is answered 405, whatever the callback. -/
theorem C3_not_found_versus_method_not_allowed_witness :
    MatchesPath qtRef [(("/ping".toList, HttpMethod.POST), "/ping".toList)] "/ping".toList ∧
    HandleRequest qtRef echoEndpoint [] [(("/ping".toList, HttpMethod.POST), "/ping".toList)]
        (plainRequest kGet "/ping".toList) = Except.ok (WebccResponse.Code 405) :=
  ⟨by decide,
   (C3_not_found_versus_method_not_allowed qtRef echoEndpoint []
      [(("/ping".toList, HttpMethod.POST), "/ping".toList)]
      (plainRequest kGet "/ping".toList)).2.1 (by decide) (by decide) (by decide)⟩

/-- C4: when a template registered under the request's method matches the
path, `HandleRequest` processes the match of such a template, whether or not
a template registered under ALL matches too; when templates match and all of
those that match are registered under ALL, a request of any method (so of
each of the seven) is processed with the match of a template registered
under ALL. -/
theorem C4_method_bucket_priority (qt : Qt) (endpoints : Endpoints)
    (requestData : WebccRequest) :
    (MatchesUnder qt endpoints requestData.path (MapMethod requestData.method) →
      ∃ it ∈ endpoints, it.1.2 = MapMethod requestData.method ∧
        (Matches qt it.2 requestData.path).matched = true ∧
        ∀ (OnRequest : Callback) (serverName : QString),
          HandleRequest qt OnRequest serverName endpoints requestData =
            Except.ok (ProcessRequest OnRequest serverName
              (Matches qt it.2 requestData.path) requestData)) ∧
    (MatchesPath qt endpoints requestData.path →
      (∀ it ∈ endpoints, (Matches qt it.2 requestData.path).matched = true →
        it.1.2 = HttpMethod.ALL) →
      ∃ it ∈ endpoints, it.1.2 = HttpMethod.ALL ∧
        (Matches qt it.2 requestData.path).matched = true ∧
        ∀ (OnRequest : Callback) (serverName : QString),
          HandleRequest qt OnRequest serverName endpoints requestData =
            Except.ok (ProcessRequest OnRequest serverName
              (Matches qt it.2 requestData.path) requestData)) ∧
    (∀ method ∈ [kGet, kPost, kPut, kDelete, kPatch, kHead, kOptions],
      MapMethod method ≠ HttpMethod.ALL ∧ MapMethod method ≠ HttpMethod.UNKNOWN) := by
  have hsel : ∀ m um,
      QHash.find (HandleRequest.matches qt endpoints requestData.path) m = some um →
      ∃ it ∈ endpoints, it.1.2 = m ∧ (Matches qt it.2 requestData.path).matched = true ∧
        Matches qt it.2 requestData.path = um := by
    intro m um hf
    obtain ⟨⟨it, hit, hme, hum, hmat⟩, _⟩ :=
      (HandleRequest.matches_spec qt requestData.path endpoints).1 m um hf
    exact ⟨it, hit, hme, by rw [hum]; exact hmat, hum⟩
  refine ⟨?_, ?_, by decide⟩
  · intro hunder
    obtain ⟨um, hf⟩ := (HandleRequest.kept_some_iff qt endpoints requestData.path _).2 hunder
    obtain ⟨it, hit, hme, hmat, hum⟩ := hsel _ um hf
    refine ⟨it, hit, hme, hmat, ?_⟩
    intro OnRequest serverName
    have hc := (QHash.count_pos_iff _).2
      ((HandleRequest.matches_ne_nil_iff qt endpoints requestData.path).2 ⟨it, hit, hmat⟩)
    simp [HandleRequest, hc, hf, hum]
  · rintro ⟨it0, hit0, hmat0⟩ hall
    have hunderAll : MatchesUnder qt endpoints requestData.path HttpMethod.ALL :=
      ⟨it0, hit0, hall it0 hit0 hmat0, hmat0⟩
    obtain ⟨umA, hfA⟩ :=
      (HandleRequest.kept_some_iff qt endpoints requestData.path _).2 hunderAll
    have hc := (QHash.count_pos_iff _).2
      ((HandleRequest.matches_ne_nil_iff qt endpoints requestData.path).2 ⟨it0, hit0, hmat0⟩)
    cases h1 : QHash.find (HandleRequest.matches qt endpoints requestData.path)
        (MapMethod requestData.method) with
    | some um =>
      obtain ⟨it, hit, hme, hmat, hum⟩ := hsel _ um h1
      refine ⟨it, hit, hall it hit hmat, hmat, ?_⟩
      intro OnRequest serverName
      simp [HandleRequest, hc, h1, hum]
    | none =>
      obtain ⟨it, hit, hme, hmat, hum⟩ := hsel _ umA hfA
      refine ⟨it, hit, hme, hmat, ?_⟩
      intro OnRequest serverName
      simp [HandleRequest, hc, h1, hfA, hum]

/-- C4 at a scenario: `/p` registered under GET and `/{v}` under ALL both
match `/p`; a GET is processed with the GET template, and with only the ALL
template registered a DELETE is processed with the ALL template. -/
theorem C4_method_bucket_priority_witness :
    (∃ it ∈ registryOfTwo "/{v}".toList HttpMethod.ALL "/p".toList HttpMethod.GET,
      it.1.2 = MapMethod (plainRequest kGet "/p".toList).method ∧
      (Matches qtRef it.2 (plainRequest kGet "/p".toList).path).matched = true ∧
      ∀ (OnRequest : Callback) (serverName : QString),
        HandleRequest qtRef OnRequest serverName
            (registryOfTwo "/{v}".toList HttpMethod.ALL "/p".toList HttpMethod.GET)
            (plainRequest kGet "/p".toList) =
          Except.ok (ProcessRequest OnRequest serverName
            (Matches qtRef it.2 (plainRequest kGet "/p".toList).path)
            (plainRequest kGet "/p".toList))) ∧
    (∃ it ∈ (AddEndpoint qtRef [] "/{v}".toList HttpMethod.ALL).2,
      it.1.2 = HttpMethod.ALL ∧
      (Matches qtRef it.2 (plainRequest kDelete "/p".toList).path).matched = true ∧
      ∀ (OnRequest : Callback) (serverName : QString),
        HandleRequest qtRef OnRequest serverName
            (AddEndpoint qtRef [] "/{v}".toList HttpMethod.ALL).2
            (plainRequest kDelete "/p".toList) =
          Except.ok (ProcessRequest OnRequest serverName
            (Matches qtRef it.2 (plainRequest kDelete "/p".toList).path)
            (plainRequest kDelete "/p".toList))) :=
  ⟨(C4_method_bucket_priority qtRef
      (registryOfTwo "/{v}".toList HttpMethod.ALL "/p".toList HttpMethod.GET)
      (plainRequest kGet "/p".toList)).1 (by decide),
   (C4_method_bucket_priority qtRef (AddEndpoint qtRef [] "/{v}".toList HttpMethod.ALL).2
      (plainRequest kDelete "/p".toList)).2.1 (by decide) (by decide)⟩


/-! ## Lemmas on strings -/

theorem contains_iff_mem (s : QString) (c : Char) : contains s c = true ↔ c ∈ s := by
  simp [contains]

theorem contains_false_iff (s : QString) (c : Char) : contains s c = false ↔ c ∉ s := by
  rw [← contains_iff_mem]
  cases contains s c <;> simp

/-- The value of `indexOf`: `-1` without an occurrence, else the index of the
first one. -/
theorem indexOf_spec (c : Char) (s : QString) :
    (c ∉ s ∧ indexOf c s = -1) ∨
    (∃ n : Nat, indexOf c s = (n : Int) ∧ s[n]? = some c ∧ ∀ k, k < n → s[k]? ≠ some c) := by
  induction s with
  | nil => left; simp [indexOf]
  | cons x xs ih =>
    by_cases hx : x = c
    · right
      refine ⟨0, by simp [indexOf, hx], by simp [hx], ?_⟩
      intro k hk
      omega
    · rcases ih with ⟨hn, hi⟩ | ⟨n, hi, hget, hmin⟩
      · left
        refine ⟨by simp [hn, Ne.symm hx], ?_⟩
        simp [indexOf, hx, hi]
      · right
        refine ⟨n + 1, ?_, by simpa using hget, ?_⟩
        · simp only [indexOf, hx, if_false, hi]
          have : ¬ ((n : Int) < 0) := by omega
          simp [this]
        · intro k hk
          cases k with
          | zero => simp [hx]
          | succ k =>
            simp only [List.getElem?_cons_succ]
            exact hmin k (by omega)

/-- The test on `#` of `AddEndpoint` holds exactly when `#` stands at a
position before the last one. -/
theorem hashtag_test_iff (s : QString) :
    (contains s '#' = true ∧ indexOf '#' s ≠ (s.length : Int) - 1) ↔
      ∃ i, i + 1 < s.length ∧ s[i]? = some '#' := by
  constructor
  · rintro ⟨hc, hne⟩
    rcases indexOf_spec '#' s with ⟨hn, _⟩ | ⟨n, hi, hget, _⟩
    · exact absurd ((contains_iff_mem s '#').1 hc) hn
    · have hlt : n < s.length := by
        by_contra hge
        rw [List.getElem?_eq_none (by omega)] at hget
        cases hget
      refine ⟨n, ?_, hget⟩
      rw [hi] at hne
      omega
  · rintro ⟨i, hi, hget⟩
    have hmem : '#' ∈ s := List.mem_iff_getElem?.2 ⟨i, hget⟩
    refine ⟨(contains_iff_mem s '#').2 hmem, ?_⟩
    rcases indexOf_spec '#' s with ⟨hn, _⟩ | ⟨n, hidx, _, hmin⟩
    · exact absurd hmem hn
    · have hle : n ≤ i := by
        by_contra hgt
        exact hmin i (by omega) hget
      rw [hidx]
      omega

/-! ## Lemmas on AddEndpoint -/

/-- The six exits of `AddEndpoint`. -/
theorem addEndpoint_exits (qt : Qt) (endpoints : Endpoints) (t : QString) (m : HttpMethod) :
    ((contains t '#' = true ∧ indexOf '#' t ≠ (t.length : Int) - 1) ∧
      AddEndpoint qt endpoints t m =
        (Except.error ((Ex EventId.InvalidEndpointHashtagWildcard).Arg t), endpoints)) ∨
    (¬ (contains t '#' = true ∧ indexOf '#' t ≠ (t.length : Int) - 1) ∧
      contains (endpointAdjusted qt t) '{' = true ∧
      AddEndpoint qt endpoints t m =
        (Except.error ((Ex EventId.InvalidCharacterInEndpoint).Arg ['{']), endpoints)) ∨
    (¬ (contains t '#' = true ∧ indexOf '#' t ≠ (t.length : Int) - 1) ∧
      contains (endpointAdjusted qt t) '{' = false ∧
      contains (endpointAdjusted qt t) '}' = true ∧
      AddEndpoint qt endpoints t m =
        (Except.error ((Ex EventId.InvalidCharacterInEndpoint).Arg ['}']), endpoints)) ∨
    (¬ (contains t '#' = true ∧ indexOf '#' t ≠ (t.length : Int) - 1) ∧
      contains (endpointAdjusted qt t) '{' = false ∧
      contains (endpointAdjusted qt t) '}' = false ∧
      qt.urlValid (endpointAdjusted qt t) = false ∧
      AddEndpoint qt endpoints t m =
        (Except.error ((Ex EventId.InvalidEndpoint).Arg t), endpoints)) ∨
    (PassesValidation qt t ∧
      ∃ registered, QHash.find endpoints (endpointAdjusted qt t, m) = some registered ∧
      AddEndpoint qt endpoints t m =
        (Except.error (((Ex EventId.AmbiguousEndpoint).Arg t).Arg registered), endpoints)) ∨
    (PassesValidation qt t ∧
      QHash.find endpoints (endpointAdjusted qt t, m) = none ∧
      AddEndpoint qt endpoints t m =
        (Except.ok true, QHash.insert endpoints (endpointAdjusted qt t, m) t)) := by
  by_cases h1 : contains t '#' = true ∧ indexOf '#' t ≠ (t.length : Int) - 1
  · left
    exact ⟨h1, by unfold AddEndpoint; rw [if_pos h1]⟩
  · right
    cases h2 : contains (endpointAdjusted qt t) '{' with
    | true =>
      left
      refine ⟨h1, rfl, ?_⟩
      unfold AddEndpoint
      rw [if_neg h1]
      simp [h2]
    | false =>
      right
      cases h3 : contains (endpointAdjusted qt t) '}' with
      | true =>
        left
        refine ⟨h1, rfl, rfl, ?_⟩
        unfold AddEndpoint
        rw [if_neg h1]
        simp [h2, h3]
      | false =>
        right
        cases h4 : qt.urlValid (endpointAdjusted qt t) with
        | false =>
          left
          refine ⟨h1, rfl, rfl, rfl, ?_⟩
          unfold AddEndpoint
          rw [if_neg h1]
          simp [h2, h3, h4]
        | true =>
          right
          have hv : PassesValidation qt t := ⟨h1, h2, h3, h4⟩
          cases h5 : QHash.find endpoints (endpointAdjusted qt t, m) with
          | some registered =>
            left
            refine ⟨hv, registered, rfl, ?_⟩
            unfold AddEndpoint
            rw [if_neg h1]
            simp [h2, h3, h4, h5]
          | none =>
            right
            refine ⟨hv, rfl, ?_⟩
            unfold AddEndpoint
            rw [if_neg h1]
            simp [h2, h3, h4, h5]


/-! ## Registration (C5, C6, C9) -/

/-- C5: for a template that passes validation, `AddEndpoint(t, m)` raises
`AmbiguousEndpoint` iff `endpoints` already contains the key
`(endpointAdjusted t, m)`, and the event then carries `t` and the template
stored under that key; otherwise `(endpointAdjusted t, m) -> t` is inserted
and the result is `true`. Adding `/a/{b}` and then `/a/{c}` with the same
method fails naming `/a/{b}`; with another method it is accepted. -/
theorem C5_ambiguity_detection (qt : Qt) (endpoints : Endpoints) (t : QString) (m : HttpMethod)
    (hv : PassesValidation qt t) :
    ((∃ e, (AddEndpoint qt endpoints t m).1 = Except.error e ∧
        e.id = EventId.AmbiguousEndpoint) ↔
      QHash.containsKey endpoints (endpointAdjusted qt t, m) = true) ∧
    (∀ registered, QHash.find endpoints (endpointAdjusted qt t, m) = some registered →
      AddEndpoint qt endpoints t m =
        (Except.error (((Ex EventId.AmbiguousEndpoint).Arg t).Arg registered), endpoints)) ∧
    (QHash.containsKey endpoints (endpointAdjusted qt t, m) = false →
      AddEndpoint qt endpoints t m =
        (Except.ok true, QHash.insert endpoints (endpointAdjusted qt t, m) t) ∧
      QHash.find (AddEndpoint qt endpoints t m).2 (endpointAdjusted qt t, m) = some t ∧
      ∀ k, k ≠ (endpointAdjusted qt t, m) →
        QHash.find (AddEndpoint qt endpoints t m).2 k = QHash.find endpoints k) ∧
    (AddEndpoint qtRef (AddEndpoint qtRef [] "/a/{b}".toList HttpMethod.GET).2
        "/a/{c}".toList HttpMethod.GET).1 =
      Except.error (((Ex EventId.AmbiguousEndpoint).Arg "/a/{c}".toList).Arg "/a/{b}".toList) ∧
    (AddEndpoint qtRef (AddEndpoint qtRef [] "/a/{b}".toList HttpMethod.GET).2
        "/a/{c}".toList HttpMethod.POST).1 = Except.ok true := by
  obtain ⟨h1, h2, h3, h4⟩ := hv
  have hnot2 : ¬ (contains (endpointAdjusted qt t) '{' = true) := by simp [h2]
  have hnot3 : ¬ (contains (endpointAdjusted qt t) '}' = true) := by simp [h3]
  rcases addEndpoint_exits qt endpoints t m with
    ⟨h, _⟩ | ⟨_, h, _⟩ | ⟨_, _, h, _⟩ | ⟨_, _, _, h, _⟩ | ⟨_, registered, hf, hr⟩ | ⟨_, hf, hr⟩
  · exact absurd h h1
  · exact absurd h hnot2
  · exact absurd h hnot3
  · rw [h4] at h
    cases h
  · refine ⟨?_, ?_, ?_, by decide, by decide⟩
    · constructor
      · intro _
        simp [QHash.containsKey, hf]
      · intro _
        exact ⟨_, by rw [hr], rfl⟩
    · intro registered2 hf2
      rw [hf] at hf2
      injection hf2 with hf2
      subst hf2
      exact hr
    · intro hc
      simp [QHash.containsKey, hf] at hc
  · refine ⟨?_, ?_, ?_, by decide, by decide⟩
    · constructor
      · rintro ⟨e, he, _⟩
        rw [hr] at he
        cases he
      · intro hc
        simp [QHash.containsKey, hf] at hc
    · intro registered2 hf2
      rw [hf] at hf2
      cases hf2
    · intro _
      refine ⟨hr, ?_, ?_⟩
      · rw [hr]
        exact QHash.find_insert_self _ _ _
      · intro k hk
        rw [hr]
        exact QHash.find_insert_ne _ _ _ _ hk

/-- C5 at the scenario: with `/a/{b}` registered for GET, `/a/{c}` passes
validation and its key is present, so the event names `/a/{b}`. -/
theorem C5_ambiguity_detection_witness :
    PassesValidation qtRef "/a/{c}".toList ∧
    AddEndpoint qtRef (AddEndpoint qtRef [] "/a/{b}".toList HttpMethod.GET).2
        "/a/{c}".toList HttpMethod.GET =
      (Except.error (((Ex EventId.AmbiguousEndpoint).Arg "/a/{c}".toList).Arg "/a/{b}".toList),
        (AddEndpoint qtRef [] "/a/{b}".toList HttpMethod.GET).2) :=
  ⟨by decide,
   (C5_ambiguity_detection qtRef (AddEndpoint qtRef [] "/a/{b}".toList HttpMethod.GET).2
      "/a/{c}".toList HttpMethod.GET (by decide)).2.1 "/a/{b}".toList (by decide)⟩

/-- C6: whenever `AddEndpoint(t, m)` raises, the raised event is one of
`InvalidEndpointHashtagWildcard`, `InvalidCharacterInEndpoint`,
`InvalidEndpoint` and `AmbiguousEndpoint`, and `endpoints` is exactly what it
was before the call. -/
theorem C6_failed_add_leaves_registry (qt : Qt) (endpoints : Endpoints) (t : QString)
    (m : HttpMethod) (e : Exception) (h : (AddEndpoint qt endpoints t m).1 = Except.error e) :
    (AddEndpoint qt endpoints t m).2 = endpoints ∧
    (e.id = EventId.InvalidEndpointHashtagWildcard ∨ e.id = EventId.InvalidCharacterInEndpoint ∨
      e.id = EventId.InvalidEndpoint ∨ e.id = EventId.AmbiguousEndpoint) := by
  rcases addEndpoint_exits qt endpoints t m with
    ⟨_, hr⟩ | ⟨_, _, hr⟩ | ⟨_, _, _, hr⟩ | ⟨_, _, _, _, hr⟩ | ⟨_, registered, _, hr⟩ | ⟨_, _, hr⟩
  · rw [hr] at h ⊢
    injection h with h
    subst h
    exact ⟨rfl, Or.inl rfl⟩
  · rw [hr] at h ⊢
    injection h with h
    subst h
    exact ⟨rfl, Or.inr (Or.inl rfl)⟩
  · rw [hr] at h ⊢
    injection h with h
    subst h
    exact ⟨rfl, Or.inr (Or.inl rfl)⟩
  · rw [hr] at h ⊢
    injection h with h
    subst h
    exact ⟨rfl, Or.inr (Or.inr (Or.inl rfl))⟩
  · rw [hr] at h ⊢
    injection h with h
    subst h
    exact ⟨rfl, Or.inr (Or.inr (Or.inr rfl))⟩
  · rw [hr] at h
    cases h

/-- C6 at a scenario: the ambiguous `/a/{c}` leaves the registry holding
`/a/{b}` as it was. -/
theorem C6_failed_add_leaves_registry_witness :
    (AddEndpoint qtRef (AddEndpoint qtRef [] "/a/{b}".toList HttpMethod.GET).2
        "/a/{c}".toList HttpMethod.GET).2 =
      (AddEndpoint qtRef [] "/a/{b}".toList HttpMethod.GET).2 ∧
    ((((Ex EventId.AmbiguousEndpoint).Arg "/a/{c}".toList).Arg "/a/{b}".toList).id =
        EventId.InvalidEndpointHashtagWildcard ∨
      (((Ex EventId.AmbiguousEndpoint).Arg "/a/{c}".toList).Arg "/a/{b}".toList).id =
        EventId.InvalidCharacterInEndpoint ∨
      (((Ex EventId.AmbiguousEndpoint).Arg "/a/{c}".toList).Arg "/a/{b}".toList).id =
        EventId.InvalidEndpoint ∨
      (((Ex EventId.AmbiguousEndpoint).Arg "/a/{c}".toList).Arg "/a/{b}".toList).id =
        EventId.AmbiguousEndpoint) :=
  C6_failed_add_leaves_registry qtRef (AddEndpoint qtRef [] "/a/{b}".toList HttpMethod.GET).2
    "/a/{c}".toList HttpMethod.GET
    (((Ex EventId.AmbiguousEndpoint).Arg "/a/{c}".toList).Arg "/a/{b}".toList) (by decide)

/-- C9: `AddEndpoint(t, m)` raises `InvalidEndpointHashtagWildcard` (with `t`
as argument) if and only if `t` has a `#` at some position other than its
last character; in particular it is raised whenever `t` contains `#` and the
last character of `t` is not `#`. -/
theorem C9_hashtag_wildcard_position (qt : Qt) (endpoints : Endpoints) (t : QString)
    (m : HttpMethod) :
    ((AddEndpoint qt endpoints t m).1 =
        Except.error ((Ex EventId.InvalidEndpointHashtagWildcard).Arg t) ↔
      ∃ i, i + 1 < t.length ∧ t[i]? = some '#') ∧
    ((∃ e, (AddEndpoint qt endpoints t m).1 = Except.error e ∧
        e.id = EventId.InvalidEndpointHashtagWildcard) ↔
      ∃ i, i + 1 < t.length ∧ t[i]? = some '#') ∧
    ('#' ∈ t → t.getLast? ≠ some '#' →
      (AddEndpoint qt endpoints t m).1 =
        Except.error ((Ex EventId.InvalidEndpointHashtagWildcard).Arg t)) := by
  have key : ∀ e, (AddEndpoint qt endpoints t m).1 = Except.error e →
      e.id = EventId.InvalidEndpointHashtagWildcard →
      contains t '#' = true ∧ indexOf '#' t ≠ (t.length : Int) - 1 := by
    intro e he hid
    rcases addEndpoint_exits qt endpoints t m with
      ⟨h, _⟩ | ⟨_, _, hr⟩ | ⟨_, _, _, hr⟩ | ⟨_, _, _, _, hr⟩ | ⟨_, registered, _, hr⟩ | ⟨_, _, hr⟩
    · exact h
    · rw [hr] at he
      injection he with he
      subst he
      simp [Ex, Exception.Arg] at hid
    · rw [hr] at he
      injection he with he
      subst he
      simp [Ex, Exception.Arg] at hid
    · rw [hr] at he
      injection he with he
      subst he
      simp [Ex, Exception.Arg] at hid
    · rw [hr] at he
      injection he with he
      subst he
      simp [Ex, Exception.Arg] at hid
    · rw [hr] at he
      cases he
  have raised : (contains t '#' = true ∧ indexOf '#' t ≠ (t.length : Int) - 1) →
      (AddEndpoint qt endpoints t m).1 =
        Except.error ((Ex EventId.InvalidEndpointHashtagWildcard).Arg t) := by
    intro h
    unfold AddEndpoint
    rw [if_pos h]
  have first : (AddEndpoint qt endpoints t m).1 =
        Except.error ((Ex EventId.InvalidEndpointHashtagWildcard).Arg t) ↔
      ∃ i, i + 1 < t.length ∧ t[i]? = some '#' := by
    rw [← hashtag_test_iff]
    exact ⟨fun h => key _ h rfl, raised⟩
  refine ⟨first, ?_, ?_⟩
  · rw [← hashtag_test_iff]
    constructor
    · rintro ⟨e, he, hid⟩
      exact key e he hid
    · intro h
      exact ⟨_, raised h, rfl⟩
  · intro hmem hlast
    apply first.2
    obtain ⟨i, hi⟩ := List.mem_iff_getElem?.1 hmem
    have hlt : i < t.length := by
      by_contra hge
      rw [List.getElem?_eq_none (by omega)] at hi
      cases hi
    refine ⟨i, ?_, hi⟩
    by_contra hnot
    have hidx : i = t.length - 1 := by omega
    apply hlast
    rw [List.getLast?_eq_getElem?, ← hidx]
    exact hi

/-- C9 at a scenario: `/a/#/b` contains `#` and does not end with it. -/
theorem C9_hashtag_wildcard_position_witness :
    (AddEndpoint qtRef [] "/a/#/b".toList HttpMethod.GET).1 =
      Except.error ((Ex EventId.InvalidEndpointHashtagWildcard).Arg "/a/#/b".toList) :=
  (C9_hashtag_wildcard_position qtRef [] "/a/#/b".toList HttpMethod.GET).2.2
    (by decide) (by decide)


/-! ## Lemmas on RemoveEndpoint and on reachable registries -/

theorem QHash.mem_remove {κ ν : Type} [DecidableEq κ] (h : QHash κ ν) (k : κ) (it : κ × ν) :
    it ∈ QHash.remove h k ↔ it ∈ h ∧ it.1 ≠ k := by
  simp [QHash.remove]

theorem QHash.remove_of_unique {κ ν : Type} [DecidableEq κ] (l1 l2 : QHash κ ν) (it : κ × ν)
    (hu : QHash.UniqueKeys (l1 ++ it :: l2)) :
    QHash.remove (l1 ++ it :: l2) it.1 = l1 ++ l2 := by
  unfold QHash.UniqueKeys at hu
  rw [List.map_append, List.map_cons, List.nodup_append] at hu
  obtain ⟨_, h2, hdis⟩ := hu
  rw [List.nodup_cons] at h2
  obtain ⟨hnot, _⟩ := h2
  unfold QHash.remove
  rw [List.filter_append, List.filter_cons]
  have e1 : l1.filter (fun x => decide (x.1 ≠ it.1)) = l1 := by
    rw [List.filter_eq_self]
    intro a ha
    have hne : a.1 ≠ it.1 := by
      intro heq
      exact hdis (List.mem_map_of_mem Prod.fst ha) (by rw [heq]; exact List.mem_cons_self _ _)
    simpa using hne
  have e2 : l2.filter (fun x => decide (x.1 ≠ it.1)) = l2 := by
    rw [List.filter_eq_self]
    intro a ha
    have hne : a.1 ≠ it.1 := by
      intro heq
      exact hnot (by rw [← heq]; exact List.mem_map_of_mem Prod.fst ha)
    simpa using hne
  rw [e1, e2]
  simp

/-- The loop of `RemoveEndpoint` stops at the first item with the template
and the method asked for, and removes its key. -/
theorem RemoveEndpoint.loop_spec (endpoints : Endpoints) (t : QString) (m : HttpMethod)
    (l : List ((QString × HttpMethod) × QString)) :
    ((∀ x ∈ l, ¬ (x.2 = t ∧ x.1.2 = m)) ∧
      RemoveEndpoint.loop endpoints t m l = (false, endpoints)) ∨
    (∃ l1 it l2, l = l1 ++ it :: l2 ∧ (∀ x ∈ l1, ¬ (x.2 = t ∧ x.1.2 = m)) ∧
      it.2 = t ∧ it.1.2 = m ∧
      RemoveEndpoint.loop endpoints t m l = (true, QHash.remove endpoints it.1)) := by
  induction l with
  | nil => left; simp [RemoveEndpoint.loop]
  | cons x rest ih =>
    by_cases hx : x.2 = t ∧ x.1.2 = m
    · right
      refine ⟨[], x, rest, rfl, by simp, hx.1, hx.2, ?_⟩
      simp [RemoveEndpoint.loop, hx]
    · have hstep : RemoveEndpoint.loop endpoints t m (x :: rest) =
          RemoveEndpoint.loop endpoints t m rest := by
        simp only [RemoveEndpoint.loop, hx, if_false]
      rcases ih with ⟨hall, hr⟩ | ⟨l1, it, l2, hl, hall, h1, h2, hr⟩
      · left
        refine ⟨?_, by rw [hstep, hr]⟩
        intro y hy
        rcases List.mem_cons.1 hy with h | h
        · rw [h]
          exact hx
        · exact hall y h
      · right
        refine ⟨x :: l1, it, l2, by rw [hl]; rfl, ?_, h1, h2, by rw [hstep, hr]⟩
        intro y hy
        rcases List.mem_cons.1 hy with h | h
        · rw [h]
          exact hx
        · exact hall y h

theorem Matches.loop_endpoint (qt : Qt) (urlLevels : List QString) (l : List QString) :
    ∀ (i : Nat) (um : UrlMatch), (Matches.loop qt urlLevels i l um).endpoint = um.endpoint := by
  induction l with
  | nil =>
    intro i um
    simp [Matches.loop]
  | cons level rest ih =>
    intro i um
    unfold Matches.loop
    split
    · rw [ih]
    · split
      · rw [ih]
      · split
        · rfl
        · rw [ih]

theorem Matches.endpoint_eq (qt : Qt) (endpoint url : QString) :
    (Matches qt endpoint url).endpoint = endpoint := by
  unfold Matches
  simp only
  split
  · rfl
  · split
    · rfl
    · rw [Matches.loop_endpoint]

theorem WellFormed.of_add (qt : Qt) (r : Endpoints) (t : QString) (m : HttpMethod)
    (hw : WellFormed qt r) : WellFormed qt (AddEndpoint qt r t m).2 := by
  rcases addEndpoint_exits qt r t m with
    ⟨_, hr⟩ | ⟨_, _, hr⟩ | ⟨_, _, _, hr⟩ | ⟨_, _, _, _, hr⟩ | ⟨_, registered, _, hr⟩ | ⟨_, hf, hr⟩
  · rw [hr]; exact hw
  · rw [hr]; exact hw
  · rw [hr]; exact hw
  · rw [hr]; exact hw
  · rw [hr]; exact hw
  · rw [hr]
    simp only
    rw [QHash.insert_of_find_none _ _ _ hf]
    obtain ⟨hu, hk⟩ := hw
    constructor
    · unfold QHash.UniqueKeys at hu ⊢
      rw [List.map_append, List.nodup_append]
      refine ⟨hu, by simp, ?_⟩
      intro a ha hb
      simp only [List.map_cons, List.map_nil, List.mem_singleton] at hb
      obtain ⟨x, hx, hxa⟩ := List.mem_map.1 ha
      exact (QHash.find_none_iff r _).1 hf x hx (by rw [hxa, hb])
    · intro it hit
      rcases List.mem_append.1 hit with h | h
      · exact hk it h
      · simp only [List.mem_singleton] at h
        rw [h]

theorem WellFormed.of_remove (qt : Qt) (r : Endpoints) (t : QString) (m : HttpMethod)
    (hw : WellFormed qt r) : WellFormed qt (RemoveEndpoint r t m).2 := by
  unfold RemoveEndpoint
  rcases RemoveEndpoint.loop_spec r t m r with ⟨_, hr⟩ | ⟨l1, it, l2, _, _, _, _, hr⟩
  · rw [hr]; exact hw
  · rw [hr]
    simp only
    obtain ⟨hu, hk⟩ := hw
    constructor
    · unfold QHash.UniqueKeys at hu ⊢
      exact hu.sublist (List.Sublist.map _ (List.filter_sublist _))
    · intro x hx
      exact hk x ((QHash.mem_remove r it.1 x).1 hx).1

theorem Reachable.wellFormed (qt : Qt) (r : Endpoints) (h : Reachable qt r) :
    WellFormed qt r := by
  induction h with
  | empty => exact ⟨List.nodup_nil, by simp⟩
  | add r t m _ ih => exact WellFormed.of_add qt r t m ih
  | remove r t m _ ih => exact WellFormed.of_remove qt r t m ih
  | reorder r r2 _ hp ih =>
    obtain ⟨hu, hk⟩ := ih
    constructor
    · unfold QHash.UniqueKeys at hu ⊢
      exact ((hp.map Prod.fst).nodup_iff).1 hu
    · intro it hit
      exact hk it (hp.mem_iff.2 hit)


/-! ## Removal (C7, C8) -/

/-- C7: on a hash with pairwise distinct keys, `RemoveEndpoint(t, m)` returns
true iff `endpoints` holds an item whose stored template equals `t` (as a
string) and whose method equals `m`; when it returns true exactly one such
item, the first one, is removed and all other items stay, and when it returns
false `endpoints` is unchanged. Removing `/a/{c}` when `/a/{b}` is registered
returns false. -/
theorem C7_remove_by_stored_template (endpoints : Endpoints) (t : QString) (m : HttpMethod)
    (hu : QHash.UniqueKeys endpoints) :
    ((RemoveEndpoint endpoints t m).1 = true ↔ ∃ it ∈ endpoints, it.2 = t ∧ it.1.2 = m) ∧
    ((RemoveEndpoint endpoints t m).1 = true →
      ∃ l1 it l2, endpoints = l1 ++ it :: l2 ∧ it.2 = t ∧ it.1.2 = m ∧
        (∀ x ∈ l1, ¬ (x.2 = t ∧ x.1.2 = m)) ∧
        (RemoveEndpoint endpoints t m).2 = l1 ++ l2) ∧
    ((RemoveEndpoint endpoints t m).1 = false → (RemoveEndpoint endpoints t m).2 = endpoints) ∧
    RemoveEndpoint (AddEndpoint qtRef [] "/a/{b}".toList HttpMethod.GET).2
        "/a/{c}".toList HttpMethod.GET =
      (false, (AddEndpoint qtRef [] "/a/{b}".toList HttpMethod.GET).2) := by
  unfold RemoveEndpoint
  rcases RemoveEndpoint.loop_spec endpoints t m endpoints with
    ⟨hall, hr⟩ | ⟨l1, it, l2, hl, hall, h1, h2, hr⟩
  · rw [hr]
    refine ⟨?_, ?_, fun _ => rfl, by decide⟩
    · constructor
      · intro h
        cases h
      · rintro ⟨it, hit, h⟩
        exact absurd h (hall it hit)
    · intro h
      cases h
  · rw [hr]
    refine ⟨?_, ?_, ?_, by decide⟩
    · constructor
      · intro _
        exact ⟨it, by rw [hl]; simp, h1, h2⟩
      · intro _
        rfl
    · intro _
      refine ⟨l1, it, l2, hl, h1, h2, hall, ?_⟩
      simp only
      have hu2 := hu
      rw [hl] at hu2
      conv_lhs => rw [hl]
      exact QHash.remove_of_unique l1 l2 it hu2
    · intro h
      cases h

/-- C7 at a scenario: with `/a/{b}` and `/c` registered for GET, removing
`/c` for GET returns true. -/
theorem C7_remove_by_stored_template_witness :
    (RemoveEndpoint (registryOfTwo "/a/{b}".toList HttpMethod.GET "/c".toList HttpMethod.GET)
        "/c".toList HttpMethod.GET).1 = true ↔
      ∃ it ∈ registryOfTwo "/a/{b}".toList HttpMethod.GET "/c".toList HttpMethod.GET,
        it.2 = "/c".toList ∧ it.1.2 = HttpMethod.GET :=
  (C7_remove_by_stored_template
    (registryOfTwo "/a/{b}".toList HttpMethod.GET "/c".toList HttpMethod.GET)
    "/c".toList HttpMethod.GET (by decide)).1

/-- C8: on any registry built by `AddEndpoint` and `RemoveEndpoint` calls,
after `RemoveEndpoint(t, m)` has returned true no item with template `t` and
method `m` remains; so no match kept by a later `HandleRequest` under the
method `m` has the endpoint `t`, and a second `RemoveEndpoint(t, m)` returns
false and changes nothing. -/
theorem C8_removal_is_complete (qt : Qt) (r : Endpoints) (t : QString) (m : HttpMethod)
    (hr : Reachable qt r) (h : (RemoveEndpoint r t m).1 = true) :
    (∀ it ∈ (RemoveEndpoint r t m).2, ¬ (it.2 = t ∧ it.1.2 = m)) ∧
    (∀ url um, QHash.find (HandleRequest.matches qt (RemoveEndpoint r t m).2 url) m = some um →
      um.endpoint ≠ t) ∧
    (∀ (OnRequest : Callback) (serverName : QString) (requestData : WebccRequest),
      HandleRequest qt OnRequest serverName (RemoveEndpoint r t m).2 requestData =
        Except.ok WebccResponse.NotFound ∨
      HandleRequest qt OnRequest serverName (RemoveEndpoint r t m).2 requestData =
        Except.ok (WebccResponse.Code 405) ∨
      ∃ it ∈ (RemoveEndpoint r t m).2, ¬ (it.2 = t ∧ it.1.2 = m) ∧
        HandleRequest qt OnRequest serverName (RemoveEndpoint r t m).2 requestData =
          Except.ok (ProcessRequest OnRequest serverName
            (Matches qt it.2 requestData.path) requestData)) ∧
    RemoveEndpoint (RemoveEndpoint r t m).2 t m = (false, (RemoveEndpoint r t m).2) := by
  obtain ⟨hu, hk⟩ := Reachable.wellFormed qt r hr
  have hgone : ∀ it ∈ (RemoveEndpoint r t m).2, ¬ (it.2 = t ∧ it.1.2 = m) := by
    unfold RemoveEndpoint at h ⊢
    rcases RemoveEndpoint.loop_spec r t m r with
      ⟨_, hl⟩ | ⟨l1, it0, l2, hl0, _, h1, h2, hl⟩
    · rw [hl] at h
      cases h
    · rw [hl]
      intro x hx hxt
      obtain ⟨hxr, hne⟩ := (QHash.mem_remove r it0.1 x).1 hx
      apply hne
      have hx1 := hk x hxr
      have h01 := hk it0 (by rw [hl0]; simp)
      apply Prod.ext
      · rw [hx1, h01, hxt.1, h1]
      · rw [hxt.2, h2]
  refine ⟨hgone, ?_, ?_, ?_⟩
  · intro url um hf hend
    obtain ⟨⟨it, hit, hme, hum, _⟩, _⟩ :=
      (HandleRequest.matches_spec qt url (RemoveEndpoint r t m).2).1 m um hf
    apply hgone it hit
    refine ⟨?_, hme⟩
    rw [← hend, ← hum, Matches.endpoint_eq]
  · intro OnRequest serverName requestData
    rcases handleRequest_exits qt OnRequest serverName (RemoveEndpoint r t m).2 requestData with
      ⟨_, h1⟩ | ⟨_, _, _, h1⟩ | ⟨um, hf, h1⟩ | ⟨um, _, hf, h1⟩
    · exact Or.inl h1
    · exact Or.inr (Or.inl h1)
    · obtain ⟨⟨it, hit, _, hum, _⟩, _⟩ :=
        (HandleRequest.matches_spec qt requestData.path (RemoveEndpoint r t m).2).1 _ um hf
      exact Or.inr (Or.inr ⟨it, hit, hgone it hit, by rw [hum]; exact h1⟩)
    · obtain ⟨⟨it, hit, _, hum, _⟩, _⟩ :=
        (HandleRequest.matches_spec qt requestData.path (RemoveEndpoint r t m).2).1 _ um hf
      exact Or.inr (Or.inr ⟨it, hit, hgone it hit, by rw [hum]; exact h1⟩)
  · generalize (RemoveEndpoint r t m).2 = r2 at hgone ⊢
    unfold RemoveEndpoint
    rcases RemoveEndpoint.loop_spec r2 t m r2 with
      ⟨_, hl⟩ | ⟨l1, it0, l2, hl0, _, h1, h2, _⟩
    · exact hl
    · exact absurd ⟨h1, h2⟩ (hgone it0 (by rw [hl0]; simp))

/-- C8 at a scenario: `/a/{b}` and `/c` registered for GET, `/c` removed. -/
theorem C8_removal_is_complete_witness :
    RemoveEndpoint
        (RemoveEndpoint (registryOfTwo "/a/{b}".toList HttpMethod.GET "/c".toList HttpMethod.GET)
          "/c".toList HttpMethod.GET).2 "/c".toList HttpMethod.GET =
      (false,
        (RemoveEndpoint (registryOfTwo "/a/{b}".toList HttpMethod.GET "/c".toList HttpMethod.GET)
          "/c".toList HttpMethod.GET).2) :=
  (C8_removal_is_complete qtRef
    (registryOfTwo "/a/{b}".toList HttpMethod.GET "/c".toList HttpMethod.GET)
    "/c".toList HttpMethod.GET
    (Reachable.add _ _ _ (Reachable.add _ _ _ Reachable.empty)) (by decide)).2.2.2


/-! ## The place of `#` in an accepted template (C10) -/

/-- Appending a character that is not the separator extends the last part. -/
theorem split_append_char (sep c : Char) (hc : c ≠ sep) (s : QString) :
    ∃ init last, split sep s = init ++ [last] ∧ split sep (s ++ [c]) = init ++ [last ++ [c]] := by
  induction s with
  | nil =>
    refine ⟨[], [], by simp [split], ?_⟩
    simp [split, hc]
  | cons x xs ih =>
    obtain ⟨init, last, h1, h2⟩ := ih
    by_cases hx : x = sep
    · refine ⟨[] :: init, last, ?_, ?_⟩
      · simp [split, hx, h1]
      · simp [split, hx, h2]
    · cases init with
      | nil =>
        refine ⟨[], x :: last, ?_, ?_⟩
        · simp only [split, hx, if_false, h1, List.nil_append]
        · show split sep (x :: (xs ++ [c])) = _
          simp only [split, hx, if_false, h2, List.nil_append, List.cons_append]
      | cons d ds =>
        refine ⟨(x :: d) :: ds, last, ?_, ?_⟩
        · simp only [split, hx, if_false, h1, List.cons_append]
        · show split sep (x :: (xs ++ [c])) = _
          simp only [split, hx, if_false, h2, List.cons_append]

/-- The characters of the parts are characters of the string. -/
theorem mem_of_mem_split (sep : Char) (s : QString) :
    ∀ part ∈ split sep s, ∀ x ∈ part, x ∈ s := by
  induction s with
  | nil =>
    intro part hp x hx
    simp only [split, List.mem_singleton] at hp
    rw [hp] at hx
    exact hx
  | cons y ys ih =>
    intro part hp x hx
    by_cases hy : y = sep
    · simp only [split, hy, if_true, List.mem_cons] at hp
      rcases hp with hp | hp
      · rw [hp] at hx
        cases hx
      · exact List.mem_cons_of_mem _ (ih part hp x hx)
    · simp only [split, hy, if_false] at hp
      cases hs : split sep ys with
      | nil =>
        rw [hs] at hp
        simp only [List.mem_singleton] at hp
        rw [hp] at hx
        simp only [List.mem_singleton] at hx
        rw [hx]
        exact List.mem_cons_self _ _
      | cons w ws =>
        rw [hs] at hp ih
        simp only [List.mem_cons] at hp
        rcases hp with hp | hp
        · rw [hp] at hx
          rcases List.mem_cons.1 hx with h | h
          · rw [h]
            exact List.mem_cons_self _ _
          · exact List.mem_cons_of_mem _ (ih w (List.mem_cons_self _ _) x h)
        · exact List.mem_cons_of_mem _ (ih part (List.mem_cons_of_mem _ hp) x hx)

/-- C10, as stated, fails: `AddEndpoint` accepts `/a#`, whose last segment
`a#` contains `#` without being exactly `#`. -/
theorem C10_hashtag_segment_counterexample :
    AddEndpoint qtRef [] "/a#".toList HttpMethod.GET =
      (Except.ok true, [(("/ahashtag".toList, HttpMethod.GET), "/a#".toList)]) ∧
    split '/' "/a#".toList = [[], "a#".toList] ∧
    (split '/' "/a#".toList).getLast? ≠ some ['#'] := by
  decide

/-- C10, amended: every template accepted by `AddEndpoint` contains `#` at
most once, as its last character; so if an accepted template contains `#`
then its last `/`-separated segment ends with `#`, which is the only `#` of
that segment, and no other segment contains `#`. -/
theorem C10_hashtag_only_as_last_character (qt : Qt) (endpoints : Endpoints) (t : QString)
    (m : HttpMethod) (b : Bool) (hok : (AddEndpoint qt endpoints t m).1 = Except.ok b)
    (hmem : '#' ∈ t) :
    (∀ i, t[i]? = some '#' → i + 1 = t.length) ∧
    (∃ pre, t = pre ++ ['#'] ∧ '#' ∉ pre) ∧
    (∃ init w, split '/' t = init ++ [w ++ ['#']] ∧ '#' ∉ w ∧ ∀ seg ∈ init, '#' ∉ seg) := by
  have htest : ¬ (contains t '#' = true ∧ indexOf '#' t ≠ (t.length : Int) - 1) := by
    intro hbad
    have : (AddEndpoint qt endpoints t m).1 =
        Except.error ((Ex EventId.InvalidEndpointHashtagWildcard).Arg t) := by
      unfold AddEndpoint
      rw [if_pos hbad]
    rw [this] at hok
    cases hok
  rw [hashtag_test_iff] at htest
  have hpos : ∀ i, t[i]? = some '#' → i + 1 = t.length := by
    intro i hi
    have hlt : i < t.length := by
      by_contra hge
      rw [List.getElem?_eq_none (by omega)] at hi
      cases hi
    by_contra hne
    exact htest ⟨i, by omega, hi⟩
  have hne : t ≠ [] := List.ne_nil_of_mem hmem
  obtain ⟨i, hi⟩ := List.mem_iff_getElem?.1 hmem
  have hilen := hpos i hi
  have hlast : t.getLast hne = '#' := by
    have h1 : t.getLast? = some '#' := by
      rw [List.getLast?_eq_getElem?]
      have : t.length - 1 = i := by omega
      rw [this]
      exact hi
    rw [List.getLast?_eq_getLast _ hne] at h1
    injection h1
  have hdecomp : t = t.dropLast ++ ['#'] := by
    have := List.dropLast_append_getLast hne
    rw [hlast] at this
    exact this.symm
  have hpre : '#' ∉ t.dropLast := by
    intro hin
    obtain ⟨j, hj⟩ := List.mem_iff_getElem?.1 hin
    have hjlt : j < t.dropLast.length := by
      by_contra hge
      rw [List.getElem?_eq_none (by omega)] at hj
      cases hj
    have hlen : t.dropLast.length = t.length - 1 := List.length_dropLast t
    have hj2 : t[j]? = some '#' := by
      rw [hdecomp, List.getElem?_append_left hjlt]
      exact hj
    have := hpos j hj2
    omega
  refine ⟨hpos, ⟨t.dropLast, hdecomp, hpre⟩, ?_⟩
  obtain ⟨init, w, h1, h2⟩ := split_append_char '/' '#' (by decide) t.dropLast
  refine ⟨init, w, by rw [hdecomp]; exact h2, ?_, ?_⟩
  · intro hw
    exact hpre (mem_of_mem_split '/' t.dropLast w (by rw [h1]; simp) '#' hw)
  · intro seg hseg hin
    exact hpre (mem_of_mem_split '/' t.dropLast seg
      (by rw [h1]; exact List.mem_append_left _ hseg) '#' hin)

/-- C10, amended, at a scenario: `/files/#` is accepted; its segments are
the empty one, `files` and `#`. -/
theorem C10_hashtag_only_as_last_character_witness :
    (∀ i, ("/files/#".toList)[i]? = some '#' → i + 1 = "/files/#".toList.length) ∧
    (∃ pre, "/files/#".toList = pre ++ ['#'] ∧ '#' ∉ pre) ∧
    (∃ init w, split '/' "/files/#".toList = init ++ [w ++ ['#']] ∧ '#' ∉ w ∧
      ∀ seg ∈ init, '#' ∉ seg) :=
  C10_hashtag_only_as_last_character qtRef [] "/files/#".toList HttpMethod.GET true
    (by decide) (by decide)


/-! ## Lemmas on the path variable pattern and on endpointAdjusted -/

theorem closeLen_some (dot : Char → Bool) (s : QString) (j : Nat)
    (h : closeLen dot s = some j) :
    ∃ a rest, s = a ++ '}' :: rest ∧ j = a.length + 1 ∧ ∀ x ∈ a, dot x = true ∧ x ≠ '}' := by
  induction s generalizing j with
  | nil => simp [closeLen] at h
  | cons c cs ih =>
    by_cases hc : c = '}'
    · simp only [closeLen, hc, if_true, Option.some.injEq] at h
      exact ⟨[], cs, by simp [hc], by simp [← h], by simp⟩
    · by_cases hd : dot c = true
      · simp only [closeLen, hc, if_false, hd, if_true] at h
        cases hr : closeLen dot cs with
        | none => simp [hr] at h
        | some j2 =>
          rw [hr] at h
          simp only [Option.map_some', Option.some.injEq] at h
          obtain ⟨a, rest, hs, hj, ha⟩ := ih j2 hr
          refine ⟨c :: a, rest, by simp [hs], by simp [← h, hj], ?_⟩
          intro x hx
          rcases List.mem_cons.1 hx with hx | hx
          · rw [hx]
            exact ⟨hd, hc⟩
          · exact ha x hx
      · simp [closeLen, hc, hd] at h

theorem closeLen_through (dot : Char → Bool) (a rest : QString)
    (ha : ∀ x ∈ a, dot x = true ∧ x ≠ '}') :
    closeLen dot (a ++ '}' :: rest) = some (a.length + 1) := by
  induction a with
  | nil => simp [closeLen]
  | cons c cs ih =>
    have hc := ha c (List.mem_cons_self _ _)
    have ih2 := ih (fun x hx => ha x (List.mem_cons_of_mem _ hx))
    simp [closeLen, hc.1, hc.2, ih2]

theorem closeLen_none_of_not_mem (dot : Char → Bool) (s : QString) (h : '}' ∉ s) :
    closeLen dot s = none := by
  induction s with
  | nil => simp [closeLen]
  | cons c cs ih =>
    have hc : c ≠ '}' := fun e => h (by rw [e]; exact List.mem_cons_self _ _)
    have ih2 := ih (fun hm => h (List.mem_cons_of_mem _ hm))
    by_cases hd : dot c = true <;> simp [closeLen, hc, hd, ih2]

theorem pathVariableRxLen_some (dot : Char → Bool) (s : QString) (n : Nat)
    (h : pathVariableRxLen dot s = some n) :
    ∃ c cs rest, s = '{' :: c :: cs ++ '}' :: rest ∧ n = cs.length + 3 ∧ dot c = true ∧
      ∀ x ∈ cs, dot x = true ∧ x ≠ '}' := by
  unfold pathVariableRxLen at h
  split at h
  next c cs =>
    by_cases hd : dot c = true
    · simp only [hd, if_true] at h
      cases hr : closeLen dot cs with
      | none => simp [hr] at h
      | some j =>
        rw [hr] at h
        simp only [Option.map_some', Option.some.injEq] at h
        obtain ⟨a, rest, hs, hj, ha⟩ := closeLen_some dot cs j hr
        exact ⟨c, a, rest, by simp [hs], by omega, hd, ha⟩
    · simp [hd] at h
  next => cases h

theorem pathVariableRxLen_of_head_ne (dot : Char → Bool) (c : Char) (cs : QString)
    (hc : c ≠ '{') : pathVariableRxLen dot (c :: cs) = none := by
  unfold pathVariableRxLen
  split
  · rename_i heq
    injection heq with h1 _
    exact absurd h1 hc
  · rfl

/-- Skipping `k` characters is dropping them. -/
theorem replacePathVariables_skip (dot : Char → Bool) (after : QString) (k : Nat) (s : QString) :
    replacePathVariables dot after k s = replacePathVariables dot after 0 (s.drop k) := by
  induction k generalizing s with
  | zero => simp
  | succ k ih =>
    cases s with
    | nil => simp [replacePathVariables]
    | cons c cs =>
      simp only [replacePathVariables, List.drop_succ_cons]
      exact ih cs

theorem replacePathVariables_of_none (dot : Char → Bool) (after : QString) (c : Char)
    (cs : QString) (h : pathVariableRxLen dot (c :: cs) = none) :
    replacePathVariables dot after 0 (c :: cs) = c :: replacePathVariables dot after 0 cs := by
  simp [replacePathVariables, h]

theorem replacePathVariables_of_some (dot : Char → Bool) (after : QString) (c : Char)
    (cs : QString) (n : Nat) (h : pathVariableRxLen dot (c :: cs) = some n) :
    replacePathVariables dot after 0 (c :: cs) =
      after ++ replacePathVariables dot after 0 (cs.drop (n - 1)) := by
  simp only [replacePathVariables, h]
  rw [replacePathVariables_skip]

/-- A string without an opening brace has no path variable to replace. -/
theorem replacePathVariables_of_no_open (dot : Char → Bool) (after : QString) (s : QString)
    (h : '{' ∉ s) : replacePathVariables dot after 0 s = s := by
  induction s with
  | nil => simp [replacePathVariables]
  | cons c cs ih =>
    have hc : c ≠ '{' := fun e => h (by rw [e]; exact List.mem_cons_self _ _)
    rw [replacePathVariables_of_none dot after c cs (pathVariableRxLen_of_head_ne dot c cs hc),
      ih (fun hm => h (List.mem_cons_of_mem _ hm))]

theorem replacePathVariables_append_of_no_open (dot : Char → Bool) (after : QString)
    (pre s : QString) (h : '{' ∉ pre) :
    replacePathVariables dot after 0 (pre ++ s) = pre ++ replacePathVariables dot after 0 s := by
  induction pre with
  | nil => simp
  | cons c cs ih =>
    have hc : c ≠ '{' := fun e => h (by rw [e]; exact List.mem_cons_self _ _)
    rw [List.cons_append,
      replacePathVariables_of_none dot after c (cs ++ s)
        (pathVariableRxLen_of_head_ne dot c (cs ++ s) hc),
      ih (fun hm => h (List.mem_cons_of_mem _ hm))]
    rfl

theorem replaceChar_of_not_mem (c : Char) (after s : QString) (h : c ∉ s) :
    replaceChar c after s = s := by
  induction s with
  | nil => simp [replaceChar]
  | cons x xs ih =>
    have hx : x ≠ c := fun e => h (by rw [e]; exact List.mem_cons_self _ _)
    simp [replaceChar, hx, ih (fun hm => h (List.mem_cons_of_mem _ hm))]

theorem not_mem_replaceChar (c : Char) (after s : QString) (h : c ∉ after) :
    c ∉ replaceChar c after s := by
  induction s with
  | nil => simp [replaceChar]
  | cons x xs ih =>
    by_cases hx : x = c
    · simp only [replaceChar, hx, if_true, List.mem_append, not_or]
      exact ⟨h, ih⟩
    · simp only [replaceChar, hx, if_false, List.mem_cons, not_or]
      exact ⟨fun e => hx e.symm, ih⟩

theorem mem_replaceChar_iff (c x : Char) (after s : QString) (hx : x ≠ c) (ha : x ∉ after) :
    x ∈ replaceChar c after s ↔ x ∈ s := by
  induction s with
  | nil => simp [replaceChar]
  | cons y ys ih =>
    by_cases hy : y = c
    · simp only [replaceChar, hy, if_true, List.mem_append, List.mem_cons, ih]
      constructor
      · rintro (h | h)
        · exact absurd h ha
        · exact Or.inr h
      · rintro (h | h)
        · exact absurd h hx
        · exact Or.inr h
    · simp only [replaceChar, hy, if_false, List.mem_cons, ih]

/-- The braces of the adjusted endpoint are those left by the replacement of
the path variables. -/
theorem mem_endpointAdjusted_iff (qt : Qt) (t : QString) (x : Char)
    (hx : x = '{' ∨ x = '}') :
    x ∈ endpointAdjusted qt t ↔
      x ∈ replacePathVariables qt.dot "[variableName]".toList 0 t := by
  unfold endpointAdjusted
  apply mem_replaceChar_iff
  · rcases hx with h | h <;> rw [h] <;> decide
  · rcases hx with h | h <;> rw [h] <;> decide

/-- When the replacement of the path variables leaves no brace, every brace
of the string was in a replaced run. -/
theorem bracesInRuns_of_replaced (dot : Char → Bool) (after : QString) :
    ∀ (n : Nat) (s : QString), s.length = n →
      '{' ∉ replacePathVariables dot after 0 s → '}' ∉ replacePathVariables dot after 0 s →
      BracesInRuns dot s := by
  intro n
  induction n using Nat.strong_induction_on with
  | _ n ih =>
    intro s hlen h1 h2
    cases s with
    | nil => exact BracesInRuns.done
    | cons c cs =>
      cases hr : pathVariableRxLen dot (c :: cs) with
      | none =>
        rw [replacePathVariables_of_none dot after c cs hr] at h1 h2
        simp only [List.mem_cons, not_or] at h1 h2
        refine BracesInRuns.plain c cs (fun e => h1.1 e.symm) (fun e => h2.1 e.symm) ?_
        exact ih cs.length (by simp at hlen; omega) cs rfl h1.2 h2.2
      | some k =>
        rw [replacePathVariables_of_some dot after c cs k hr] at h1 h2
        obtain ⟨c2, cs2, rest, hs, hk, hd, hall⟩ := pathVariableRxLen_some dot (c :: cs) k hr
        injection hs with hc hcs
        have hcs2 : cs = (c2 :: cs2 ++ ['}']) ++ rest := by
          rw [hcs]
          simp
        have hdrop : cs.drop (k - 1) = rest := by
          have hl : k - 1 = (c2 :: cs2 ++ ['}']).length := by
            simp
            omega
          rw [hcs2, hl, List.drop_left]
        rw [hdrop] at h1 h2
        simp only [List.mem_append, not_or] at h1 h2
        have hshape : c :: cs = '{' :: c2 :: cs2 ++ '}' :: rest := by
          rw [hc, hcs]
          rfl
        rw [hshape]
        refine BracesInRuns.run c2 cs2 rest hd hall ?_
        apply ih rest.length _ rest rfl h1.2 h2.2
        rw [← hlen, hshape]
        simp
        omega


/-! ## Braces in templates and the adjusted endpoint (C11 to C13) -/

/-- C11, as stated, fails: `AddEndpoint` accepts `/a{b}c`, whose segment
`a{b}c` contains braces without being a path variable, and `/{a/b}`, whose
segments `{a` and `b}` each contain one brace, the run `{a/b}` spanning the
slash; it also accepts `/{{a}`, where the name `{a` contains a brace. -/
theorem C11_brace_segment_counterexample :
    (AddEndpoint qtRef [] "/a{b}c".toList HttpMethod.GET).1 = Except.ok true ∧
    split '/' "/a{b}c".toList = [[], "a{b}c".toList] ∧
    pathVariableExact qtRef.dot "a{b}c".toList = none ∧
    (AddEndpoint qtRef [] "/{a/b}".toList HttpMethod.GET).1 = Except.ok true ∧
    split '/' "/{a/b}".toList = [[], ['{', 'a'], ['b', '}']] ∧
    pathVariableExact qtRef.dot ['{', 'a'] = none ∧
    pathVariableExact qtRef.dot ['b', '}'] = none ∧
    (AddEndpoint qtRef [] ['/', '{', '{', 'a', '}'] HttpMethod.GET).1 = Except.ok true ∧
    pathVariableExact qtRef.dot ['{', '{', 'a', '}'] = some ['{', 'a'] := by
  decide

/-- C11, amended: in every template accepted by `AddEndpoint`, every `{` and
`}` lies in a run `{name}` (the runs taken from left to right, one after the
other) whose name is not empty and has no line break, and after its first
character no `}`. Such a run need not fill a segment, and its name may
contain `{` or `/`. -/
theorem C11_braces_only_in_runs (qt : Qt) (endpoints : Endpoints) (t : QString)
    (m : HttpMethod) (b : Bool) (hok : (AddEndpoint qt endpoints t m).1 = Except.ok b) :
    BracesInRuns qt.dot t := by
  have hfree : '{' ∉ endpointAdjusted qt t ∧ '}' ∉ endpointAdjusted qt t := by
    rcases addEndpoint_exits qt endpoints t m with
      ⟨_, hr⟩ | ⟨_, _, hr⟩ | ⟨_, _, _, hr⟩ | ⟨_, _, _, _, hr⟩ | ⟨_, _, _, hr⟩ | ⟨hv, _, _⟩
    · rw [hr] at hok; cases hok
    · rw [hr] at hok; cases hok
    · rw [hr] at hok; cases hok
    · rw [hr] at hok; cases hok
    · rw [hr] at hok; cases hok
    · exact ⟨(contains_false_iff _ _).1 hv.2.1, (contains_false_iff _ _).1 hv.2.2.1⟩
  rw [mem_endpointAdjusted_iff qt t '{' (Or.inl rfl),
    mem_endpointAdjusted_iff qt t '}' (Or.inr rfl)] at hfree
  exact bracesInRuns_of_replaced qt.dot _ t.length t rfl hfree.1 hfree.2

/-- C11, amended, at a scenario: the braces of the accepted `/a{b}c` lie in
the run `{b}`. -/
theorem C11_braces_only_in_runs_witness : BracesInRuns qtRef.dot "/a{b}c".toList :=
  C11_braces_only_in_runs qtRef [] "/a{b}c".toList HttpMethod.GET true (by decide)

/-- C12: for a template that passes the `#` position check, `AddEndpoint`
raises `InvalidCharacterInEndpoint` iff the adjusted endpoint still contains
`{` or `}`; the reported character is `{` whenever it contains `{`, and `}`
otherwise. A template `pre{}post` whose `pre` has no `{` and whose `post` has
no `}` is rejected this way, e.g. `/a/{}`. -/
theorem C12_stray_brace_rejection (qt : Qt) (endpoints : Endpoints) (t : QString)
    (m : HttpMethod)
    (hpos : ¬ (contains t '#' = true ∧ indexOf '#' t ≠ (t.length : Int) - 1)) :
    ((∃ e, (AddEndpoint qt endpoints t m).1 = Except.error e ∧
        e.id = EventId.InvalidCharacterInEndpoint) ↔
      ('{' ∈ endpointAdjusted qt t ∨ '}' ∈ endpointAdjusted qt t)) ∧
    ('{' ∈ endpointAdjusted qt t →
      (AddEndpoint qt endpoints t m).1 =
        Except.error ((Ex EventId.InvalidCharacterInEndpoint).Arg ['{'])) ∧
    ('{' ∉ endpointAdjusted qt t → '}' ∈ endpointAdjusted qt t →
      (AddEndpoint qt endpoints t m).1 =
        Except.error ((Ex EventId.InvalidCharacterInEndpoint).Arg ['}'])) ∧
    (∀ pre post : QString, t = pre ++ '{' :: '}' :: post → '{' ∉ pre → '}' ∉ post →
      (AddEndpoint qt endpoints t m).1 =
        Except.error ((Ex EventId.InvalidCharacterInEndpoint).Arg ['{'])) ∧
    (AddEndpoint qtRef [] ['/', 'a', '/', '{', '}'] HttpMethod.GET).1 =
      Except.error ((Ex EventId.InvalidCharacterInEndpoint).Arg ['{']) := by
  have hopen : '{' ∈ endpointAdjusted qt t →
      (AddEndpoint qt endpoints t m).1 =
        Except.error ((Ex EventId.InvalidCharacterInEndpoint).Arg ['{']) := by
    intro h
    have hc := (contains_iff_mem _ _).2 h
    unfold AddEndpoint
    rw [if_neg hpos, if_pos hc]
  have hclose : '{' ∉ endpointAdjusted qt t → '}' ∈ endpointAdjusted qt t →
      (AddEndpoint qt endpoints t m).1 =
        Except.error ((Ex EventId.InvalidCharacterInEndpoint).Arg ['}']) := by
    intro h1 h2
    have hc1 : ¬ (contains (endpointAdjusted qt t) '{' = true) := by
      rw [contains_iff_mem]
      exact h1
    have hc2 := (contains_iff_mem _ _).2 h2
    unfold AddEndpoint
    rw [if_neg hpos, if_neg hc1, if_pos hc2]
  refine ⟨?_, hopen, hclose, ?_, by decide⟩
  · constructor
    · rintro ⟨e, he, hid⟩
      rcases addEndpoint_exits qt endpoints t m with
        ⟨_, hr⟩ | ⟨_, h, _⟩ | ⟨_, _, h, _⟩ | ⟨_, _, _, _, hr⟩ | ⟨_, _, _, hr⟩ | ⟨_, _, hr⟩
      · rw [hr] at he
        injection he with he
        subst he
        simp [Ex, Exception.Arg] at hid
      · exact Or.inl ((contains_iff_mem _ _).1 h)
      · exact Or.inr ((contains_iff_mem _ _).1 h)
      · rw [hr] at he
        injection he with he
        subst he
        simp [Ex, Exception.Arg] at hid
      · rw [hr] at he
        injection he with he
        subst he
        simp [Ex, Exception.Arg] at hid
      · rw [hr] at he
        cases he
    · intro h
      by_cases h1 : '{' ∈ endpointAdjusted qt t
      · exact ⟨_, hopen h1, rfl⟩
      · rcases h with h | h
        · exact absurd h h1
        · exact ⟨_, hclose h1 h, rfl⟩
  · intro pre post ht hpre hpost
    apply hopen
    rw [mem_endpointAdjusted_iff qt t '{' (Or.inl rfl), ht,
      replacePathVariables_append_of_no_open _ _ _ _ hpre]
    apply List.mem_append_right
    have hnone : pathVariableRxLen qt.dot ('{' :: '}' :: post) = none := by
      simp [pathVariableRxLen, closeLen_none_of_not_mem qt.dot post hpost]
    rw [replacePathVariables_of_none _ _ _ _ hnone]
    exact List.mem_cons_self _ _

/-- C12 at the scenario `/a/{}`: it passes the `#` check and is rejected
for the character `{`. -/
theorem C12_stray_brace_rejection_witness :
    (AddEndpoint qtRef [] ['/', 'a', '/', '{', '}'] HttpMethod.GET).1 =
      Except.error ((Ex EventId.InvalidCharacterInEndpoint).Arg ['{']) :=
  (C12_stray_brace_rejection qtRef [] ['/', 'a', '/', '{', '}'] HttpMethod.GET
    (by decide)).2.2.2.1 ['/', 'a', '/'] [] (by decide) (by decide) (by decide)

/-- C13: for every template that passes validation, adjusting the adjusted
endpoint once more (path variables to `[variableName]`, then `#` to
`hashtag`) gives the adjusted endpoint again, and the adjusted endpoint
contains none of `{`, `}`, `#`. -/
theorem C13_adjusting_is_idempotent (qt : Qt) (t : QString) (hv : PassesValidation qt t) :
    endpointAdjusted qt (endpointAdjusted qt t) = endpointAdjusted qt t ∧
    '{' ∉ endpointAdjusted qt t ∧ '}' ∉ endpointAdjusted qt t ∧
    '#' ∉ endpointAdjusted qt t := by
  have h1 : '{' ∉ endpointAdjusted qt t := (contains_false_iff _ _).1 hv.2.1
  have h2 : '}' ∉ endpointAdjusted qt t := (contains_false_iff _ _).1 hv.2.2.1
  have h3 : '#' ∉ endpointAdjusted qt t := by
    unfold endpointAdjusted
    exact not_mem_replaceChar '#' _ _ (by decide)
  refine ⟨?_, h1, h2, h3⟩
  have e : endpointAdjusted qt (endpointAdjusted qt t) =
      replaceChar '#' "hashtag".toList
        (replacePathVariables qt.dot "[variableName]".toList 0 (endpointAdjusted qt t)) := rfl
  rw [e, replacePathVariables_of_no_open _ _ _ h1, replaceChar_of_not_mem _ _ _ h3]

/-- C13 at a scenario: `/a/{b}/#` passes validation; its adjusted form
`/a/[variableName]/hashtag` is left as it is when adjusted again. -/
theorem C13_adjusting_is_idempotent_witness :
    endpointAdjusted qtRef (endpointAdjusted qtRef "/a/{b}/#".toList) =
      endpointAdjusted qtRef "/a/{b}/#".toList ∧
    '{' ∉ endpointAdjusted qtRef "/a/{b}/#".toList ∧
    '}' ∉ endpointAdjusted qtRef "/a/{b}/#".toList ∧
    '#' ∉ endpointAdjusted qtRef "/a/{b}/#".toList :=
  C13_adjusting_is_idempotent qtRef "/a/{b}/#".toList (by decide)


/-! ## The adjusted endpoint does not depend on the variable names (C14) -/

/-- A path variable with a name of characters matched by `.`, none of them a
closing brace, is replaced as a whole. -/
theorem replacePathVariables_variable (dot : Char → Bool) (after n post : QString)
    (hne : n ≠ []) (hn : ∀ x ∈ n, dot x = true ∧ x ≠ '}') :
    replacePathVariables dot after 0 ('{' :: (n ++ '}' :: post)) =
      after ++ replacePathVariables dot after 0 post := by
  cases n with
  | nil => exact absurd rfl hne
  | cons c cs =>
    have hc := hn c (List.mem_cons_self _ _)
    have hcs : ∀ x ∈ cs, dot x = true ∧ x ≠ '}' := fun x hx => hn x (List.mem_cons_of_mem _ hx)
    have hlen : pathVariableRxLen dot ('{' :: (c :: cs ++ '}' :: post)) =
        some (cs.length + 3) := by
      simp [pathVariableRxLen, hc.1, closeLen_through dot cs post hcs]
    rw [replacePathVariables_of_some dot after _ _ _ hlen]
    have hd : (c :: cs ++ '}' :: post).drop (cs.length + 3 - 1) = post := by
      have e : c :: cs ++ '}' :: post = (c :: cs ++ ['}']) ++ post := by simp
      have hl : cs.length + 3 - 1 = (c :: cs ++ ['}']).length := by simp
      rw [e, hl, List.drop_left]
    rw [hd]

/-- The search for the closing brace, started before a path variable: with
either name it fails, or stops at the same place before the variable, or
stops at the closing brace of the variable. -/
theorem closeLen_before_variable (dot : Char → Bool) (n1 n2 post : QString)
    (h1 : ∀ x ∈ n1, dot x = true ∧ x ≠ '}') (h2 : ∀ x ∈ n2, dot x = true ∧ x ≠ '}')
    (a : QString) :
    (closeLen dot (a ++ '{' :: (n1 ++ '}' :: post)) = none ∧
      closeLen dot (a ++ '{' :: (n2 ++ '}' :: post)) = none) ∨
    (∃ j, j ≤ a.length ∧ closeLen dot (a ++ '{' :: (n1 ++ '}' :: post)) = some j ∧
      closeLen dot (a ++ '{' :: (n2 ++ '}' :: post)) = some j) ∨
    (∃ j1 j2, closeLen dot (a ++ '{' :: (n1 ++ '}' :: post)) = some j1 ∧
      closeLen dot (a ++ '{' :: (n2 ++ '}' :: post)) = some j2 ∧
      (a ++ '{' :: (n1 ++ '}' :: post)).drop j1 = post ∧
      (a ++ '{' :: (n2 ++ '}' :: post)).drop j2 = post) := by
  have hdrop : ∀ n : QString, ('{' :: (n ++ '}' :: post)).drop (n.length + 1 + 1) = post := by
    intro n
    have e : '{' :: (n ++ '}' :: post) = ('{' :: n ++ ['}']) ++ post := by simp
    have hl : n.length + 1 + 1 = ('{' :: n ++ ['}']).length := by simp
    rw [e, hl, List.drop_left]
  induction a with
  | nil =>
    by_cases hd : dot '{' = true
    · right; right
      refine ⟨n1.length + 1 + 1, n2.length + 1 + 1, ?_, ?_, hdrop n1, hdrop n2⟩
      · simp [closeLen, hd, closeLen_through dot n1 post h1]
      · simp [closeLen, hd, closeLen_through dot n2 post h2]
    · left
      simp [closeLen, hd]
  | cons x xs ih =>
    by_cases hx : x = '}'
    · right; left
      exact ⟨1, by simp, by simp [closeLen, hx], by simp [closeLen, hx]⟩
    · by_cases hd : dot x = true
      · rcases ih with ⟨e1, e2⟩ | ⟨j, hj, e1, e2⟩ | ⟨j1, j2, e1, e2, d1, d2⟩
        · left
          simp [closeLen, hx, hd, e1, e2]
        · right; left
          exact ⟨j + 1, by simp [hj], by simp [closeLen, hx, hd, e1], by simp [closeLen, hx, hd, e2]⟩
        · right; right
          exact ⟨j1 + 1, j2 + 1, by simp [closeLen, hx, hd, e1], by simp [closeLen, hx, hd, e2],
            by simpa using d1, by simpa using d2⟩
      · left
        simp [closeLen, hx, hd]

/-- The match of the pattern at an opening brace before a path variable:
with either name there is none, or the same one ending before the variable,
or one ending at the closing brace of the variable. -/
theorem pathVariableRxLen_before_variable (dot : Char → Bool) (n1 n2 post : QString)
    (h1 : ∀ x ∈ n1, dot x = true ∧ x ≠ '}') (h2 : ∀ x ∈ n2, dot x = true ∧ x ≠ '}')
    (xs : QString) :
    (pathVariableRxLen dot ('{' :: (xs ++ '{' :: (n1 ++ '}' :: post))) = none ∧
      pathVariableRxLen dot ('{' :: (xs ++ '{' :: (n2 ++ '}' :: post))) = none) ∨
    (∃ k, k ≤ xs.length ∧
      pathVariableRxLen dot ('{' :: (xs ++ '{' :: (n1 ++ '}' :: post))) = some (k + 1) ∧
      pathVariableRxLen dot ('{' :: (xs ++ '{' :: (n2 ++ '}' :: post))) = some (k + 1)) ∨
    (∃ k1 k2,
      pathVariableRxLen dot ('{' :: (xs ++ '{' :: (n1 ++ '}' :: post))) = some (k1 + 1) ∧
      pathVariableRxLen dot ('{' :: (xs ++ '{' :: (n2 ++ '}' :: post))) = some (k2 + 1) ∧
      (xs ++ '{' :: (n1 ++ '}' :: post)).drop k1 = post ∧
      (xs ++ '{' :: (n2 ++ '}' :: post)).drop k2 = post) := by
  cases xs with
  | nil =>
    by_cases hd : dot '{' = true
    · right; right
      refine ⟨n1.length + 2, n2.length + 2, ?_, ?_, ?_, ?_⟩
      · simp [pathVariableRxLen, hd, closeLen_through dot n1 post h1]
      · simp [pathVariableRxLen, hd, closeLen_through dot n2 post h2]
      · have e : [] ++ '{' :: (n1 ++ '}' :: post) = ('{' :: n1 ++ ['}']) ++ post := by simp
        have hl : n1.length + 2 = ('{' :: n1 ++ ['}']).length := by simp
        rw [e, hl, List.drop_left]
      · have e : [] ++ '{' :: (n2 ++ '}' :: post) = ('{' :: n2 ++ ['}']) ++ post := by simp
        have hl : n2.length + 2 = ('{' :: n2 ++ ['}']).length := by simp
        rw [e, hl, List.drop_left]
    · left
      simp [pathVariableRxLen, hd]
  | cons c cs =>
    by_cases hd : dot c = true
    · rcases closeLen_before_variable dot n1 n2 post h1 h2 cs with
        ⟨e1, e2⟩ | ⟨j, hj, e1, e2⟩ | ⟨j1, j2, e1, e2, d1, d2⟩
      · left
        simp [pathVariableRxLen, hd, e1, e2]
      · right; left
        exact ⟨j + 1, by simp [hj], by simp [pathVariableRxLen, hd, e1],
          by simp [pathVariableRxLen, hd, e2]⟩
      · right; right
        exact ⟨j1 + 1, j2 + 1, by simp [pathVariableRxLen, hd, e1],
          by simp [pathVariableRxLen, hd, e2], by simpa using d1, by simpa using d2⟩
    · left
      simp [pathVariableRxLen, hd]

/-- The replacement of the path variables gives the same string for either
name of a variable. -/
theorem replacePathVariables_rename (dot : Char → Bool) (after n1 n2 post : QString)
    (hne1 : n1 ≠ []) (hne2 : n2 ≠ [])
    (h1 : ∀ x ∈ n1, dot x = true ∧ x ≠ '}') (h2 : ∀ x ∈ n2, dot x = true ∧ x ≠ '}') :
    ∀ (k : Nat) (pre : QString), pre.length = k →
      replacePathVariables dot after 0 (pre ++ '{' :: (n1 ++ '}' :: post)) =
        replacePathVariables dot after 0 (pre ++ '{' :: (n2 ++ '}' :: post)) := by
  intro k
  induction k using Nat.strong_induction_on with
  | _ k ih =>
    intro pre hlen
    cases pre with
    | nil =>
      rw [List.nil_append, List.nil_append,
        replacePathVariables_variable dot after n1 post hne1 h1,
        replacePathVariables_variable dot after n2 post hne2 h2]
    | cons x xs =>
      have hxs : xs.length < k := by
        rw [← hlen]
        simp
      by_cases hx : x = '{'
      · subst hx
        rcases pathVariableRxLen_before_variable dot n1 n2 post h1 h2 xs with
          ⟨e1, e2⟩ | ⟨j, hj, e1, e2⟩ | ⟨j1, j2, e1, e2, d1, d2⟩
        · rw [List.cons_append, List.cons_append,
            replacePathVariables_of_none dot after _ _ e1,
            replacePathVariables_of_none dot after _ _ e2, ih xs.length hxs xs rfl]
        · rw [List.cons_append, List.cons_append,
            replacePathVariables_of_some dot after _ _ _ e1,
            replacePathVariables_of_some dot after _ _ _ e2]
          simp only [Nat.add_sub_cancel]
          rw [List.drop_append_of_le_length hj, List.drop_append_of_le_length hj,
            ih (xs.drop j).length (by rw [List.length_drop]; omega) (xs.drop j) rfl]
        · rw [List.cons_append, List.cons_append,
            replacePathVariables_of_some dot after _ _ _ e1,
            replacePathVariables_of_some dot after _ _ _ e2]
          simp only [Nat.add_sub_cancel]
          rw [d1, d2]
      · rw [List.cons_append, List.cons_append,
          replacePathVariables_of_none dot after _ _ (pathVariableRxLen_of_head_ne dot x _ hx),
          replacePathVariables_of_none dot after _ _ (pathVariableRxLen_of_head_ne dot x _ hx),
          ih xs.length hxs xs rfl]

/-- C14: two templates that differ only in the name of a path variable have
the same adjusted endpoint: for all strings `pre`, `post` and all non-empty
names `n1`, `n2` free of braces and of line breaks (all their characters are
matched by `.`), the adjusted forms of `pre{n1}post` and `pre{n2}post` are
equal. -/
theorem C14_variable_names_are_erased (qt : Qt) (pre post n1 n2 : QString)
    (hne1 : n1 ≠ []) (hne2 : n2 ≠ [])
    (h1 : ∀ x ∈ n1, qt.dot x = true ∧ x ≠ '{' ∧ x ≠ '}')
    (h2 : ∀ x ∈ n2, qt.dot x = true ∧ x ≠ '{' ∧ x ≠ '}') :
    endpointAdjusted qt (pre ++ (['{'] ++ n1 ++ ['}']) ++ post) =
      endpointAdjusted qt (pre ++ (['{'] ++ n2 ++ ['}']) ++ post) := by
  have e : ∀ n : QString, pre ++ (['{'] ++ n ++ ['}']) ++ post =
      pre ++ '{' :: (n ++ '}' :: post) := by
    intro n
    simp
  unfold endpointAdjusted
  rw [e n1, e n2,
    replacePathVariables_rename qt.dot _ n1 n2 post hne1 hne2
      (fun x hx => ⟨(h1 x hx).1, (h1 x hx).2.2⟩) (fun x hx => ⟨(h2 x hx).1, (h2 x hx).2.2⟩)
      pre.length pre rfl]

/-- C14 at a scenario: `/a/{b}/c` and `/a/{name}/c` have the same adjusted
endpoint. -/
theorem C14_variable_names_are_erased_witness :
    endpointAdjusted qtRef ("/a/".toList ++ (['{'] ++ "b".toList ++ ['}']) ++ "/c".toList) =
      endpointAdjusted qtRef
        ("/a/".toList ++ (['{'] ++ "name".toList ++ ['}']) ++ "/c".toList) :=
  C14_variable_names_are_erased qtRef "/a/".toList "/c".toList "b".toList "name".toList
    (by decide) (by decide) (by decide) (by decide)


/-! ## Lemmas on split, join and the exact pattern -/

theorem split_ne_nil (sep : Char) (s : QString) : split sep s ≠ [] := by
  cases s with
  | nil => simp [split]
  | cons x xs =>
    by_cases hx : x = sep
    · simp [split, hx]
    · simp only [split, hx, if_false]
      split <;> simp

theorem split_append_sep (sep : Char) (a b : QString) :
    split sep (a ++ sep :: b) = split sep a ++ split sep b := by
  induction a with
  | nil => simp [split]
  | cons x xs ih =>
    by_cases hx : x = sep
    · simp [split, hx, ih]
    · cases hs : split sep xs with
      | nil => exact absurd hs (split_ne_nil sep xs)
      | cons w ws =>
        rw [hs] at ih
        show split sep (x :: (xs ++ sep :: b)) = split sep (x :: xs) ++ split sep b
        simp only [split, hx, if_false, ih, hs, List.cons_append]

theorem split_of_not_mem (sep : Char) (s : QString) (h : sep ∉ s) : split sep s = [s] := by
  induction s with
  | nil => simp [split]
  | cons x xs ih =>
    have hx : x ≠ sep := fun e => h (by rw [e]; exact List.mem_cons_self _ _)
    simp [split, hx, ih (fun hm => h (List.mem_cons_of_mem _ hm))]

/-- Joining the parts gives the string back. -/
theorem join_split (sep : Char) (s : QString) : join sep (split sep s) = s := by
  induction s with
  | nil => simp [split, join]
  | cons x xs ih =>
    by_cases hx : x = sep
    · cases hs : split sep xs with
      | nil => exact absurd hs (split_ne_nil sep xs)
      | cons w ws =>
        rw [hs] at ih
        simp [split, hx, hs, join, ih]
    · cases hs : split sep xs with
      | nil => exact absurd hs (split_ne_nil sep xs)
      | cons w ws =>
        rw [hs] at ih
        cases ws with
        | nil =>
          simp only [join] at ih
          simp [split, hx, hs, join, ih]
        | cons w2 ws2 =>
          simp only [join] at ih
          simp [split, hx, hs, join, ih]

theorem join_append_singleton_getLast (sep : Char) (pre : List QString) (last : QString)
    (hl : last ≠ []) : (join sep (pre ++ [last])).getLast? = last.getLast? := by
  induction pre with
  | nil => simp [join]
  | cons w ws ih =>
    cases hws : ws ++ [last] with
    | nil => simp at hws
    | cons u us =>
      rw [hws] at ih
      have hne : join sep (u :: us) ≠ [] := by
        intro hnil
        rw [hnil, List.getLast?_eq_getLast _ hl] at ih
        simp at ih
      obtain ⟨y, ys, hj⟩ := List.exists_cons_of_ne_nil hne
      rw [List.cons_append, hws]
      simp only [join]
      rw [List.getLast?_append_of_ne_nil _ (by simp), hj, List.getLast?_cons_cons, ← hj, ih]

/-- A template whose last level is `#` ends with `#`. -/
theorem endsWith_of_last_level (s : QString) (pre : List QString)
    (h : split '/' s = pre ++ [['#']]) : endsWith s '#' = true := by
  have hj := join_split '/' s
  rw [h] at hj
  have := join_append_singleton_getLast '/' pre ['#'] (by simp)
  rw [hj] at this
  simp [endsWith, this]

theorem pathVariableExact_some (dot : Char → Bool) (v name : QString)
    (h : pathVariableExact dot v = some name) :
    v = '{' :: (name ++ ['}']) ∧ name ≠ [] ∧ ∀ c ∈ name, dot c = true := by
  unfold pathVariableExact at h
  split at h
  next rest =>
    split at h
    next hc =>
      injection h with h
      obtain ⟨hlen, hlast, hall⟩ := hc
      have hne : rest ≠ [] := by
        intro e
        rw [e] at hlen
        simp at hlen
      have hgl : rest.getLast hne = '}' := by
        rw [List.getLast?_eq_getLast _ hne] at hlast
        injection hlast
      have hd := List.dropLast_append_getLast hne
      rw [hgl, h] at hd
      refine ⟨by rw [hd], ?_, ?_⟩
      · intro e
        rw [← h] at e
        have : rest.dropLast.length = rest.length - 1 := List.length_dropLast rest
        rw [e] at this
        simp at this
        omega
      · rw [← h]
        intro c hc
        exact List.all_eq_true.1 hall c hc
    next => cases h
  next => cases h

theorem pathVariableExact_of_no_open (dot : Char → Bool) (v : QString) (h : '{' ∉ v) :
    pathVariableExact dot v = none := by
  cases hv : pathVariableExact dot v with
  | none => rfl
  | some name =>
    obtain ⟨e, _, _⟩ := pathVariableExact_some dot v name hv
    rw [e] at h
    exact absurd (List.mem_cons_self _ _) h

theorem pathVariableExact_hash (dot : Char → Bool) : pathVariableExact dot ['#'] = none :=
  pathVariableExact_of_no_open dot ['#'] (by decide)

/-! ## Lemmas on QHash.insert -/

theorem QHash.mem_insert {κ ν : Type} [DecidableEq κ] (h : QHash κ ν) (k : κ) (v : ν)
    (it : κ × ν) (hit : it ∈ QHash.insert h k v) : it ∈ h ∨ it = (k, v) := by
  induction h with
  | nil =>
    simp only [QHash.insert, List.mem_singleton] at hit
    exact Or.inr hit
  | cons e rest ih =>
    obtain ⟨k2, v2⟩ := e
    by_cases hk : k2 = k
    · simp only [QHash.insert, hk, if_true, List.mem_cons] at hit
      rcases hit with hit | hit
      · exact Or.inr hit
      · exact Or.inl (List.mem_cons_of_mem _ hit)
    · simp only [QHash.insert, hk, if_false, List.mem_cons] at hit
      rcases hit with hit | hit
      · exact Or.inl (by rw [hit]; exact List.mem_cons_self _ _)
      · rcases ih hit with h2 | h2
        · exact Or.inl (List.mem_cons_of_mem _ h2)
        · exact Or.inr h2

theorem QHash.keys_insert {κ ν : Type} [DecidableEq κ] (h : QHash κ ν) (k : κ) (v : ν) :
    (QHash.insert h k v).map Prod.fst =
      if k ∈ h.map Prod.fst then h.map Prod.fst else h.map Prod.fst ++ [k] := by
  induction h with
  | nil => simp [QHash.insert]
  | cons e rest ih =>
    obtain ⟨k2, v2⟩ := e
    by_cases hk : k2 = k
    · simp [QHash.insert, hk]
    · have hk' : ¬ k = k2 := fun e => hk e.symm
      by_cases hm : k ∈ rest.map Prod.fst
      · simp only [QHash.insert, hk, if_false, List.map_cons, ih, hm, if_true, List.mem_cons,
          or_true]
      · simp only [QHash.insert, hk, if_false, List.map_cons, ih, hm, List.mem_cons, hk',
          or_self, List.cons_append]

theorem QHash.uniqueKeys_insert {κ ν : Type} [DecidableEq κ] (h : QHash κ ν) (k : κ) (v : ν)
    (hu : QHash.UniqueKeys h) : QHash.UniqueKeys (QHash.insert h k v) := by
  unfold QHash.UniqueKeys at hu ⊢
  rw [QHash.keys_insert]
  by_cases hm : k ∈ h.map Prod.fst
  · simp only [hm, if_true]
    exact hu
  · simp only [hm, if_false]
    rw [List.nodup_append]
    refine ⟨hu, by simp, ?_⟩
    intro a ha hb
    simp only [List.mem_singleton] at hb
    exact hm (by rw [← hb]; exact ha)


/-! ## Lemmas on the loop of Matches -/

theorem Matches.loop_nil (qt : Qt) (urlLevels : List QString) (i : Nat) (um : UrlMatch) :
    Matches.loop qt urlLevels i [] um = { um with matched := true } := by
  simp [Matches.loop]

theorem Matches.loop_variable (qt : Qt) (urlLevels : List QString) (i : Nat) (level : QString)
    (rest : List QString) (um : UrlMatch) (name : QString)
    (h : pathVariableExact qt.dot level = some name) :
    Matches.loop qt urlLevels i (level :: rest) um =
      Matches.loop qt urlLevels (i + 1) rest
        { um with
          pathVariables := QHash.insert um.pathVariables name (urlLevels.getD i [])
          level := um.level + 1 } := by
  simp [Matches.loop, h]

theorem Matches.loop_hash (qt : Qt) (urlLevels : List QString) (i : Nat)
    (rest : List QString) (um : UrlMatch) :
    Matches.loop qt urlLevels i (['#'] :: rest) um =
      Matches.loop qt urlLevels (i + 1) rest
        { um with
          multiLevel := '/' :: join '/' (urlLevels.drop i)
          level := (urlLevels.length : Int) - (i : Int) + 1 } := by
  simp [Matches.loop, pathVariableExact_hash]

theorem Matches.loop_equal (qt : Qt) (urlLevels : List QString) (i : Nat) (level : QString)
    (rest : List QString) (um : UrlMatch) (h1 : pathVariableExact qt.dot level = none)
    (h2 : level ≠ ['#']) (h3 : urlLevels.getD i [] = level) :
    Matches.loop qt urlLevels i (level :: rest) um =
      Matches.loop qt urlLevels (i + 1) rest um := by
  simp only [Matches.loop, h1]
  rw [if_neg h2, if_neg (not_not.2 h3)]

theorem Matches.loop_differ (qt : Qt) (urlLevels : List QString) (i : Nat) (level : QString)
    (rest : List QString) (um : UrlMatch) (h1 : pathVariableExact qt.dot level = none)
    (h2 : level ≠ ['#']) (h3 : urlLevels.getD i [] ≠ level) :
    Matches.loop qt urlLevels i (level :: rest) um = um := by
  simp only [Matches.loop, h1]
  rw [if_neg h2, if_pos h3]

/-- The loop ends with `match` set exactly when every level passes. -/
theorem Matches.loop_matched_iff (qt : Qt) (urlLevels : List QString) (l : List QString) :
    ∀ (i : Nat) (um : UrlMatch), um.matched = false →
      ((Matches.loop qt urlLevels i l um).matched = true ↔ AllPass qt urlLevels i l) := by
  induction l with
  | nil =>
    intro i um _
    simp [Matches.loop_nil, AllPass]
  | cons level rest ih =>
    intro i um hum
    have hcons : AllPass qt urlLevels i (level :: rest) ↔
        LevelPasses qt urlLevels i level ∧ AllPass qt urlLevels (i + 1) rest := Iff.rfl
    rw [hcons]
    cases hv : pathVariableExact qt.dot level with
    | some name =>
      rw [Matches.loop_variable qt urlLevels i level rest um name hv]
      have h := ih (i + 1)
        { um with
          pathVariables := QHash.insert um.pathVariables name (urlLevels.getD i [])
          level := um.level + 1 } hum
      rw [h]
      have hp : LevelPasses qt urlLevels i level := Or.inl (by rw [hv]; simp)
      exact ⟨fun hr => ⟨hp, hr⟩, fun hr => hr.2⟩
    | none =>
      by_cases hh : level = ['#']
      · subst hh
        rw [Matches.loop_hash]
        have h := ih (i + 1)
          { um with
            multiLevel := '/' :: join '/' (urlLevels.drop i)
            level := (urlLevels.length : Int) - (i : Int) + 1 } hum
        rw [h]
        have hp : LevelPasses qt urlLevels i ['#'] := Or.inr (Or.inl rfl)
        exact ⟨fun hr => ⟨hp, hr⟩, fun hr => hr.2⟩
      · by_cases he : urlLevels.getD i [] = level
        · rw [Matches.loop_equal qt urlLevels i level rest um hv hh he, ih _ _ hum]
          have hp : LevelPasses qt urlLevels i level := Or.inr (Or.inr he)
          exact ⟨fun hr => ⟨hp, hr⟩, fun hr => hr.2⟩
        · rw [Matches.loop_differ qt urlLevels i level rest um hv hh he, hum]
          constructor
          · intro h
            cases h
          · rintro ⟨hp, _⟩
            rcases hp with h | h | h
            · exact absurd hv h
            · exact absurd h hh
            · exact absurd h he

theorem AllPass.append_iff (qt : Qt) (urlLevels : List QString) (a b : List QString) :
    ∀ i, AllPass qt urlLevels i (a ++ b) ↔
      AllPass qt urlLevels i a ∧ AllPass qt urlLevels (i + a.length) b := by
  induction a with
  | nil =>
    intro i
    simp [AllPass]
  | cons x xs ih =>
    intro i
    have hcons1 : AllPass qt urlLevels i (x :: xs ++ b) ↔
        LevelPasses qt urlLevels i x ∧ AllPass qt urlLevels (i + 1) (xs ++ b) := Iff.rfl
    have hcons2 : AllPass qt urlLevels i (x :: xs) ↔
        LevelPasses qt urlLevels i x ∧ AllPass qt urlLevels (i + 1) xs := Iff.rfl
    have e : i + 1 + xs.length = i + (x :: xs).length := by
      simp
      omega
    rw [hcons1, hcons2, ih (i + 1), e, and_assoc]

/-- The levels pass exactly when each of them passes at its index. -/
theorem AllPass.iff_forall (qt : Qt) (urlLevels : List QString) (l : List QString) :
    ∀ i, AllPass qt urlLevels i l ↔
      ∀ k level, l[k]? = some level → LevelPasses qt urlLevels (i + k) level := by
  induction l with
  | nil =>
    intro i
    simp [AllPass]
  | cons x xs ih =>
    intro i
    simp only [AllPass, ih]
    constructor
    · rintro ⟨h0, hrest⟩ k level hk
      cases k with
      | zero =>
        simp only [List.getElem?_cons_zero, Option.some.injEq] at hk
        rw [← hk]
        exact h0
      | succ k =>
        simp only [List.getElem?_cons_succ] at hk
        have := hrest k level hk
        have e : i + 1 + k = i + (k + 1) := by omega
        rw [e] at this
        exact this
    · intro h
      refine ⟨h 0 x (by simp), ?_⟩
      intro k level hk
      have := h (k + 1) level (by simpa using hk)
      have e : i + 1 + k = i + (k + 1) := by omega
      rw [e]
      exact this

/-- Levels that all pass are walked through; the loop goes on behind them. -/
theorem Matches.loop_append (qt : Qt) (urlLevels : List QString) (a b : List QString) :
    ∀ (i : Nat) (um : UrlMatch), AllPass qt urlLevels i a →
      ∃ um2, Matches.loop qt urlLevels i (a ++ b) um =
          Matches.loop qt urlLevels (i + a.length) b um2 ∧
        um2.matched = um.matched := by
  induction a with
  | nil =>
    intro i um _
    exact ⟨um, by simp, rfl⟩
  | cons level rest ih =>
    intro i um hp
    obtain ⟨h0, hrest⟩ := hp
    have e : i + 1 + rest.length = i + (level :: rest).length := by
      simp
      omega
    cases hv : pathVariableExact qt.dot level with
    | some name =>
      obtain ⟨um2, h2, hm2⟩ := ih (i + 1)
        { um with
          pathVariables := QHash.insert um.pathVariables name (urlLevels.getD i [])
          level := um.level + 1 } hrest
      refine ⟨um2, ?_, hm2⟩
      rw [List.cons_append, Matches.loop_variable qt urlLevels i level _ um name hv, h2, e]
    | none =>
      by_cases hh : level = ['#']
      · subst hh
        obtain ⟨um2, h2, hm2⟩ := ih (i + 1)
          { um with
            multiLevel := '/' :: join '/' (urlLevels.drop i)
            level := (urlLevels.length : Int) - (i : Int) + 1 } hrest
        refine ⟨um2, ?_, hm2⟩
        rw [List.cons_append, Matches.loop_hash, h2, e]
      · have he : urlLevels.getD i [] = level := by
          rcases h0 with h | h | h
          · exact absurd hv h
          · exact absurd h hh
          · exact h
        obtain ⟨um2, h2, hm2⟩ := ih (i + 1) um hrest
        refine ⟨um2, ?_, hm2⟩
        rw [List.cons_append, Matches.loop_equal qt urlLevels i level _ um hv hh he, h2, e]

/-- Without a level `#`, a loop that runs to its end adds the number of path
variables to the level and leaves `multiLevel` alone. -/
theorem Matches.loop_level_of_no_hash (qt : Qt) (urlLevels : List QString) (l : List QString) :
    ∀ (i : Nat) (um : UrlMatch), (∀ s ∈ l, s ≠ ['#']) → AllPass qt urlLevels i l →
      (Matches.loop qt urlLevels i l um).level = um.level + ((variableNames qt l).length : Int) ∧
      (Matches.loop qt urlLevels i l um).multiLevel = um.multiLevel := by
  induction l with
  | nil =>
    intro i um _ _
    simp [Matches.loop_nil, variableNames]
  | cons level rest ih =>
    intro i um hno hp
    obtain ⟨h0, hrest⟩ := hp
    have hh : level ≠ ['#'] := hno level (List.mem_cons_self _ _)
    have hno2 : ∀ s ∈ rest, s ≠ ['#'] := fun s hs => hno s (List.mem_cons_of_mem _ hs)
    cases hv : pathVariableExact qt.dot level with
    | some name =>
      rw [Matches.loop_variable qt urlLevels i level rest um name hv]
      obtain ⟨h1, h2⟩ := ih (i + 1)
        { um with
          pathVariables := QHash.insert um.pathVariables name (urlLevels.getD i [])
          level := um.level + 1 } hno2 hrest
      rw [h1, h2]
      simp only [variableNames, List.filterMap_cons, hv, List.length_cons]
      constructor
      · push_cast
        omega
      · trivial
    | none =>
      have he : urlLevels.getD i [] = level := by
        rcases h0 with h | h | h
        · exact absurd hv h
        · exact absurd h hh
        · exact h
      rw [Matches.loop_equal qt urlLevels i level rest um hv hh he]
      obtain ⟨h1, h2⟩ := ih (i + 1) um hno2 hrest
      rw [h1, h2]
      simp [variableNames, List.filterMap_cons, hv]

/-- What the loop records: the map keeps distinct keys, and every item it
holds at the end was there before or maps the name of a path variable among
the levels to a url level. -/
theorem Matches.loop_pathVariables (qt : Qt) (urlLevels : List QString) (l : List QString) :
    ∀ (i : Nat) (um : UrlMatch), i + l.length ≤ urlLevels.length →
      QHash.UniqueKeys um.pathVariables →
      QHash.UniqueKeys (Matches.loop qt urlLevels i l um).pathVariables ∧
      ∀ it ∈ (Matches.loop qt urlLevels i l um).pathVariables,
        it ∈ um.pathVariables ∨ (it.1 ∈ variableNames qt l ∧ it.2 ∈ urlLevels) := by
  induction l with
  | nil =>
    intro i um _ hu
    simp only [Matches.loop_nil]
    exact ⟨hu, fun it hit => Or.inl hit⟩
  | cons level rest ih =>
    intro i um hlen hu
    have hlen2 : i + 1 + rest.length ≤ urlLevels.length := by
      simp at hlen
      omega
    cases hv : pathVariableExact qt.dot level with
    | some name =>
      rw [Matches.loop_variable qt urlLevels i level rest um name hv]
      obtain ⟨h1, h2⟩ := ih (i + 1)
        { um with
          pathVariables := QHash.insert um.pathVariables name (urlLevels.getD i [])
          level := um.level + 1 } hlen2 (QHash.uniqueKeys_insert _ _ _ hu)
      refine ⟨h1, ?_⟩
      intro it hit
      rcases h2 it hit with h | ⟨ha, hb⟩
      · rcases QHash.mem_insert _ _ _ it h with h3 | h3
        · exact Or.inl h3
        · right
          rw [h3]
          constructor
          · simp [variableNames, List.filterMap_cons, hv]
          · have hi : i < urlLevels.length := by
              simp at hlen
              omega
            simp only [List.getD_eq_getElem?_getD, List.getElem?_eq_getElem hi, Option.getD_some]
            exact List.getElem_mem _
      · right
        refine ⟨?_, hb⟩
        simp only [variableNames, List.filterMap_cons, hv, List.mem_cons]
        exact Or.inr ha
    | none =>
      have hnames : variableNames qt (level :: rest) = variableNames qt rest := by
        simp [variableNames, List.filterMap_cons, hv]
      rw [hnames]
      by_cases hh : level = ['#']
      · subst hh
        rw [Matches.loop_hash]
        exact ih (i + 1) _ hlen2 hu
      · by_cases he : urlLevels.getD i [] = level
        · rw [Matches.loop_equal qt urlLevels i level rest um hv hh he]
          exact ih (i + 1) um hlen2 hu
        · rw [Matches.loop_differ qt urlLevels i level rest um hv hh he]
          exact ⟨hu, fun it hit => Or.inl hit⟩

/-- A name that is no path variable among the levels keeps its value. -/
theorem Matches.loop_find_other (qt : Qt) (urlLevels : List QString) (l : List QString)
    (name : QString) :
    ∀ (i : Nat) (um : UrlMatch), name ∉ variableNames qt l →
      QHash.find (Matches.loop qt urlLevels i l um).pathVariables name =
        QHash.find um.pathVariables name := by
  induction l with
  | nil =>
    intro i um _
    simp [Matches.loop_nil]
  | cons level rest ih =>
    intro i um hn
    cases hv : pathVariableExact qt.dot level with
    | some name2 =>
      simp only [variableNames, List.filterMap_cons, hv, List.mem_cons, not_or] at hn
      rw [Matches.loop_variable qt urlLevels i level rest um name2 hv, ih _ _ hn.2]
      exact QHash.find_insert_ne _ _ _ _ hn.1
    | none =>
      simp only [variableNames, List.filterMap_cons, hv] at hn
      by_cases hh : level = ['#']
      · subst hh
        rw [Matches.loop_hash, ih _ _ hn]
      · by_cases he : urlLevels.getD i [] = level
        · rw [Matches.loop_equal qt urlLevels i level rest um hv hh he, ih _ _ hn]
        · rw [Matches.loop_differ qt urlLevels i level rest um hv hh he]

/-- With distinct names, a loop that runs to its end maps the name of each
path variable to the url level at the index of the variable. -/
theorem Matches.loop_find_variable (qt : Qt) (urlLevels : List QString) (l : List QString) :
    ∀ (i : Nat) (um : UrlMatch), (variableNames qt l).Nodup → AllPass qt urlLevels i l →
      ∀ k level name, l[k]? = some level → pathVariableExact qt.dot level = some name →
        QHash.find (Matches.loop qt urlLevels i l um).pathVariables name =
          some (urlLevels.getD (i + k) []) := by
  induction l with
  | nil =>
    intro i um _ _ k level name hk _
    simp at hk
  | cons x xs ih =>
    intro i um hnd hp k level name hk hname
    obtain ⟨h0, hrest⟩ := hp
    cases hv : pathVariableExact qt.dot x with
    | some name2 =>
      simp only [variableNames, List.filterMap_cons, hv, List.nodup_cons] at hnd
      rw [Matches.loop_variable qt urlLevels i x xs um name2 hv]
      cases k with
      | zero =>
        simp only [List.getElem?_cons_zero, Option.some.injEq] at hk
        rw [hk, hname] at hv
        injection hv with hv
        subst hv
        rw [Matches.loop_find_other qt urlLevels xs name (i + 1) _ hnd.1]
        exact QHash.find_insert_self _ _ _
      | succ k =>
        simp only [List.getElem?_cons_succ] at hk
        have := ih (i + 1)
          { um with
            pathVariables := QHash.insert um.pathVariables name2 (urlLevels.getD i [])
            level := um.level + 1 } hnd.2 hrest k level name hk hname
        have e : i + 1 + k = i + (k + 1) := by omega
        rw [e] at this
        exact this
    | none =>
      have hnd2 : (variableNames qt xs).Nodup := by
        simpa [variableNames, List.filterMap_cons, hv] using hnd
      cases k with
      | zero =>
        simp only [List.getElem?_cons_zero, Option.some.injEq] at hk
        rw [hk, hname] at hv
        cases hv
      | succ k =>
        simp only [List.getElem?_cons_succ] at hk
        have e : i + 1 + k = i + (k + 1) := by omega
        by_cases hh : x = ['#']
        · subst hh
          rw [Matches.loop_hash]
          have := ih (i + 1)
            { um with
              multiLevel := '/' :: join '/' (urlLevels.drop i)
              level := (urlLevels.length : Int) - (i : Int) + 1 } hnd2 hrest k level name hk hname
          rw [e] at this
          exact this
        · have he : urlLevels.getD i [] = x := by
            rcases h0 with h | h | h
            · exact absurd hv h
            · exact absurd h hh
            · exact h
          rw [Matches.loop_equal qt urlLevels i x xs um hv hh he]
          have := ih (i + 1) um hnd2 hrest k level name hk hname
          rw [e] at this
          exact this


/-! ## Lemmas on Matches -/

theorem Matches.of_fewer_levels (qt : Qt) (t p : QString)
    (h : (split '/' p).length < (endpointLevels qt t).length) :
    Matches qt t p = UrlMatch.initial t := by
  unfold endpointLevels at h
  simp only [Matches, h, if_true, UrlMatch.initial]

theorem Matches.of_more_levels (qt : Qt) (t p : QString)
    (h : (endpointLevels qt t).length < (split '/' p).length)
    (hend : endsWith (qt.urlPath t) '#' = false) :
    Matches qt t p = UrlMatch.initial t := by
  unfold endpointLevels at h
  have h1 : ¬ ((split '/' p).length < (split '/' (qt.urlPath t)).length) := by omega
  have h2 : (split '/' p).length > (split '/' (qt.urlPath t)).length ∧
      ¬ endsWith (qt.urlPath t) '#' = true := ⟨h, by simp [hend]⟩
  unfold Matches
  simp only
  rw [if_neg h1, if_pos h2]
  rfl

theorem Matches.eq_loop (qt : Qt) (t p : QString)
    (h1 : (endpointLevels qt t).length ≤ (split '/' p).length)
    (h2 : (endpointLevels qt t).length < (split '/' p).length →
      endsWith (qt.urlPath t) '#' = true) :
    Matches qt t p =
      Matches.loop qt (split '/' p) 0 (endpointLevels qt t) (UrlMatch.initial t) := by
  unfold endpointLevels at h1 h2 ⊢
  have h3 : ¬ ((split '/' p).length < (split '/' (qt.urlPath t)).length) := by omega
  have h4 : ¬ ((split '/' p).length > (split '/' (qt.urlPath t)).length ∧
      ¬ endsWith (qt.urlPath t) '#' = true) := by
    rintro ⟨ha, hb⟩
    exact hb (h2 ha)
  unfold Matches
  simp only
  rw [if_neg h3, if_neg h4]
  rfl

/-- `Matches` succeeds exactly when the url has at least as many levels as
the endpoint, more of them only for an endpoint that ends with `#`, and every
endpoint level passes. -/
theorem Matches.matched_iff (qt : Qt) (t p : QString) :
    (Matches qt t p).matched = true ↔
      (endpointLevels qt t).length ≤ (split '/' p).length ∧
      ((endpointLevels qt t).length < (split '/' p).length →
        endsWith (qt.urlPath t) '#' = true) ∧
      AllPass qt (split '/' p) 0 (endpointLevels qt t) := by
  by_cases h1 : (split '/' p).length < (endpointLevels qt t).length
  · rw [Matches.of_fewer_levels qt t p h1]
    simp only [UrlMatch.initial]
    constructor
    · intro h
      cases h
    · rintro ⟨h, _⟩
      omega
  · by_cases h2 : (endpointLevels qt t).length < (split '/' p).length ∧
        endsWith (qt.urlPath t) '#' = false
    · rw [Matches.of_more_levels qt t p h2.1 h2.2]
      simp only [UrlMatch.initial]
      constructor
      · intro h
        cases h
      · rintro ⟨_, h, _⟩
        have := h h2.1
        rw [h2.2] at this
        cases this
    · have h3 : (endpointLevels qt t).length < (split '/' p).length →
          endsWith (qt.urlPath t) '#' = true := by
        intro hlt
        cases he : endsWith (qt.urlPath t) '#' with
        | true => rfl
        | false => exact absurd ⟨hlt, he⟩ h2
      rw [Matches.eq_loop qt t p (by omega) h3,
        Matches.loop_matched_iff qt (split '/' p) (endpointLevels qt t) 0 (UrlMatch.initial t) rfl]
      constructor
      · intro h
        exact ⟨by omega, h3, h⟩
      · rintro ⟨_, _, h⟩
        exact h

theorem Matches.eq_loop_of_matched (qt : Qt) (t p : QString)
    (h : (Matches qt t p).matched = true) :
    Matches qt t p =
      Matches.loop qt (split '/' p) 0 (endpointLevels qt t) (UrlMatch.initial t) := by
  obtain ⟨h1, h2, _⟩ := (Matches.matched_iff qt t p).1 h
  exact Matches.eq_loop qt t p h1 h2

/-- For an endpoint whose last level is `#`, a successful match has the url
levels from the index of `#` on as `multiLevel`, and their number plus one as
level. -/
theorem Matches.of_last_hash (qt : Qt) (t p : QString) (pre : List QString)
    (hlast : endpointLevels qt t = pre ++ [['#']])
    (h : (Matches qt t p).matched = true) :
    (Matches qt t p).multiLevel = '/' :: join '/' ((split '/' p).drop pre.length) ∧
    (Matches qt t p).level = ((split '/' p).length : Int) - (pre.length : Int) + 1 := by
  obtain ⟨_, _, hall⟩ := (Matches.matched_iff qt t p).1 h
  rw [Matches.eq_loop_of_matched qt t p h, hlast]
  rw [hlast] at hall
  obtain ⟨hpre, _⟩ := (AllPass.append_iff qt (split '/' p) pre [['#']] 0).1 hall
  obtain ⟨um2, h2, _⟩ :=
    Matches.loop_append qt (split '/' p) pre [['#']] 0 (UrlMatch.initial t) hpre
  rw [h2, Matches.loop_hash, Matches.loop_nil]
  simp

theorem variableNames_of_no_variable (qt : Qt) (l : List QString)
    (h : ∀ s ∈ l, pathVariableExact qt.dot s = none) : variableNames qt l = [] := by
  induction l with
  | nil => rfl
  | cons x xs ih =>
    simp only [variableNames, List.filterMap_cons, h x (List.mem_cons_self _ _)]
    exact ih (fun s hs => h s (List.mem_cons_of_mem _ hs))

theorem variableNames_append (qt : Qt) (a b : List QString) :
    variableNames qt (a ++ b) = variableNames qt a ++ variableNames qt b := by
  simp [variableNames, List.filterMap_append]

theorem getD_eq_of_getElem? (l : List QString) (k : Nat) (x : QString)
    (h : l[k]? = some x) : l.getD k [] = x := by
  simp [List.getD_eq_getElem?_getD, h]

theorem getElem?_of_getD (l : List QString) (k : Nat) (hk : k < l.length) :
    l[k]? = some (l.getD k []) := by
  simp [List.getD_eq_getElem?_getD, List.getElem?_eq_getElem hk]


/-! ## The matcher (C15 to C20) -/

/-- C15, as stated, fails: `/a#` has no level that is `#`, yet it matches
`/a#/b`, a path with three levels against the two of the template, because
the template ends with `#`. -/
theorem C15_trailing_hash_counterexample :
    endpointLevels qtRef "/a#".toList = [[], "a#".toList] ∧
    ['#'] ∉ endpointLevels qtRef "/a#".toList ∧
    split '/' "/a#/b".toList = [[], "a#".toList, "b".toList] ∧
    (Matches qtRef "/a#".toList "/a#/b".toList).matched = true := by
  decide

/-- C15, amended: for every template that has no level `#` and does not end
with `#`, and every path, `Matches` succeeds iff both have the same number of
`/`-separated levels and every template level that is no path variable equals
the path level at the same index; on success the level is the number of
path variables, `multiLevel` is empty and, the names being distinct within
the template, each variable `{name}` at index `k` gives
`pathVariables[name]` = the `k`-th path level. The levels of the template
are those of its path form, as `Matches` splits them. `/users/{id}` against
`/users/42` gives the variables {id: 42} and an empty `multiLevel`. -/
theorem C15_path_variable_extraction (qt : Qt) (t p : QString)
    (hno : ['#'] ∉ endpointLevels qt t) (hend : endsWith (qt.urlPath t) '#' = false) :
    ((Matches qt t p).matched = true ↔
      (split '/' p).length = (endpointLevels qt t).length ∧
      ∀ (k : Nat) (level : QString), (endpointLevels qt t)[k]? = some level →
        pathVariableExact qt.dot level = none → (split '/' p)[k]? = some level) ∧
    ((Matches qt t p).matched = true →
      (Matches qt t p).level = ((variableNames qt (endpointLevels qt t)).length : Int) ∧
      (Matches qt t p).multiLevel = [] ∧
      ((variableNames qt (endpointLevels qt t)).Nodup →
        ∀ (k : Nat) (level name : QString), (endpointLevels qt t)[k]? = some level →
          pathVariableExact qt.dot level = some name →
          ∃ segment, (split '/' p)[k]? = some segment ∧
            QHash.find (Matches qt t p).pathVariables name = some segment)) ∧
    Matches qtRef "/users/{id}".toList "/users/42".toList =
      { matched := true, level := 1, endpoint := "/users/{id}".toList,
        pathVariables := [("id".toList, "42".toList)], multiLevel := [] } := by
  have hnohash : ∀ s ∈ endpointLevels qt t, s ≠ ['#'] := by
    intro s hs e
    exact hno (by rw [← e]; exact hs)
  have hlen : (Matches qt t p).matched = true →
      (split '/' p).length = (endpointLevels qt t).length := by
    intro hm
    obtain ⟨h1, h2, _⟩ := (Matches.matched_iff qt t p).1 hm
    by_contra hne
    have := h2 (by omega)
    rw [hend] at this
    cases this
  refine ⟨?_, ?_, by decide⟩
  · constructor
    · intro hm
      refine ⟨hlen hm, ?_⟩
      obtain ⟨_, _, hall⟩ := (Matches.matched_iff qt t p).1 hm
      intro k level hk hv
      have hp := (AllPass.iff_forall qt (split '/' p) (endpointLevels qt t) 0).1 hall k level hk
      have hkl : k < (split '/' p).length := by
        rw [hlen hm]
        by_contra hge
        rw [List.getElem?_eq_none (by omega)] at hk
        cases hk
      rcases hp with h | h | h
      · exact absurd hv h
      · exact absurd h (hnohash level (List.getElem?_mem hk))
      · rw [Nat.zero_add] at h
        rw [getElem?_of_getD _ k hkl, h]
    · rintro ⟨hl, hall⟩
      rw [Matches.matched_iff]
      refine ⟨by omega, fun h => by omega, ?_⟩
      rw [AllPass.iff_forall]
      intro k level hk
      cases hv : pathVariableExact qt.dot level with
      | some name => exact Or.inl (by rw [hv]; simp)
      | none =>
        right; right
        rw [Nat.zero_add]
        exact getD_eq_of_getElem? _ k level (hall k level hk hv)
  · intro hm
    obtain ⟨_, _, hall⟩ := (Matches.matched_iff qt t p).1 hm
    rw [Matches.eq_loop_of_matched qt t p hm]
    obtain ⟨h1, h2⟩ := Matches.loop_level_of_no_hash qt (split '/' p) (endpointLevels qt t) 0
      (UrlMatch.initial t) hnohash hall
    refine ⟨by rw [h1]; simp [UrlMatch.initial], by rw [h2]; rfl, ?_⟩
    intro hnd k level name hk hname
    have hkl : k < (split '/' p).length := by
      rw [hlen hm]
      by_contra hge
      rw [List.getElem?_eq_none (by omega)] at hk
      cases hk
    refine ⟨(split '/' p).getD k [], getElem?_of_getD _ k hkl, ?_⟩
    have := Matches.loop_find_variable qt (split '/' p) (endpointLevels qt t) 0
      (UrlMatch.initial t) hnd hall k level name hk hname
    rw [Nat.zero_add] at this
    exact this

/-- C15, amended, at the scenario: `/users/{id}` against `/users/42`. -/
theorem C15_path_variable_extraction_witness :
    (Matches qtRef "/users/{id}".toList "/users/42".toList).matched = true ↔
      (split '/' "/users/42".toList).length = (endpointLevels qtRef "/users/{id}".toList).length ∧
      ∀ (k : Nat) (level : QString), (endpointLevels qtRef "/users/{id}".toList)[k]? = some level →
        pathVariableExact qtRef.dot level = none →
        (split '/' "/users/42".toList)[k]? = some level :=
  (C15_path_variable_extraction qtRef "/users/{id}".toList "/users/42".toList
    (by decide) (by decide)).1

/-- A loop over levels that all pass goes on, over the levels that follow,
with what it has recorded. -/
theorem Matches.loop_append_eq (qt : Qt) (urlLevels : List QString) (a b : List QString) :
    ∀ (i : Nat) (um : UrlMatch), AllPass qt urlLevels i a →
      Matches.loop qt urlLevels i (a ++ b) um =
        Matches.loop qt urlLevels (i + a.length) b
          { Matches.loop qt urlLevels i a um with matched := um.matched } := by
  induction a with
  | nil =>
    intro i um _
    rw [Matches.loop_nil]
    rfl
  | cons level rest ih =>
    intro i um hp
    obtain ⟨h0, hrest⟩ := hp
    have e : i + 1 + rest.length = i + (level :: rest).length := by
      simp
      omega
    cases hv : pathVariableExact qt.dot level with
    | some name =>
      rw [List.cons_append, Matches.loop_variable qt urlLevels i level _ um name hv,
        Matches.loop_variable qt urlLevels i level _ um name hv, ih (i + 1) _ hrest, e]
    | none =>
      by_cases hh : level = ['#']
      · subst hh
        rw [List.cons_append, Matches.loop_hash, Matches.loop_hash, ih (i + 1) _ hrest, e]
      · have he : urlLevels.getD i [] = level := by
          rcases h0 with h | h | h
          · exact absurd hv h
          · exact absurd h hh
          · exact h
        rw [List.cons_append, Matches.loop_equal qt urlLevels i level _ um hv hh he,
          Matches.loop_equal qt urlLevels i level _ um hv hh he, ih (i + 1) _ hrest, e]

/-- When the levels before a level all pass and that level does not, the loop
of `Matches` returns what it has recorded over the levels before it. -/
theorem Matches.loop_stops (qt : Qt) (urlLevels : List QString) (pre : List QString)
    (level : QString) (post : List QString) (um : UrlMatch)
    (hpre : AllPass qt urlLevels 0 pre)
    (hstop : ¬ LevelPasses qt urlLevels pre.length level) :
    Matches.loop qt urlLevels 0 (pre ++ level :: post) um =
      { Matches.loop qt urlLevels 0 pre um with matched := um.matched } := by
  rw [Matches.loop_append_eq qt urlLevels pre (level :: post) 0 um hpre, Nat.zero_add]
  unfold LevelPasses at hstop
  have h1 : pathVariableExact qt.dot level = none := by
    by_contra hn
    exact hstop (Or.inl hn)
  have h2 : level ≠ ['#'] := fun h => hstop (Or.inr (Or.inl h))
  have h3 : urlLevels.getD pre.length [] ≠ level := fun h => hstop (Or.inr (Or.inr h))
  exact Matches.loop_differ qt urlLevels pre.length level post _ h1 h2 h3

/-- C16, as stated, fails: `/{a}/b` against `/x/c` ends with `match` false
and the variable `a` recorded. -/
theorem C16_failed_match_counterexample :
    Matches qtRef "/{a}/b".toList "/x/c".toList =
      { matched := false, level := 1, endpoint := "/{a}/b".toList,
        pathVariables := [("a".toList, "x".toList)], multiLevel := [] } := by
  decide

/-- C16, amended: for every template and path, whether `match` is true or
false, every variable recorded by `Matches` is the name of a path variable of
the template mapped to exactly one level of the path; with `match` false the
map is empty when the numbers of levels rule the match out, and otherwise,
when the loop stops at a level that is no path variable, not `#` and differs
from the path level at its index, the map holds exactly what was recorded over
the levels before it: no name that is not a variable among them, and, when
their variable names are pairwise distinct, for each variable among them the
path level at its index. -/
theorem C16_recorded_variables_are_path_levels (qt : Qt) (t p : QString) :
    QHash.UniqueKeys (Matches qt t p).pathVariables ∧
    (∀ it ∈ (Matches qt t p).pathVariables,
      it.1 ∈ variableNames qt (endpointLevels qt t) ∧ it.2 ∈ split '/' p) ∧
    ((split '/' p).length < (endpointLevels qt t).length →
      (Matches qt t p).matched = false ∧ (Matches qt t p).pathVariables = []) ∧
    ((endpointLevels qt t).length < (split '/' p).length →
      endsWith (qt.urlPath t) '#' = false →
      (Matches qt t p).matched = false ∧ (Matches qt t p).pathVariables = []) ∧
    (∀ (pre : List QString) (level : QString) (post : List QString),
      endpointLevels qt t = pre ++ level :: post →
      (endpointLevels qt t).length ≤ (split '/' p).length →
      ((endpointLevels qt t).length < (split '/' p).length →
        endsWith (qt.urlPath t) '#' = true) →
      AllPass qt (split '/' p) 0 pre →
      ¬ LevelPasses qt (split '/' p) pre.length level →
      (Matches qt t p).matched = false ∧
        (Matches qt t p).pathVariables =
          (Matches.loop qt (split '/' p) 0 pre (UrlMatch.initial t)).pathVariables ∧
        (∀ name : QString, name ∉ variableNames qt pre →
          QHash.find (Matches qt t p).pathVariables name = none) ∧
        ((variableNames qt pre).Nodup →
          ∀ (k : Nat) (variableLevel name : QString), pre[k]? = some variableLevel →
            pathVariableExact qt.dot variableLevel = some name →
            QHash.find (Matches qt t p).pathVariables name =
              some ((split '/' p).getD k []))) := by
  have hinit : QHash.UniqueKeys (UrlMatch.initial t).pathVariables := by
    simp [UrlMatch.initial, QHash.UniqueKeys]
  have hfew : (split '/' p).length < (endpointLevels qt t).length →
      (Matches qt t p).matched = false ∧ (Matches qt t p).pathVariables = [] := by
    intro h
    rw [Matches.of_fewer_levels qt t p h]
    exact ⟨rfl, rfl⟩
  have hmore : (endpointLevels qt t).length < (split '/' p).length →
      endsWith (qt.urlPath t) '#' = false →
      (Matches qt t p).matched = false ∧ (Matches qt t p).pathVariables = [] := by
    intro h he
    rw [Matches.of_more_levels qt t p h he]
    exact ⟨rfl, rfl⟩
  refine ⟨?_, ?_, hfew, hmore, ?_⟩
  · by_cases h1 : (split '/' p).length < (endpointLevels qt t).length
    · rw [(hfew h1).2]
      simp [QHash.UniqueKeys]
    · by_cases h2 : (endpointLevels qt t).length < (split '/' p).length ∧
          endsWith (qt.urlPath t) '#' = false
      · rw [(hmore h2.1 h2.2).2]
        simp [QHash.UniqueKeys]
      · have h3 : (endpointLevels qt t).length < (split '/' p).length →
            endsWith (qt.urlPath t) '#' = true := by
          intro hlt
          cases he : endsWith (qt.urlPath t) '#' with
          | true => rfl
          | false => exact absurd ⟨hlt, he⟩ h2
        rw [Matches.eq_loop qt t p (by omega) h3]
        exact (Matches.loop_pathVariables qt (split '/' p) (endpointLevels qt t) 0
          (UrlMatch.initial t) (by omega) hinit).1
  · intro it hit
    by_cases h1 : (split '/' p).length < (endpointLevels qt t).length
    · rw [(hfew h1).2] at hit
      cases hit
    · by_cases h2 : (endpointLevels qt t).length < (split '/' p).length ∧
          endsWith (qt.urlPath t) '#' = false
      · rw [(hmore h2.1 h2.2).2] at hit
        cases hit
      · have h3 : (endpointLevels qt t).length < (split '/' p).length →
            endsWith (qt.urlPath t) '#' = true := by
          intro hlt
          cases he : endsWith (qt.urlPath t) '#' with
          | true => rfl
          | false => exact absurd ⟨hlt, he⟩ h2
        rw [Matches.eq_loop qt t p (by omega) h3] at hit
        rcases (Matches.loop_pathVariables qt (split '/' p) (endpointLevels qt t) 0
          (UrlMatch.initial t) (by omega) hinit).2 it hit with h | h
        · simp [UrlMatch.initial] at h
        · exact h
  · intro pre level post hlevels hlen hend hpre hstop
    have hm : Matches qt t p =
        { Matches.loop qt (split '/' p) 0 pre (UrlMatch.initial t) with matched := false } := by
      rw [Matches.eq_loop qt t p hlen hend, hlevels,
        Matches.loop_stops qt (split '/' p) pre level post (UrlMatch.initial t) hpre hstop]
      rfl
    rw [hm]
    refine ⟨rfl, rfl, ?_, ?_⟩
    · intro name hname
      exact Matches.loop_find_other qt (split '/' p) pre name 0 (UrlMatch.initial t) hname
    · intro hnd k variableLevel name hk hv
      have h := Matches.loop_find_variable qt (split '/' p) pre 0 (UrlMatch.initial t) hnd hpre
        k variableLevel name hk hv
      rw [Nat.zero_add] at h
      exact h

/-- C16, amended, at the template `/{a}/b` and the path `/x/c`: the loop
stops at the level `b`, `match` is false and the map holds `a` with the path
level `x`, and no `b`. -/
theorem C16_recorded_variables_are_path_levels_witness :
    (Matches qtRef "/{a}/b".toList "/x/c".toList).matched = false ∧
    QHash.find (Matches qtRef "/{a}/b".toList "/x/c".toList).pathVariables "a".toList =
      some "x".toList ∧
    QHash.find (Matches qtRef "/{a}/b".toList "/x/c".toList).pathVariables "b".toList = none :=
  ⟨((C16_recorded_variables_are_path_levels qtRef "/{a}/b".toList "/x/c".toList).2.2.2.2
      [[], "{a}".toList] "b".toList [] (by decide) (by decide) (by decide) (by decide)
      (by decide)).1,
    ((C16_recorded_variables_are_path_levels qtRef "/{a}/b".toList "/x/c".toList).2.2.2.2
      [[], "{a}".toList] "b".toList [] (by decide) (by decide) (by decide) (by decide)
      (by decide)).2.2.2 (by decide) 1 "{a}".toList "a".toList (by decide) (by decide),
    ((C16_recorded_variables_are_path_levels qtRef "/{a}/b".toList "/x/c".toList).2.2.2.2
      [[], "{a}".toList] "b".toList [] (by decide) (by decide) (by decide) (by decide)
      (by decide)).2.2.1 "b".toList (by decide)⟩


/-- C17: for every template whose last level is `#`, at index `pre.length`,
and every path with at least `pre.length + 1` levels whose first levels match
those of the template (each template level before `#` is a path variable or
equals the path level at its index), `Matches` succeeds with `multiLevel` =
`/` followed by the path levels from that index on joined by `/`, and with
level = (number of path levels) - (index of `#`) + 1. A path with fewer levels
than the template never matches, so `#` never stands for zero levels.
`/files/#` against `/files/a/b/c` gives no variables and `multiLevel`
`/a/b/c`. The levels of the template are those of its path form. -/
theorem C17_wildcard_capture (qt : Qt) (t p : QString) (pre : List QString)
    (hlast : endpointLevels qt t = pre ++ [['#']])
    (hn : pre.length + 1 ≤ (split '/' p).length)
    (hpre : ∀ (k : Nat) (level : QString), pre[k]? = some level →
      pathVariableExact qt.dot level ≠ none ∨ (split '/' p)[k]? = some level) :
    (Matches qt t p).matched = true ∧
    (Matches qt t p).multiLevel = '/' :: join '/' ((split '/' p).drop pre.length) ∧
    (Matches qt t p).level = ((split '/' p).length : Int) - (pre.length : Int) + 1 ∧
    (∀ t2 p2 : QString, (split '/' p2).length < (endpointLevels qt t2).length →
      (Matches qt t2 p2).matched = false) ∧
    Matches qtRef "/files/#".toList "/files/a/b/c".toList =
      { matched := true, level := 4, endpoint := "/files/#".toList,
        pathVariables := [], multiLevel := "/a/b/c".toList } ∧
    (Matches qtRef "/files/#".toList "/files".toList).matched = false := by
  have hm : (Matches qt t p).matched = true := by
    rw [Matches.matched_iff, hlast]
    refine ⟨by simp; omega, ?_, ?_⟩
    · intro _
      unfold endpointLevels at hlast
      exact endsWith_of_last_level _ pre hlast
    · rw [AllPass.append_iff]
      constructor
      · rw [AllPass.iff_forall]
        intro k level hk
        rcases hpre k level hk with h | h
        · exact Or.inl h
        · right; right
          rw [Nat.zero_add]
          exact getD_eq_of_getElem? _ k level h
      · exact ⟨Or.inr (Or.inl rfl), trivial⟩
  obtain ⟨h1, h2⟩ := Matches.of_last_hash qt t p pre hlast hm
  refine ⟨hm, h1, h2, ?_, by decide, by decide⟩
  intro t2 p2 hlt
  rw [Matches.of_fewer_levels qt t2 p2 hlt]
  rfl

/-- C17 at the scenario: `/files/#` against `/files/a/b/c`. -/
theorem C17_wildcard_capture_witness :
    (Matches qtRef "/files/#".toList "/files/a/b/c".toList).matched = true ∧
    (Matches qtRef "/files/#".toList "/files/a/b/c".toList).multiLevel =
      '/' :: join '/' ((split '/' "/files/a/b/c".toList).drop [[], "files".toList].length) ∧
    (Matches qtRef "/files/#".toList "/files/a/b/c".toList).level =
      ((split '/' "/files/a/b/c".toList).length : Int) -
        ([[], "files".toList].length : Int) + 1 := by
  have h := C17_wildcard_capture qtRef "/files/#".toList "/files/a/b/c".toList
    [[], "files".toList] (by decide) (by decide)
    (by
      intro k level hk
      right
      rcases k with _ | _ | k
      · simp only [List.getElem?_cons_zero, Option.some.injEq] at hk
        rw [← hk]
        decide
      · simp only [List.getElem?_cons_succ, List.getElem?_cons_zero, Option.some.injEq] at hk
        rw [← hk]
        decide
      · simp at hk)
  exact ⟨h.1, h.2.1, h.2.2.1⟩

/-- C18: for every literal prefix `P` (no braces, no `#`), every variable
level `v` and every path matched both by the template `P/#` and by the
template `P/v`, the level of the `#` match is 2 and the level of the variable
match is 1, so the first is strictly greater (for `/a/#` and `/a/{x}` on
`/a/b`: 2 > 1). The two templates are given by their path forms. -/
theorem C18_wildcard_above_one_variable (qt : Qt) (t1 t2 P v p : QString)
    (hP : '{' ∉ P ∧ '}' ∉ P ∧ '#' ∉ P)
    (hv : pathVariableExact qt.dot v ≠ none) (hvs : '/' ∉ v)
    (h1 : qt.urlPath t1 = P ++ ['/', '#']) (h2 : qt.urlPath t2 = P ++ '/' :: v)
    (hm1 : (Matches qt t1 p).matched = true) (hm2 : (Matches qt t2 p).matched = true) :
    (Matches qt t1 p).level = 2 ∧ (Matches qt t2 p).level = 1 ∧
    (Matches qt t1 p).level > (Matches qt t2 p).level := by
  have hl1 : endpointLevels qt t1 = split '/' P ++ [['#']] := by
    unfold endpointLevels
    rw [h1, split_append_sep]
    rfl
  have hl2 : endpointLevels qt t2 = split '/' P ++ [v] := by
    unfold endpointLevels
    rw [h2, split_append_sep, split_of_not_mem '/' v hvs]
  obtain ⟨name, hname⟩ : ∃ name, pathVariableExact qt.dot v = some name := by
    cases hx : pathVariableExact qt.dot v with
    | none => exact absurd hx hv
    | some name => exact ⟨name, rfl⟩
  obtain ⟨hshape, _, _⟩ := pathVariableExact_some qt.dot v name hname
  have hend2 : endsWith (qt.urlPath t2) '#' = false := by
    rw [h2, hshape]
    have e : P ++ '/' :: '{' :: (name ++ ['}']) = (P ++ '/' :: '{' :: name) ++ ['}'] := by simp
    unfold endsWith
    rw [e, List.getLast?_concat]
    rfl
  have hlit : ∀ s ∈ split '/' P, pathVariableExact qt.dot s = none ∧ s ≠ ['#'] := by
    intro s hs
    constructor
    · apply pathVariableExact_of_no_open
      intro hin
      exact hP.1 (mem_of_mem_split '/' P s hs '{' hin)
    · intro e
      exact hP.2.2 (mem_of_mem_split '/' P s hs '#' (by rw [e]; simp))
  have hnohash2 : ∀ s ∈ endpointLevels qt t2, s ≠ ['#'] := by
    intro s hs
    rw [hl2] at hs
    rcases List.mem_append.1 hs with h | h
    · exact (hlit s h).2
    · simp only [List.mem_singleton] at h
      intro e
      rw [h] at e
      rw [e, pathVariableExact_hash] at hname
      cases hname
  obtain ⟨hle, hmore, hall2⟩ := (Matches.matched_iff qt t2 p).1 hm2
  have hlen : (split '/' p).length = (split '/' P).length + 1 := by
    have hnot : ¬ ((endpointLevels qt t2).length < (split '/' p).length) := by
      intro hlt
      have := hmore hlt
      rw [hend2] at this
      cases this
    rw [hl2] at hle hnot
    simp at hle hnot
    omega
  have hlevel2 : (Matches qt t2 p).level = 1 := by
    rw [Matches.eq_loop_of_matched qt t2 p hm2,
      (Matches.loop_level_of_no_hash qt (split '/' p) (endpointLevels qt t2) 0
        (UrlMatch.initial t2) hnohash2 hall2).1, hl2, variableNames_append,
      variableNames_of_no_variable qt (split '/' P) (fun s hs => (hlit s hs).1)]
    simp [variableNames, hname, UrlMatch.initial]
  have hlevel1 : (Matches qt t1 p).level = 2 := by
    rw [(Matches.of_last_hash qt t1 p (split '/' P) hl1 hm1).2, hlen]
    push_cast
    omega
  refine ⟨hlevel1, hlevel2, ?_⟩
  rw [hlevel1, hlevel2]
  decide

/-- C18 at the scenario: `/a/#` and `/a/{x}` on `/a/b`, levels 2 and 1. -/
theorem C18_wildcard_above_one_variable_witness :
    (Matches qtRef "/a/#".toList "/a/b".toList).level = 2 ∧
    (Matches qtRef "/a/{x}".toList "/a/b".toList).level = 1 ∧
    (Matches qtRef "/a/#".toList "/a/b".toList).level >
      (Matches qtRef "/a/{x}".toList "/a/b".toList).level :=
  C18_wildcard_above_one_variable qtRef "/a/#".toList "/a/{x}".toList "/a".toList
    "{x}".toList "/a/b".toList (by decide) (by decide) (by decide) (by decide) (by decide)
    (by decide) (by decide)

/-- C19: the code does not rank `#` above the variables when the common
prefix has a path variable. `/{a}/#` and `/{a}/{b}` are both accepted under
one method and both match `/x/y`, each with level 2; `/{a}/{b}/#` matches
`/x/y/z` with level 2, below the level 3 of `/{a}/{b}/{c}`. The `#` branch
assigns the level and so drops the variables counted before it. -/
theorem C19_prefix_variables_are_dropped :
    (AddEndpoint qtRef [] "/{a}/#".toList HttpMethod.GET).1 = Except.ok true ∧
    (AddEndpoint qtRef (AddEndpoint qtRef [] "/{a}/#".toList HttpMethod.GET).2
        "/{a}/{b}".toList HttpMethod.GET).1 = Except.ok true ∧
    (Matches qtRef "/{a}/#".toList "/x/y".toList).matched = true ∧
    (Matches qtRef "/{a}/{b}".toList "/x/y".toList).matched = true ∧
    (Matches qtRef "/{a}/#".toList "/x/y".toList).level = 2 ∧
    (Matches qtRef "/{a}/{b}".toList "/x/y".toList).level = 2 ∧
    (Matches qtRef "/{a}/{b}/#".toList "/x/y/z".toList).matched = true ∧
    (Matches qtRef "/{a}/{b}/{c}".toList "/x/y/z".toList).matched = true ∧
    (Matches qtRef "/{a}/{b}/#".toList "/x/y/z".toList).level = 2 ∧
    (Matches qtRef "/{a}/{b}/{c}".toList "/x/y/z".toList).level = 3 := by
  decide

/-- C20, as stated, fails: the accepted template `/a#` matches `/a#/b`, a
path with more levels, though its last level `a#` is not `#`; `multiLevel`
is then empty. -/
theorem C20_trailing_hash_counterexample :
    (AddEndpoint qtRef [] "/a#".toList HttpMethod.GET).1 = Except.ok true ∧
    (split '/' "/a#".toList).length < (split '/' "/a#/b".toList).length ∧
    (split '/' "/a#".toList).getLast? = some "a#".toList ∧
    Matches qtRef "/a#".toList "/a#/b".toList =
      { matched := true, level := 0, endpoint := "/a#".toList,
        pathVariables := [], multiLevel := [] } := by
  decide

/-- C20, amended: for every template and path, if `Matches` succeeds and the
path has more `/`-separated levels than the template, then the template (in
its path form) ends with `#`; and when its last level is exactly `#`,
`multiLevel` is the captured tail, `/` followed by the path levels from the
index of `#` on, of which there are at least two. -/
theorem C20_extra_levels_need_trailing_hash (qt : Qt) (t p : QString)
    (hm : (Matches qt t p).matched = true)
    (hmore : (endpointLevels qt t).length < (split '/' p).length) :
    endsWith (qt.urlPath t) '#' = true ∧
    ∀ pre : List QString, endpointLevels qt t = pre ++ [['#']] →
      (Matches qt t p).multiLevel = '/' :: join '/' ((split '/' p).drop pre.length) ∧
      (Matches qt t p).multiLevel ≠ [] ∧
      2 ≤ ((split '/' p).drop pre.length).length := by
  obtain ⟨_, hend, _⟩ := (Matches.matched_iff qt t p).1 hm
  refine ⟨hend hmore, ?_⟩
  intro pre hlast
  obtain ⟨h1, _⟩ := Matches.of_last_hash qt t p pre hlast hm
  refine ⟨h1, by rw [h1]; simp, ?_⟩
  rw [hlast] at hmore
  simp at hmore
  rw [List.length_drop]
  omega

/-- C20, amended, at a scenario: `/files/#` against `/files/a/b`. -/
theorem C20_extra_levels_need_trailing_hash_witness :
    endsWith (qtRef.urlPath "/files/#".toList) '#' = true ∧
    ∀ pre : List QString, endpointLevels qtRef "/files/#".toList = pre ++ [['#']] →
      (Matches qtRef "/files/#".toList "/files/a/b".toList).multiLevel =
        '/' :: join '/' ((split '/' "/files/a/b".toList).drop pre.length) ∧
      (Matches qtRef "/files/#".toList "/files/a/b".toList).multiLevel ≠ [] ∧
      2 ≤ ((split '/' "/files/a/b".toList).drop pre.length).length :=
  C20_extra_levels_need_trailing_hash qtRef "/files/#".toList "/files/a/b".toList
    (by decide) (by decide)

/-! ## Lemmas on the response built by ProcessRequest -/

theorem statusCodeAllowed_iff_listed (code : Int) :
    statusCodeAllowed code = true ↔ statusCodeListed code := by
  simp only [statusCodeAllowed, statusCodeListed, decide_eq_true_eq]
  omega

theorem ProcessRequest.setHeaders_reserved (response : WebccResponse)
    (headers : List (QString × QString))
    (h : ∃ header ∈ headers, header.1 ∈ reservedHeaders) :
    ProcessRequest.setHeaders response headers = WebccResponse.InternalServerError := by
  induction headers generalizing response with
  | nil => simp at h
  | cons e rest ih =>
    obtain ⟨header, value⟩ := e
    by_cases hr : header ∈ reservedHeaders
    · simp [ProcessRequest.setHeaders, hr]
    · have h2 : ∃ header ∈ rest, header.1 ∈ reservedHeaders := by
        obtain ⟨x, hx, hx2⟩ := h
        rcases List.mem_cons.mp hx with rfl | hx
        · exact absurd hx2 hr
        · exact ⟨x, hx, hx2⟩
      simp only [ProcessRequest.setHeaders, if_neg hr]
      exact ih _ h2

theorem ProcessRequest.setHeaders_clean (response : WebccResponse)
    (headers : List (QString × QString))
    (h : ∀ header ∈ headers, header.1 ∉ reservedHeaders) :
    ProcessRequest.setHeaders response headers =
      { response with
        headers :=
          response.headers ++ headers.map (fun h => (toUtf8Data h.1, toUtf8Data h.2)) } := by
  induction headers generalizing response with
  | nil => simp [ProcessRequest.setHeaders]
  | cons e rest ih =>
    obtain ⟨header, value⟩ := e
    have hr : header ∉ reservedHeaders := h (header, value) (List.mem_cons_self _ _)
    simp only [ProcessRequest.setHeaders, if_neg hr]
    rw [ih _ (fun x hx => h x (List.mem_cons_of_mem _ hx))]
    simp [WebccResponse.SetHeader]

theorem ProcessRequest.emit_refused (r : HttpResponse)
    (h : statusCodeAllowed r.statusCode = false) :
    ProcessRequest.emit r = WebccResponse.InternalServerError := by
  simp [ProcessRequest.emit, h]

theorem ProcessRequest.emit_reserved (r : HttpResponse)
    (h : ∃ header ∈ r.headers, header.1 ∈ reservedHeaders) :
    ProcessRequest.emit r = WebccResponse.InternalServerError := by
  unfold ProcessRequest.emit
  split
  · rfl
  · exact ProcessRequest.setHeaders_reserved _ _ h

theorem ProcessRequest.emit_accepted (r : HttpResponse)
    (h1 : statusCodeAllowed r.statusCode = true)
    (h2 : ∀ header ∈ r.headers, header.1 ∉ reservedHeaders) :
    ProcessRequest.emit r =
      { code := r.statusCode
        mediaType :=
          match QHash.find r.headers "Content-Type".toList with
          | some value => toUtf8Data value
          | none =>
            if r.body.length = 0 then "application/x-empty".toList
            else "application/octet-stream".toList
        body := r.body
        utf8 := true
        headers := r.headers.map (fun h => (toUtf8Data h.1, toUtf8Data h.2))
        viewOfTemporary := QHash.containsKey r.headers "Content-Type".toList } := by
  unfold ProcessRequest.emit
  rw [if_neg (by simp [h1])]
  simp only []
  rw [ProcessRequest.setHeaders_clean _ _ h2]
  simp

theorem ProcessRequest.emit_eq_error_iff (r : HttpResponse) :
    ProcessRequest.emit r = WebccResponse.InternalServerError ↔
      (statusCodeAllowed r.statusCode = false ∨
        ∃ header ∈ r.headers, header.1 ∈ reservedHeaders) := by
  constructor
  · intro h
    by_cases h1 : statusCodeAllowed r.statusCode = true
    · by_cases h2 : ∃ header ∈ r.headers, header.1 ∈ reservedHeaders
      · exact Or.inr h2
      · exfalso
        have h3 : ∀ header ∈ r.headers, header.1 ∉ reservedHeaders := by
          intro x hx hx2
          exact h2 ⟨x, hx, hx2⟩
        rw [ProcessRequest.emit_accepted r h1 h3] at h
        have h4 := congrArg WebccResponse.utf8 h
        simp [WebccResponse.InternalServerError, WebccResponse.Code] at h4
    · left
      simpa using h1
  · rintro (h | h)
    · exact ProcessRequest.emit_refused r h
    · exact ProcessRequest.emit_reserved r h

/-! ## C21: the status allow-list -/

/-- C21, the claim as worded fails: a callback that answers 500 with no header
returns a code inside the listed set and no reserved header, and the status
code of the response of `ProcessRequest` is 500. -/
theorem C21_listed_code_counterexample :
    statusCodeListed
        (ProcessRequest.call (answerStatus 500) "http://h:1".toList
          (UrlMatch.initial "/x".toList) (plainRequest kGet "/x".toList)).statusCode ∧
      (∀ header ∈
          (ProcessRequest.call (answerStatus 500) "http://h:1".toList
            (UrlMatch.initial "/x".toList) (plainRequest kGet "/x".toList)).headers,
        header.1 ∉ reservedHeaders) ∧
      (ProcessRequest (answerStatus 500) "http://h:1".toList
        (UrlMatch.initial "/x".toList) (plainRequest kGet "/x".toList)).code = 500 := by
  decide

/-- C21, amended: with `r` the response of the callback, `ProcessRequest`
returns the response `InternalServerError` exactly when the status code of `r`
is outside the listed set or `r` has a reserved header; the status code of its
response is 500 exactly in these cases and when the callback itself answered
500; for a code inside the set and no reserved header the status code is the
one of the callback; and the codes 100, 209, 306, 418 and 509 all give the
response `InternalServerError`. -/
theorem C21_status_allow_list (OnRequest : Callback) (serverName : QString) (um : UrlMatch)
    (requestData : WebccRequest) :
    (ProcessRequest OnRequest serverName um requestData = WebccResponse.InternalServerError ↔
      (¬ statusCodeListed (ProcessRequest.call OnRequest serverName um requestData).statusCode ∨
        ∃ header ∈ (ProcessRequest.call OnRequest serverName um requestData).headers,
          header.1 ∈ reservedHeaders)) ∧
    ((ProcessRequest OnRequest serverName um requestData).code = 500 ↔
      (¬ statusCodeListed (ProcessRequest.call OnRequest serverName um requestData).statusCode ∨
        (∃ header ∈ (ProcessRequest.call OnRequest serverName um requestData).headers,
          header.1 ∈ reservedHeaders) ∨
        (ProcessRequest.call OnRequest serverName um requestData).statusCode = 500)) ∧
    (statusCodeListed (ProcessRequest.call OnRequest serverName um requestData).statusCode →
      (∀ header ∈ (ProcessRequest.call OnRequest serverName um requestData).headers,
        header.1 ∉ reservedHeaders) →
      (ProcessRequest OnRequest serverName um requestData).code =
        (ProcessRequest.call OnRequest serverName um requestData).statusCode) ∧
    ((ProcessRequest.call OnRequest serverName um requestData).statusCode ∈
        [100, 209, 306, 418, 509] →
      ProcessRequest OnRequest serverName um requestData =
        WebccResponse.InternalServerError) := by
  generalize hr : ProcessRequest.call OnRequest serverName um requestData = r
  have hp : ProcessRequest OnRequest serverName um requestData = ProcessRequest.emit r := by
    rw [← hr]
    rfl
  rw [hp]
  have hl : ¬ statusCodeListed r.statusCode ↔ statusCodeAllowed r.statusCode = false := by
    rw [← statusCodeAllowed_iff_listed]
    simp
  have hacc : statusCodeListed r.statusCode →
      (∀ header ∈ r.headers, header.1 ∉ reservedHeaders) →
      (ProcessRequest.emit r).code = r.statusCode := by
    intro h1 h2
    rw [ProcessRequest.emit_accepted r ((statusCodeAllowed_iff_listed _).mpr h1) h2]
  refine ⟨?_, ?_, hacc, ?_⟩
  · rw [hl]
    exact ProcessRequest.emit_eq_error_iff r
  · constructor
    · intro h
      by_cases h1 : statusCodeListed r.statusCode
      · by_cases h2 : ∃ header ∈ r.headers, header.1 ∈ reservedHeaders
        · exact Or.inr (Or.inl h2)
        · right
          right
          have h3 : ∀ header ∈ r.headers, header.1 ∉ reservedHeaders := by
            intro x hx hx2
            exact h2 ⟨x, hx, hx2⟩
          rw [← hacc h1 h3]
          exact h
      · exact Or.inl h1
    · rintro (h | h | h)
      · rw [ProcessRequest.emit_refused r (hl.mp h)]
        rfl
      · rw [ProcessRequest.emit_reserved r h]
        rfl
      · by_cases h1 : statusCodeListed r.statusCode
        · by_cases h2 : ∃ header ∈ r.headers, header.1 ∈ reservedHeaders
          · rw [ProcessRequest.emit_reserved r h2]
            rfl
          · have h3 : ∀ header ∈ r.headers, header.1 ∉ reservedHeaders := by
              intro x hx hx2
              exact h2 ⟨x, hx, hx2⟩
            rw [hacc h1 h3]
            exact h
        · rw [ProcessRequest.emit_refused r (hl.mp h1)]
          rfl
  · intro h
    apply ProcessRequest.emit_refused
    simp only [List.mem_cons, List.mem_singleton, List.not_mem_nil, or_false] at h
    rcases h with h | h | h | h | h <;> rw [h] <;> decide

/-- C21, the amended claim at concrete callbacks: 404 with the header
`X-A` is passed on with its code, while 306 and 418 give the response
`InternalServerError`. -/
theorem C21_status_allow_list_witness :
    (ProcessRequest (answerWith
        { statusCode := 404, headers := [("X-A".toList, "1".toList)], body := [] })
        "http://h:1".toList (UrlMatch.initial "/x".toList)
        (plainRequest kGet "/x".toList)).code = 404 ∧
      ProcessRequest (answerStatus 306) "http://h:1".toList (UrlMatch.initial "/x".toList)
        (plainRequest kGet "/x".toList) = WebccResponse.InternalServerError ∧
      ProcessRequest (answerStatus 418) "http://h:1".toList (UrlMatch.initial "/x".toList)
        (plainRequest kGet "/x".toList) = WebccResponse.InternalServerError :=
  ⟨(C21_status_allow_list (answerWith
        { statusCode := 404, headers := [("X-A".toList, "1".toList)], body := [] })
      "http://h:1".toList (UrlMatch.initial "/x".toList)
      (plainRequest kGet "/x".toList)).2.2.1 (by decide) (by decide),
    (C21_status_allow_list (answerStatus 306) "http://h:1".toList
      (UrlMatch.initial "/x".toList) (plainRequest kGet "/x".toList)).2.2.2 (by decide),
    (C21_status_allow_list (answerStatus 418) "http://h:1".toList
      (UrlMatch.initial "/x".toList) (plainRequest kGet "/x".toList)).2.2.2 (by decide)⟩

/-! ## C22: reserved headers -/

/-- C23: the body returned for a `HEAD` request is not dropped. When the
callback answers a `HEAD` request with an allowed status code, no reserved
header and a non-empty body, `ProcessRequest` logs the warning `HeadWithBody`
and nothing else, and the response it builds carries the body of the
callback. -/
theorem C23_head_body_is_kept (OnRequest : Callback) (serverName : QString) (um : UrlMatch)
    (requestData : WebccRequest)
    (hhead : requestData.method = kHead)
    (hcode : statusCodeAllowed
      (ProcessRequest.call OnRequest serverName um requestData).statusCode = true)
    (hheaders : ∀ header ∈ (ProcessRequest.call OnRequest serverName um requestData).headers,
      header.1 ∉ reservedHeaders)
    (hbody : (ProcessRequest.call OnRequest serverName um requestData).body ≠ []) :
    ProcessRequest.logged OnRequest serverName um requestData =
        [((Warn EventId.HeadWithBody).Arg serverName).Arg um.endpoint] ∧
      (ProcessRequest OnRequest serverName um requestData).body =
        (ProcessRequest.call OnRequest serverName um requestData).body ∧
      (ProcessRequest OnRequest serverName um requestData).body ≠ [] := by
  have hb : (ProcessRequest OnRequest serverName um requestData).body =
      (ProcessRequest.call OnRequest serverName um requestData).body := by
    show (ProcessRequest.emit _).body = _
    rw [ProcessRequest.emit_accepted _ hcode hheaders]
  refine ⟨?_, hb, by rw [hb]; exact hbody⟩
  unfold ProcessRequest.logged
  simp only []
  rw [if_neg (by simp [hcode])]
  have hm : (MapMethod requestData.method &&& HttpMethod.HEAD) ≠ 0 := by
    rw [hhead]
    decide
  have hl : (ProcessRequest.call OnRequest serverName um requestData).body.length > 0 :=
    List.length_pos.mpr hbody
  rw [if_pos ⟨hm, hl⟩]
  have hf : (ProcessRequest.call OnRequest serverName um requestData).headers.find?
      (fun h => decide (h.1 ∈ reservedHeaders)) = none := by
    rw [List.find?_eq_none]
    intro x hx
    simpa using hheaders x hx
  rw [hf]
  rfl

/-- C23 at a concrete request: `HEAD /x` answered with 200 and the two bytes
`hi` gives a response with these two bytes as its body. -/
theorem C23_head_body_is_kept_witness :
    ProcessRequest.logged
        (answerWith { statusCode := 200, headers := [], body := [104, 105] })
        "http://h:1".toList (UrlMatch.initial "/x".toList) (plainRequest kHead "/x".toList) =
      [((Warn EventId.HeadWithBody).Arg "http://h:1".toList).Arg "/x".toList] ∧
    (ProcessRequest (answerWith { statusCode := 200, headers := [], body := [104, 105] })
        "http://h:1".toList (UrlMatch.initial "/x".toList)
        (plainRequest kHead "/x".toList)).body = [104, 105] :=
  ⟨(C23_head_body_is_kept
      (answerWith { statusCode := 200, headers := [], body := [104, 105] })
      "http://h:1".toList (UrlMatch.initial "/x".toList) (plainRequest kHead "/x".toList)
      rfl (by decide) (by decide) (by decide)).1,
    (C23_head_body_is_kept
      (answerWith { statusCode := 200, headers := [], body := [104, 105] })
      "http://h:1".toList (UrlMatch.initial "/x".toList) (plainRequest kHead "/x".toList)
      rfl (by decide) (by decide) (by decide)).2.1⟩

/-! ## C24: the default of Content-Type -/

/-- C24: when the response of the callback is accepted (allowed status code,
no reserved header) and has no header `Content-Type`, the media type of the
response of `ProcessRequest` is `application/x-empty` for an empty body and
`application/octet-stream` otherwise, each a string literal. When the header
is set, the media type is not its value: the view given to the builder was
made over the buffer of a temporary, holding the value up to its first
U+0000, and that temporary is destroyed before the builder reads the view. -/
theorem C24_content_type_view_of_temporary (OnRequest : Callback) (serverName : QString)
    (um : UrlMatch) (requestData : WebccRequest)
    (hcode : statusCodeAllowed
      (ProcessRequest.call OnRequest serverName um requestData).statusCode = true)
    (hheaders : ∀ header ∈ (ProcessRequest.call OnRequest serverName um requestData).headers,
      header.1 ∉ reservedHeaders) :
    (∀ value : QString,
      QHash.find (ProcessRequest.call OnRequest serverName um requestData).headers
        "Content-Type".toList = some value →
      (ProcessRequest OnRequest serverName um requestData).viewOfTemporary = true ∧
        (ProcessRequest OnRequest serverName um requestData).mediaType = toUtf8Data value) ∧
    (QHash.containsKey (ProcessRequest.call OnRequest serverName um requestData).headers
        "Content-Type".toList = false →
      (ProcessRequest.call OnRequest serverName um requestData).body = [] →
      (ProcessRequest OnRequest serverName um requestData).viewOfTemporary = false ∧
        (ProcessRequest OnRequest serverName um requestData).mediaType =
          "application/x-empty".toList) ∧
    (QHash.containsKey (ProcessRequest.call OnRequest serverName um requestData).headers
        "Content-Type".toList = false →
      (ProcessRequest.call OnRequest serverName um requestData).body ≠ [] →
      (ProcessRequest OnRequest serverName um requestData).viewOfTemporary = false ∧
        (ProcessRequest OnRequest serverName um requestData).mediaType =
          "application/octet-stream".toList) := by
  have hp : ProcessRequest OnRequest serverName um requestData =
      ProcessRequest.emit (ProcessRequest.call OnRequest serverName um requestData) := rfl
  rw [hp, ProcessRequest.emit_accepted _ hcode hheaders]
  generalize ProcessRequest.call OnRequest serverName um requestData = r
  refine ⟨?_, ?_, ?_⟩
  · intro value hv
    dsimp only
    unfold QHash.containsKey
    rw [hv]
    exact ⟨rfl, rfl⟩
  · intro hc hb
    have hn : QHash.find r.headers "Content-Type".toList = none := by
      simpa [QHash.containsKey] using hc
    dsimp only
    rw [hc, hn, hb]
    exact ⟨rfl, rfl⟩
  · intro hc hb
    have hn : QHash.find r.headers "Content-Type".toList = none := by
      simpa [QHash.containsKey] using hc
    have hl : r.body.length ≠ 0 := by
      simpa using hb
    dsimp only
    rw [hc, hn]
    exact ⟨rfl, if_neg hl⟩

/-- C24 at concrete callbacks: with `Content-Type: text/plain` the view is
over the destroyed temporary; without the header the two defaults. -/
theorem C24_content_type_view_of_temporary_witness :
    (ProcessRequest (answerWith
        { statusCode := 200, headers := [("Content-Type".toList, "text/plain".toList)],
          body := [] })
        "http://h:1".toList (UrlMatch.initial "/x".toList)
        (plainRequest kGet "/x".toList)).viewOfTemporary = true ∧
    (ProcessRequest (answerWith { statusCode := 204, headers := [], body := [] })
        "http://h:1".toList (UrlMatch.initial "/x".toList)
        (plainRequest kGet "/x".toList)).mediaType = "application/x-empty".toList ∧
    (ProcessRequest (answerWith { statusCode := 200, headers := [], body := [104, 105] })
        "http://h:1".toList (UrlMatch.initial "/x".toList)
        (plainRequest kGet "/x".toList)).mediaType = "application/octet-stream".toList :=
  ⟨((C24_content_type_view_of_temporary (answerWith
        { statusCode := 200, headers := [("Content-Type".toList, "text/plain".toList)],
          body := [] })
      "http://h:1".toList (UrlMatch.initial "/x".toList) (plainRequest kGet "/x".toList)
      (by decide) (by decide)).1 "text/plain".toList (by decide)).1,
    ((C24_content_type_view_of_temporary
      (answerWith { statusCode := 204, headers := [], body := [] })
      "http://h:1".toList (UrlMatch.initial "/x".toList) (plainRequest kGet "/x".toList)
      (by decide) (by decide)).2.1 (by decide) (by decide)).2,
    ((C24_content_type_view_of_temporary
      (answerWith { statusCode := 200, headers := [], body := [104, 105] })
      "http://h:1".toList (UrlMatch.initial "/x".toList) (plainRequest kGet "/x".toList)
      (by decide) (by decide)).2.2 (by decide) (by decide)).2⟩

/-! ## C25: the translation of the query -/

theorem QHash.find_foldl_insert_none {κ ν : Type} [DecidableEq κ] (l : List (κ × ν))
    (acc : QHash κ ν) (k : κ) (h : ∀ p ∈ l, p.1 ≠ k) :
    QHash.find (l.foldl (fun q p => QHash.insert q p.1 p.2) acc) k = QHash.find acc k := by
  induction l generalizing acc with
  | nil => rfl
  | cons e rest ih =>
    rw [List.foldl_cons, ih _ (fun p hp => h p (List.mem_cons_of_mem _ hp))]
    exact QHash.find_insert_ne acc e.1 k e.2 (fun hk => h e (List.mem_cons_self _ _) hk.symm)

theorem QHash.find_foldl_insert_last {κ ν : Type} [DecidableEq κ] (l before after : List (κ × ν))
    (acc : QHash κ ν) (k : κ) (v : ν) (hl : l = before ++ (k, v) :: after)
    (h : ∀ p ∈ after, p.1 ≠ k) :
    QHash.find (l.foldl (fun q p => QHash.insert q p.1 p.2) acc) k = some v := by
  rw [hl, List.foldl_append, List.foldl_cons, QHash.find_foldl_insert_none after _ k h]
  exact QHash.find_insert_self _ k v

theorem QHash.uniqueKeys_foldl_insert {κ ν : Type} [DecidableEq κ] (l : List (κ × ν))
    (acc : QHash κ ν) (h : QHash.UniqueKeys acc) :
    QHash.UniqueKeys (l.foldl (fun q p => QHash.insert q p.1 p.2) acc) := by
  induction l generalizing acc with
  | nil => exact h
  | cons e rest ih =>
    rw [List.foldl_cons]
    exact ih _ (QHash.uniqueKeys_insert acc e.1 e.2 h)

theorem exists_last_occurrence {κ ν : Type} [DecidableEq κ] (l : List (κ × ν)) (k : κ)
    (h : ∃ p ∈ l, p.1 = k) :
    ∃ (before : List (κ × ν)) (v : ν) (after : List (κ × ν)),
      l = before ++ (k, v) :: after ∧ ∀ p ∈ after, p.1 ≠ k := by
  induction l with
  | nil => simp at h
  | cons e rest ih =>
    by_cases hr : ∃ p ∈ rest, p.1 = k
    · obtain ⟨before, v, after, hl, ha⟩ := ih hr
      exact ⟨e :: before, v, after, by rw [hl]; rfl, ha⟩
    · obtain ⟨p, hp, hpk⟩ := h
      rcases List.mem_cons.mp hp with rfl | hp
      · refine ⟨[], p.2, rest, ?_, ?_⟩
        · rw [← hpk]
          rfl
        · intro q hq hqk
          exact hr ⟨q, hq, hqk⟩
      · exact absurd ⟨p, hp, hpk⟩ hr

/-- C25, the claim as worded fails: for the request `GET /x?a=1&a=2` the query
map given to the callback maps `a` to `2`, the value of its last occurrence,
not to `1`. -/
theorem C25_first_wins_counterexample :
    (ProcessRequest.call echoQuery "http://h:1".toList (UrlMatch.initial "/x".toList)
        (queryRequest kGet "/x".toList "a=1&a=2".toList
          [("a".toList, "1".toList), ("a".toList, "2".toList)])).headers =
      [("a".toList, "2".toList)] ∧
    QHash.find
        (ProcessRequest.query
          (queryRequest kGet "/x".toList "a=1&a=2".toList
            [("a".toList, "1".toList), ("a".toList, "2".toList)]))
        "a".toList ≠ some "1".toList := by
  decide

/-- C25, amended: the callback is called with a `PathInfo` whose query map is
built from the parameters of the request in order; its keys are pairwise
distinct and are exactly the keys of the list, and each key is mapped to the
value of its last occurrence in the list, which is its only occurrence when no
key occurs twice. -/
theorem C25_query_translation_last_wins (serverName : QString) (um : UrlMatch)
    (requestData : WebccRequest) :
    (∃ (endpoint url : QString) (path : PathInfo) (request : HttpRequest),
      (∀ OnRequest : Callback,
        ProcessRequest.call OnRequest serverName um requestData =
          OnRequest endpoint url path request) ∧
      path.query = ProcessRequest.query requestData) ∧
    QHash.UniqueKeys (ProcessRequest.query requestData) ∧
    (∀ key : QString,
      QHash.containsKey (ProcessRequest.query requestData) key = true ↔
        ∃ value, (key, value) ∈ requestData.query) ∧
    (∀ (before after : List (QString × QString)) (key value : QString),
      requestData.query = before ++ (key, value) :: after →
      (∀ parameter ∈ after, parameter.1 ≠ key) →
      QHash.find (ProcessRequest.query requestData) key = some value) ∧
    ((requestData.query.map Prod.fst).Nodup →
      ∀ (key value : QString), (key, value) ∈ requestData.query →
        QHash.find (ProcessRequest.query requestData) key = some value) := by
  refine ⟨⟨_, _, _, _, fun OnRequest => rfl, rfl⟩, ?_, ?_, ?_, ?_⟩
  · exact QHash.uniqueKeys_foldl_insert _ _ (by simp [QHash.UniqueKeys])
  · intro key
    constructor
    · intro hc
      by_contra hne
      have hn : ∀ p ∈ requestData.query, p.1 ≠ key := by
        intro p hp hpk
        exact hne ⟨p.2, by rw [← hpk]; exact hp⟩
      have hf := QHash.find_foldl_insert_none requestData.query [] key hn
      simp [QHash.containsKey, ProcessRequest.query, hf, QHash.find] at hc
    · rintro ⟨value, hv⟩
      obtain ⟨before, v, after, hl, ha⟩ :=
        exists_last_occurrence requestData.query key ⟨(key, value), hv, rfl⟩
      have hf := QHash.find_foldl_insert_last requestData.query before after [] key v hl ha
      simp [QHash.containsKey, ProcessRequest.query, hf]
  · intro before after key value hl ha
    exact QHash.find_foldl_insert_last requestData.query before after [] key value hl ha
  · intro hnd key value hm
    obtain ⟨before, after, hl⟩ := List.append_of_mem hm
    refine QHash.find_foldl_insert_last _ before after [] key value hl ?_
    intro p hp hpk
    rw [hl, List.map_append, List.map_cons, List.nodup_append] at hnd
    have hk := (List.nodup_cons.mp hnd.2.1).1
    exact hk (List.mem_map.mpr ⟨p, hp, hpk⟩)

/-- C25, the amended claim at the request `GET /x?a=1&b=3&a=2`: `a` is mapped
to `2`. -/
theorem C25_query_translation_last_wins_witness :
    QHash.find
        (ProcessRequest.query
          (queryRequest kGet "/x".toList "a=1&b=3&a=2".toList
            [("a".toList, "1".toList), ("b".toList, "3".toList), ("a".toList, "2".toList)]))
        "a".toList = some "2".toList :=
  (C25_query_translation_last_wins "http://h:1".toList (UrlMatch.initial "/x".toList)
    (queryRequest kGet "/x".toList "a=1&b=3&a=2".toList
      [("a".toList, "1".toList), ("b".toList, "3".toList), ("a".toList, "2".toList)])).2.2.2.1
    [("a".toList, "1".toList), ("b".toList, "3".toList)] [] "a".toList "2".toList rfl
    (by simp)

/-! ## Lemmas on the server -/

theorem HttpServer.start_of_started {σ : Type} (impl : HttpServerImpl σ) (s : HttpServer σ)
    (h : s.started = true) : HttpServer.Start impl s = (Except.ok false, s) := by
  simp [HttpServer.Start, h]

theorem HttpServer.stop_of_not_started {σ : Type} (impl : HttpServerImpl σ) (s : HttpServer σ)
    (h : s.started = false) : HttpServer.Stop impl s = (Except.ok false, s) := by
  simp [HttpServer.Stop, h]

theorem HttpServer.running_start {σ : Type} (impl : HttpServerImpl σ) (s : HttpServer σ) :
    HttpServer.Running (HttpServer.Start impl s).2 =
      if (HttpServer.Start impl s).1 = Except.ok true then true else HttpServer.Running s := by
  unfold HttpServer.Start HttpServer.Running
  by_cases h : s.started = true
  · simp [h]
  · rw [if_neg h]
    rcases hr : impl.StartImpl s.derived with ⟨r, d⟩
    cases r with
    | error e => simp
    | ok b => cases b <;> simp [h]

theorem HttpServer.running_stop {σ : Type} (impl : HttpServerImpl σ) (s : HttpServer σ) :
    HttpServer.Running (HttpServer.Stop impl s).2 =
      if (HttpServer.Stop impl s).1 = Except.ok true then false else HttpServer.Running s := by
  unfold HttpServer.Stop HttpServer.Running
  by_cases h : s.started = true
  · rw [if_neg (by simp [h])]
    rcases hr : impl.StopImpl s.derived with ⟨r, d⟩
    cases r with
    | error e => simp
    | ok b => cases b <;> simp [h]
  · simp [h]

theorem HttpServer.running_perform {σ : Type} (impl : HttpServerImpl σ) (c : HttpServer.Call)
    (s : HttpServer σ) :
    HttpServer.Running (HttpServer.perform impl c s).2 =
      if c = HttpServer.Call.Start ∧ (HttpServer.perform impl c s).1 = Except.ok true then true
      else if c = HttpServer.Call.Stop ∧ (HttpServer.perform impl c s).1 = Except.ok true
        then false
      else HttpServer.Running s := by
  cases c with
  | Start => simpa [HttpServer.perform] using HttpServer.running_start impl s
  | Stop => simpa [HttpServer.perform] using HttpServer.running_stop impl s
  | Address a => simp [HttpServer.perform, HttpServer.forward, HttpServer.Running]
  | Port p => simp [HttpServer.perform, HttpServer.forward, HttpServer.Running]
  | AddEndpoint e m => simp [HttpServer.perform, HttpServer.forward, HttpServer.Running]
  | RemoveEndpoint e m => simp [HttpServer.perform, HttpServer.forward, HttpServer.Running]
  | SetCertificate d e =>
    by_cases h : s.started = true <;>
      simp [HttpServer.perform, HttpServer.SetCertificate, HttpServer.forward,
        HttpServer.Running, h]
  | SetPrivateKey d e a p =>
    by_cases h : s.started = true <;>
      simp [HttpServer.perform, HttpServer.SetPrivateKey, HttpServer.forward,
        HttpServer.Running, h]

theorem HttpServer.running_performAll {σ : Type} (impl : HttpServerImpl σ)
    (calls : List HttpServer.Call) (s : HttpServer σ) :
    HttpServer.Running (HttpServer.performAll impl calls s) =
      HttpServer.runningByCalls impl calls s (HttpServer.Running s) := by
  induction calls generalizing s with
  | nil => rfl
  | cons c rest ih =>
    simp only [HttpServer.performAll, HttpServer.runningByCalls]
    rw [ih, HttpServer.running_perform]

theorem HttpServer.not_running_without_start {σ : Type} (impl : HttpServerImpl σ)
    (calls : List HttpServer.Call) (s : HttpServer σ)
    (hs : HttpServer.Running s = false) (hc : HttpServer.Call.Start ∉ calls) :
    HttpServer.Running (HttpServer.performAll impl calls s) = false := by
  induction calls generalizing s with
  | nil => exact hs
  | cons c rest ih =>
    simp only [HttpServer.performAll]
    apply ih
    · rw [HttpServer.running_perform]
      have hne : c ≠ HttpServer.Call.Start := fun h => hc (by simp [h])
      simp [hne, hs]
    · exact fun h => hc (List.mem_cons_of_mem _ h)

theorem StartPrivate_of_consistent (tr : Transport) (d : HttpServerWebcc) (port : Int)
    (hb : tr.bindPort d.port = Except.ok port) (hr : tr.route = true)
    (hk : d.certificate.isSome = d.privateKey.isSome) :
    (StartPrivate tr d).1 = Except.ok true := by
  unfold StartPrivate GetFreePort
  rw [hb]
  rcases hc : d.certificate with _ | c <;> rcases hp : d.privateKey with _ | k <;>
    simp [hc, hp] at hk <;> simp [StartRouted, hr]

theorem webcc_stop (qt : Qt) (tr : Transport) (s : HttpServer HttpServerWebcc) :
    HttpServer.Stop (webccImpl qt tr) s =
      if s.started then
        (Except.ok true, { started := false, derived := { s.derived with server := none } })
      else (Except.ok false, s) := by
  unfold HttpServer.Stop
  by_cases h : s.started = true
  · simp [h, webccImpl, StopPrivate]
  · simp [h]

theorem HttpServer.start_result {σ : Type} (impl : HttpServerImpl σ) (s : HttpServer σ)
    (h : s.started = false) :
    (HttpServer.Start impl s).1 = (impl.StartImpl s.derived).1 := by
  unfold HttpServer.Start
  rw [if_neg (by simp [h])]
  rcases impl.StartImpl s.derived with ⟨r, d⟩
  cases r <;> rfl

/-! ## C26: calls rejected while the server runs -/

/-- C26: while `Running()` is true, `Start()`, `SetCertificate()` and
`SetPrivateKey()` return false without raising and leave the whole object as
it was, in particular the flag `started`, the certificate and the private key.
The result is the same for every implementation of the hooks, so none of them
is called. -/
theorem C26_rejected_while_running (impl : HttpServerImpl HttpServerWebcc)
    (s : HttpServer HttpServerWebcc) (hrun : HttpServer.Running s = true) :
    HttpServer.Start impl s = (Except.ok false, s) ∧
    (∀ (certificateData : QByteArray) (encoding : SslEncoding),
      HttpServer.SetCertificate impl certificateData encoding s = (Except.ok false, s)) ∧
    (∀ (keyData : QByteArray) (encoding : SslEncoding) (algorithm : SslKeyAlgorithm)
        (passphrase : QString),
      HttpServer.SetPrivateKey impl keyData encoding algorithm passphrase s =
        (Except.ok false, s)) ∧
    (∀ c : HttpServer.Call,
      (c = HttpServer.Call.Start ∨ (∃ d e, c = HttpServer.Call.SetCertificate d e) ∨
        (∃ d e a p, c = HttpServer.Call.SetPrivateKey d e a p)) →
      (HttpServer.perform impl c s).1 = Except.ok false ∧
        HttpServer.Running (HttpServer.perform impl c s).2 = true ∧
        (HttpServer.perform impl c s).2.derived.certificate = s.derived.certificate ∧
        (HttpServer.perform impl c s).2.derived.privateKey = s.derived.privateKey) := by
  have hs : s.started = true := hrun
  have h1 : HttpServer.Start impl s = (Except.ok false, s) :=
    HttpServer.start_of_started impl s hs
  have h2 : ∀ (certificateData : QByteArray) (encoding : SslEncoding),
      HttpServer.SetCertificate impl certificateData encoding s = (Except.ok false, s) := by
    intro d e
    simp [HttpServer.SetCertificate, hs]
  have h3 : ∀ (keyData : QByteArray) (encoding : SslEncoding) (algorithm : SslKeyAlgorithm)
      (passphrase : QString),
      HttpServer.SetPrivateKey impl keyData encoding algorithm passphrase s =
        (Except.ok false, s) := by
    intro d e a p
    simp [HttpServer.SetPrivateKey, hs]
  refine ⟨h1, h2, h3, ?_⟩
  rintro c (rfl | ⟨d, e, rfl⟩ | ⟨d, e, a, p, rfl⟩)
  · exact ⟨by simp [HttpServer.perform, h1], by simp [HttpServer.perform, h1, hrun],
      by simp [HttpServer.perform, h1], by simp [HttpServer.perform, h1]⟩
  · exact ⟨by simp [HttpServer.perform, h2], by simp [HttpServer.perform, h2, hrun],
      by simp [HttpServer.perform, h2], by simp [HttpServer.perform, h2]⟩
  · exact ⟨by simp [HttpServer.perform, h3], by simp [HttpServer.perform, h3, hrun],
      by simp [HttpServer.perform, h3], by simp [HttpServer.perform, h3]⟩

/-- C26 on a server started on port 8080: `SetCertificate` and `Start` are
rejected and nothing changes. -/
theorem C26_rejected_while_running_witness :
    HttpServer.Running
        (HttpServer.Start (webccImpl qtRef trRef) (newServer 8080 none none)).2 = true ∧
    HttpServer.SetCertificate (webccImpl qtRef trRef) [1] SslEncoding.PEM
        (HttpServer.Start (webccImpl qtRef trRef) (newServer 8080 none none)).2 =
      (Except.ok false,
        (HttpServer.Start (webccImpl qtRef trRef) (newServer 8080 none none)).2) ∧
    HttpServer.Start (webccImpl qtRef trRef)
        (HttpServer.Start (webccImpl qtRef trRef) (newServer 8080 none none)).2 =
      (Except.ok false,
        (HttpServer.Start (webccImpl qtRef trRef) (newServer 8080 none none)).2) :=
  ⟨by decide,
    (C26_rejected_while_running (webccImpl qtRef trRef)
      (HttpServer.Start (webccImpl qtRef trRef) (newServer 8080 none none)).2
      (by decide)).2.1 [1] SslEncoding.PEM,
    (C26_rejected_while_running (webccImpl qtRef trRef)
      (HttpServer.Start (webccImpl qtRef trRef) (newServer 8080 none none)).2
      (by decide)).1⟩

/-! ## C27: Stop and Running -/

/-- C27: `Stop()` never raises and returns true exactly when `Running()` was
true before the call; after a `Stop()` that returned true `Running()` is
false; `Stop()` on a server that is not running returns false and leaves the
object as it was; and after every sequence of calls `Running()` is true
exactly when a `Start()` has returned true and no `Stop()` has returned true
since. -/
theorem C27_stop_semantics (qt : Qt) (tr : Transport) (s : HttpServer HttpServerWebcc) :
    (HttpServer.Stop (webccImpl qt tr) s).1 = Except.ok (HttpServer.Running s) ∧
    ((HttpServer.Stop (webccImpl qt tr) s).1 = Except.ok true ↔
      HttpServer.Running s = true) ∧
    ((HttpServer.Stop (webccImpl qt tr) s).1 = Except.ok true →
      HttpServer.Running (HttpServer.Stop (webccImpl qt tr) s).2 = false) ∧
    (HttpServer.Running s = false →
      HttpServer.Stop (webccImpl qt tr) s = (Except.ok false, s)) ∧
    (∀ calls : List HttpServer.Call,
      HttpServer.Running (HttpServer.performAll (webccImpl qt tr) calls s) =
        HttpServer.runningByCalls (webccImpl qt tr) calls s (HttpServer.Running s)) := by
  have h := webcc_stop qt tr s
  refine ⟨?_, ?_, ?_, ?_, ?_⟩
  · rw [h]
    unfold HttpServer.Running
    cases s.started <;> simp
  · rw [h]
    unfold HttpServer.Running
    cases s.started <;> simp
  · rw [h]
    unfold HttpServer.Running
    cases hs : s.started <;> simp
  · intro hr
    exact HttpServer.stop_of_not_started _ s hr
  · intro calls
    exact HttpServer.running_performAll _ calls s

/-- C27 on a server started on port 8080: `Stop()` returns true and the server
no longer runs, a second `Stop()` returns false, and a `Stop()` before any
`Start()` changes nothing. -/
theorem C27_stop_semantics_witness :
    (HttpServer.Stop (webccImpl qtRef trRef)
        (HttpServer.Start (webccImpl qtRef trRef) (newServer 8080 none none)).2).1 =
      Except.ok true ∧
    HttpServer.Running
        (HttpServer.Stop (webccImpl qtRef trRef)
          (HttpServer.Start (webccImpl qtRef trRef) (newServer 8080 none none)).2).2 =
      false ∧
    HttpServer.Stop (webccImpl qtRef trRef) (newServer 8080 none none) =
      (Except.ok false, newServer 8080 none none) :=
  ⟨(C27_stop_semantics qtRef trRef
      (HttpServer.Start (webccImpl qtRef trRef) (newServer 8080 none none)).2).2.1.mpr
      (by decide),
    (C27_stop_semantics qtRef trRef
      (HttpServer.Start (webccImpl qtRef trRef) (newServer 8080 none none)).2).2.2.1
      (by decide),
    (C27_stop_semantics qtRef trRef (newServer 8080 none none)).2.2.2.1 (by decide)⟩

/-! ## C28: starting again after Stop -/

/-- C28, the claim as worded fails: on a server with port 8080 and neither
certificate nor key, `Start()` returns true, the following `Stop()` returns
true, and the `Start()` after that returns true again, after which the server
is running. -/
theorem C28_restart_counterexample :
    (HttpServer.Start (webccImpl qtRef trRef) (newServer 8080 none none)).1 = Except.ok true ∧
    (HttpServer.Stop (webccImpl qtRef trRef)
        (HttpServer.Start (webccImpl qtRef trRef) (newServer 8080 none none)).2).1 =
      Except.ok true ∧
    (HttpServer.Start (webccImpl qtRef trRef)
        (HttpServer.Stop (webccImpl qtRef trRef)
          (HttpServer.Start (webccImpl qtRef trRef) (newServer 8080 none none)).2).2).1 =
      Except.ok true ∧
    HttpServer.Running
        (HttpServer.performAll (webccImpl qtRef trRef)
          [HttpServer.Call.Start, HttpServer.Call.Stop, HttpServer.Call.Start]
          (newServer 8080 none none)) = true := by
  decide

/-- C28, amended: after a `Stop()` that returned true (which needs a server
that was running) the server is not running and stays so under every sequence
of calls without `Start()`; a `Start()` issued right after that `Stop()`
returns true and makes the server run again whenever the port can be bound,
routing succeeds and certificate and private key are both set or both
unset. -/
theorem C28_stopped_until_next_start (qt : Qt) (tr : Transport)
    (s : HttpServer HttpServerWebcc)
    (hstop : (HttpServer.Stop (webccImpl qt tr) s).1 = Except.ok true) :
    HttpServer.Running s = true ∧
    HttpServer.Running (HttpServer.Stop (webccImpl qt tr) s).2 = false ∧
    (∀ calls : List HttpServer.Call, HttpServer.Call.Start ∉ calls →
      HttpServer.Running
        (HttpServer.performAll (webccImpl qt tr) calls
          (HttpServer.Stop (webccImpl qt tr) s).2) = false) ∧
    (∀ port : Int, tr.bindPort s.derived.port = Except.ok port → tr.route = true →
      s.derived.certificate.isSome = s.derived.privateKey.isSome →
      (HttpServer.Start (webccImpl qt tr) (HttpServer.Stop (webccImpl qt tr) s).2).1 =
          Except.ok true ∧
        HttpServer.Running
          (HttpServer.Start (webccImpl qt tr) (HttpServer.Stop (webccImpl qt tr) s).2).2 =
          true) := by
  have h := webcc_stop qt tr s
  have hs : s.started = true := by
    rw [h] at hstop
    by_contra hn
    simp [hn] at hstop
  rw [if_pos hs] at h
  have hr : HttpServer.Running (HttpServer.Stop (webccImpl qt tr) s).2 = false := by
    rw [h]
    rfl
  refine ⟨hs, hr, ?_, ?_⟩
  · intro calls hc
    exact HttpServer.not_running_without_start _ calls _ hr hc
  · intro port hb hroute hk
    have h1 : (HttpServer.Start (webccImpl qt tr)
        (HttpServer.Stop (webccImpl qt tr) s).2).1 = Except.ok true := by
      rw [HttpServer.start_result _ _ (by rw [h]), h]
      exact StartPrivate_of_consistent tr { s.derived with server := none } port hb hroute hk
    refine ⟨h1, ?_⟩
    rw [HttpServer.running_start, if_pos h1]

/-- C28, the amended claim on a server started on port 8080 and stopped. -/
theorem C28_stopped_until_next_start_witness :
    HttpServer.Running
        (HttpServer.Stop (webccImpl qtRef trRef)
          (HttpServer.Start (webccImpl qtRef trRef) (newServer 8080 none none)).2).2 =
      false ∧
    HttpServer.Running
        (HttpServer.performAll (webccImpl qtRef trRef)
          [HttpServer.Call.Stop, HttpServer.Call.Port 8081]
          (HttpServer.Stop (webccImpl qtRef trRef)
            (HttpServer.Start (webccImpl qtRef trRef) (newServer 8080 none none)).2).2) =
      false :=
  ⟨(C28_stopped_until_next_start qtRef trRef
      (HttpServer.Start (webccImpl qtRef trRef) (newServer 8080 none none)).2
      (by decide)).2.1,
    (C28_stopped_until_next_start qtRef trRef
      (HttpServer.Start (webccImpl qtRef trRef) (newServer 8080 none none)).2
      (by decide)).2.2.1 [HttpServer.Call.Stop, HttpServer.Call.Port 8081] (by decide)⟩

/-! ## C29: the choice of TLS in Start -/

theorem webcc_start (qt : Qt) (tr : Transport) (s : HttpServer HttpServerWebcc)
    (hs : s.started = false) :
    HttpServer.Start (webccImpl qt tr) s =
      match StartPrivate tr s.derived with
      | (Except.ok r, d) => (Except.ok r, { started := r, derived := d })
      | (Except.error e, d) => (Except.error e, { started := false, derived := d }) := by
  unfold HttpServer.Start
  rw [if_neg (by simp [hs]), hs]
  simp only [webccImpl]
  rcases StartPrivate tr s.derived with ⟨r, d⟩
  cases r <;> rfl

/-- C29: on a server that is not running, when the port can be bound (to
`port`) and routing succeeds: with a certificate and no private key `Start()`
raises `MissingPrivateKey`, with a private key and no certificate it raises
`MissingCertificate`, both with the argument `https://` followed by address,
colon and port, and `Running()` stays false; with both it creates the SSL
server with that certificate and key, returns true, the server runs and
`serverName` begins with `https://`; with neither it creates the plain server,
returns true, the server runs and `serverName` begins with `http://`. -/
theorem C29_tls_selection_on_start (qt : Qt) (tr : Transport)
    (s : HttpServer HttpServerWebcc) (port : Int)
    (hs : HttpServer.Running s = false)
    (hbind : tr.bindPort s.derived.port = Except.ok port)
    (hroute : tr.route = true) :
    (∀ certificate : QByteArray,
      s.derived.certificate = some certificate → s.derived.privateKey = none →
      (HttpServer.Start (webccImpl qt tr) s).1 =
          Except.error ((Ex EventId.MissingPrivateKey).Arg
            ("https://".toList ++ (s.derived.address ++ ':' :: number port))) ∧
        HttpServer.Running (HttpServer.Start (webccImpl qt tr) s).2 = false) ∧
    (∀ privateKey : QByteArray,
      s.derived.certificate = none → s.derived.privateKey = some privateKey →
      (HttpServer.Start (webccImpl qt tr) s).1 =
          Except.error ((Ex EventId.MissingCertificate).Arg
            ("https://".toList ++ (s.derived.address ++ ':' :: number port))) ∧
        HttpServer.Running (HttpServer.Start (webccImpl qt tr) s).2 = false) ∧
    (∀ certificate privateKey : QByteArray,
      s.derived.certificate = some certificate → s.derived.privateKey = some privateKey →
      (HttpServer.Start (webccImpl qt tr) s).1 = Except.ok true ∧
        HttpServer.Running (HttpServer.Start (webccImpl qt tr) s).2 = true ∧
        (HttpServer.Start (webccImpl qt tr) s).2.derived.server =
          some (WebccServer.SslServer port certificate privateKey) ∧
        (HttpServer.Start (webccImpl qt tr) s).2.derived.serverName =
          "https://".toList ++ (s.derived.address ++ ':' :: number port) ∧
        "https://".toList <+: (HttpServer.Start (webccImpl qt tr) s).2.derived.serverName) ∧
    (s.derived.certificate = none → s.derived.privateKey = none →
      (HttpServer.Start (webccImpl qt tr) s).1 = Except.ok true ∧
        HttpServer.Running (HttpServer.Start (webccImpl qt tr) s).2 = true ∧
        (HttpServer.Start (webccImpl qt tr) s).2.derived.server =
          some (WebccServer.Server port) ∧
        (HttpServer.Start (webccImpl qt tr) s).2.derived.serverName =
          "http://".toList ++ (s.derived.address ++ ':' :: number port) ∧
        "http://".toList <+: (HttpServer.Start (webccImpl qt tr) s).2.derived.serverName) := by
  have h := webcc_start qt tr s hs
  rw [h]
  unfold StartPrivate GetFreePort
  rw [hbind]
  refine ⟨?_, ?_, ?_, ?_⟩
  · intro certificate hc hk
    simp [hc, hk, HttpServer.Running]
  · intro privateKey hc hk
    simp [hc, hk, HttpServer.Running]
  · intro certificate privateKey hc hk
    simp [hc, hk, HttpServer.Running, StartRouted, hroute]
  · intro hc hk
    simp [hc, hk, HttpServer.Running, StartRouted, hroute]

/-- C29 on new servers with the port 0, which the reference transport binds to
49152: the four combinations of certificate and private key. -/
theorem C29_tls_selection_on_start_witness :
    (HttpServer.Start (webccImpl qtRef trRef) (newServer 0 (some [1]) none)).1 =
      Except.error ((Ex EventId.MissingPrivateKey).Arg "https://127.0.0.1:49152".toList) ∧
    (HttpServer.Start (webccImpl qtRef trRef) (newServer 0 none (some [2]))).1 =
      Except.error ((Ex EventId.MissingCertificate).Arg "https://127.0.0.1:49152".toList) ∧
    (HttpServer.Start (webccImpl qtRef trRef)
        (newServer 0 (some [1]) (some [2]))).2.derived.serverName =
      "https://127.0.0.1:49152".toList ∧
    (HttpServer.Start (webccImpl qtRef trRef) (newServer 0 none none)).2.derived.serverName =
      "http://127.0.0.1:49152".toList :=
  ⟨((C29_tls_selection_on_start qtRef trRef (newServer 0 (some [1]) none) 49152
      (by decide) (by decide) (by decide)).1 [1] rfl rfl).1,
    ((C29_tls_selection_on_start qtRef trRef (newServer 0 none (some [2])) 49152
      (by decide) (by decide) (by decide)).2.1 [2] rfl rfl).1,
    ((C29_tls_selection_on_start qtRef trRef (newServer 0 (some [1]) (some [2])) 49152
      (by decide) (by decide) (by decide)).2.2.1 [1] [2] rfl rfl).2.2.2.1,
    ((C29_tls_selection_on_start qtRef trRef (newServer 0 none none) 49152
      (by decide) (by decide) (by decide)).2.2.2 rfl rfl).2.2.2.1⟩

/-! ## C30: IsHttps -/

/-- C30: `IsHttps()` is true as soon as one of certificate and private key is
set, not only when both are. On a new server on which only `SetCertificate`
has succeeded `IsHttps()` returns true, although no private key is stored and
`Start()` raises `MissingPrivateKey`; likewise with only a private key. -/
theorem C30_is_https_with_one_of_two (qt : Qt) (tr : Transport)
    (s : HttpServer HttpServerWebcc) :
    (HttpServer.IsHttps (webccImpl qt tr) s = true ↔
      (s.derived.certificate ≠ none ∨ s.derived.privateKey ≠ none)) ∧
    (HttpServer.SetCertificate (webccImpl qtRef trRef) [1] SslEncoding.PEM
        (newServer 8080 none none)).1 = Except.ok true ∧
    (HttpServer.SetCertificate (webccImpl qtRef trRef) [1] SslEncoding.PEM
        (newServer 8080 none none)).2.derived.privateKey = none ∧
    HttpServer.IsHttps (webccImpl qtRef trRef)
        (HttpServer.SetCertificate (webccImpl qtRef trRef) [1] SslEncoding.PEM
          (newServer 8080 none none)).2 = true ∧
    (HttpServer.Start (webccImpl qtRef trRef)
        (HttpServer.SetCertificate (webccImpl qtRef trRef) [1] SslEncoding.PEM
          (newServer 8080 none none)).2).1 =
      Except.error ((Ex EventId.MissingPrivateKey).Arg "https://127.0.0.1:8080".toList) ∧
    HttpServer.IsHttps (webccImpl qtRef trRef)
        (HttpServer.SetPrivateKey (webccImpl qtRef trRef) [2] SslEncoding.PEM
          SslKeyAlgorithm.RSA [] (newServer 8080 none none)).2 = true := by
  refine ⟨?_, by decide, by decide, by decide, by decide, by decide⟩
  unfold HttpServer.IsHttps
  show IsHttpsPrivate s.derived = true ↔ _
  unfold IsHttpsPrivate
  cases s.derived.certificate <;> cases s.derived.privateKey <;> simp

/-! ## C31: methods are compared by equality -/

theorem MapMethod_values (method : QString) :
    MapMethod method ∈
      [HttpMethod.UNKNOWN, HttpMethod.GET, HttpMethod.POST, HttpMethod.PUT, HttpMethod.DELETE,
        HttpMethod.PATCH, HttpMethod.HEAD, HttpMethod.OPTIONS, HttpMethod.ALL] := by
  unfold MapMethod
  repeat' split
  all_goals simp

theorem handleRequest_selected (qt : Qt) (OnRequest : Callback) (serverName : QString)
    (endpoints : Endpoints) (requestData : WebccRequest) :
    HandleRequest qt OnRequest serverName endpoints requestData =
        Except.ok WebccResponse.NotFound ∨
    HandleRequest qt OnRequest serverName endpoints requestData =
        Except.ok (WebccResponse.Code 405) ∨
    ∃ it ∈ endpoints,
      (it.1.2 = MapMethod requestData.method ∨ it.1.2 = HttpMethod.ALL) ∧
      (Matches qt it.2 requestData.path).matched = true ∧
      HandleRequest qt OnRequest serverName endpoints requestData =
        Except.ok (ProcessRequest OnRequest serverName
          (Matches qt it.2 requestData.path) requestData) := by
  rcases handleRequest_exits qt OnRequest serverName endpoints requestData with
    ⟨_, h⟩ | ⟨_, _, _, h⟩ | ⟨um, hf, h⟩ | ⟨um, _, hf, h⟩
  · exact Or.inl h
  · exact Or.inr (Or.inl h)
  · obtain ⟨⟨it, hit, hm, he, hmat⟩, _⟩ :=
      (HandleRequest.matches_spec qt requestData.path endpoints).1 _ um hf
    refine Or.inr (Or.inr ⟨it, hit, Or.inl hm, ?_, ?_⟩)
    · rw [he]
      exact hmat
    · rw [he]
      exact h
  · obtain ⟨⟨it, hit, hm, he, hmat⟩, _⟩ :=
      (HandleRequest.matches_spec qt requestData.path endpoints).1 _ um hf
    refine Or.inr (Or.inr ⟨it, hit, Or.inr hm, ?_, ?_⟩)
    · rw [he]
      exact hmat
    · rw [he]
      exact h

/-- C31: `AddEndpoint` does not look at the method value, so a template that
passes validation is accepted under any value whose key is free, also under a
union of flags such as `GET | POST`. For a request whose method maps to another
value, an entry registered under a value `m` that is neither that value nor
`ALL` is never the one processed: the answer is 404, 405, or the callback's
for an entry registered under the request method or `ALL`; and when every
entry matching the path is registered under `m`, the answer is 405. A union of
two different flags is no value a request method maps to; `/x` registered
under `GET | POST` answers 405 to `GET /x` and to `POST /x`. -/
theorem C31_methods_compared_by_equality (qt : Qt) (OnRequest : Callback)
    (serverName : QString) (endpoints : Endpoints) (requestData : WebccRequest)
    (m : HttpMethod) (hm : m ≠ MapMethod requestData.method) (hall : m ≠ HttpMethod.ALL) :
    (∀ t : QString, PassesValidation qt t →
      QHash.find endpoints (endpointAdjusted qt t, m) = none →
      AddEndpoint qt endpoints t m =
        (Except.ok true, QHash.insert endpoints (endpointAdjusted qt t, m) t)) ∧
    (HandleRequest qt OnRequest serverName endpoints requestData =
        Except.ok WebccResponse.NotFound ∨
      HandleRequest qt OnRequest serverName endpoints requestData =
        Except.ok (WebccResponse.Code 405) ∨
      ∃ it ∈ endpoints, it.1.2 ≠ m ∧
        (it.1.2 = MapMethod requestData.method ∨ it.1.2 = HttpMethod.ALL) ∧
        (Matches qt it.2 requestData.path).matched = true ∧
        HandleRequest qt OnRequest serverName endpoints requestData =
          Except.ok (ProcessRequest OnRequest serverName
            (Matches qt it.2 requestData.path) requestData)) ∧
    (MatchesPath qt endpoints requestData.path →
      (∀ it ∈ endpoints, (Matches qt it.2 requestData.path).matched = true → it.1.2 = m) →
      HandleRequest qt OnRequest serverName endpoints requestData =
        Except.ok (WebccResponse.Code 405)) ∧
    (∀ a ∈ [HttpMethod.GET, HttpMethod.POST, HttpMethod.PUT, HttpMethod.DELETE,
        HttpMethod.PATCH, HttpMethod.HEAD, HttpMethod.OPTIONS],
      ∀ b ∈ [HttpMethod.GET, HttpMethod.POST, HttpMethod.PUT, HttpMethod.DELETE,
        HttpMethod.PATCH, HttpMethod.HEAD, HttpMethod.OPTIONS],
      a ≠ b → ∀ method : QString, a ||| b ≠ MapMethod method) ∧
    (AddEndpoint qtRef [] "/x".toList (HttpMethod.GET ||| HttpMethod.POST)).1 =
      Except.ok true ∧
    HandleRequest qtRef echoEndpoint []
        (AddEndpoint qtRef [] "/x".toList (HttpMethod.GET ||| HttpMethod.POST)).2
        (plainRequest kGet "/x".toList) = Except.ok (WebccResponse.Code 405) ∧
    HandleRequest qtRef echoEndpoint []
        (AddEndpoint qtRef [] "/x".toList (HttpMethod.GET ||| HttpMethod.POST)).2
        (plainRequest kPost "/x".toList) = Except.ok (WebccResponse.Code 405) := by
  refine ⟨?_, ?_, ?_, ?_, by decide, by decide, by decide⟩
  · intro t hv hf
    rcases addEndpoint_exits qt endpoints t m with
      ⟨h1, _⟩ | ⟨_, h2, _⟩ | ⟨_, _, h3, _⟩ | ⟨_, _, _, h4, _⟩ | ⟨_, r, hr, _⟩ | ⟨_, _, h⟩
    · exact absurd h1 hv.1
    · rw [hv.2.1] at h2
      cases h2
    · rw [hv.2.2.1] at h3
      cases h3
    · rw [hv.2.2.2] at h4
      cases h4
    · rw [hf] at hr
      cases hr
    · exact h
  · rcases handleRequest_selected qt OnRequest serverName endpoints requestData with
      h | h | ⟨it, hit, hmeth, hmat, h⟩
    · exact Or.inl h
    · exact Or.inr (Or.inl h)
    · refine Or.inr (Or.inr ⟨it, hit, ?_, hmeth, hmat, h⟩)
      rcases hmeth with h1 | h1
      · rw [h1]
        exact fun h2 => hm h2.symm
      · rw [h1]
        exact fun h2 => hall h2.symm
  · intro hpath honly
    rcases handleRequest_exits qt OnRequest serverName endpoints requestData with
      ⟨hn, _⟩ | ⟨_, _, _, h⟩ | ⟨um, hf, _⟩ | ⟨um, _, hf, _⟩
    · exact absurd hpath hn
    · exact h
    · obtain ⟨⟨it, hit, hmeth, he, hmat⟩, _⟩ :=
        (HandleRequest.matches_spec qt requestData.path endpoints).1 _ um hf
      rw [← he] at hmat
      exact absurd ((honly it hit hmat).symm.trans hmeth) hm
    · obtain ⟨⟨it, hit, hmeth, he, hmat⟩, _⟩ :=
        (HandleRequest.matches_spec qt requestData.path endpoints).1 _ um hf
      rw [← he] at hmat
      exact absurd ((honly it hit hmat).symm.trans hmeth) hall
  · intro a ha b hb hab method
    have hv := MapMethod_values method
    generalize MapMethod method = v at hv
    revert a b v
    decide

/-- C31 at the request `GET /x` on a server whose only endpoint is `/x` under
`GET | POST`. -/
theorem C31_methods_compared_by_equality_witness :
    HandleRequest qtRef echoEndpoint []
        (AddEndpoint qtRef [] "/x".toList (HttpMethod.GET ||| HttpMethod.POST)).2
        (plainRequest kGet "/x".toList) = Except.ok (WebccResponse.Code 405) :=
  (C31_methods_compared_by_equality qtRef echoEndpoint []
    (AddEndpoint qtRef [] "/x".toList (HttpMethod.GET ||| HttpMethod.POST)).2
    (plainRequest kGet "/x".toList) (HttpMethod.GET ||| HttpMethod.POST)
    (by decide) (by decide)).2.2.1 (by decide) (by decide)

/-! ## C32: the port after a failed Start -/

theorem StartPrivate_raise_tls (tr : Transport) (d : HttpServerWebcc) (e : Exception)
    (h : (StartPrivate tr d).1 = Except.error e)
    (hid : e.id = EventId.MissingCertificate ∨ e.id = EventId.MissingPrivateKey) :
    ∃ port : Int, tr.bindPort d.port = Except.ok port ∧
      StartPrivate tr d = (Except.error e, { d with port := port }) := by
  unfold StartPrivate GetFreePort at h ⊢
  rcases hb : tr.bindPort d.port with msg | port
  · rw [hb] at h
    simp only at h
    cases h
    simp [Ex, Exception.Arg] at hid
  · rw [hb] at h
    refine ⟨port, rfl, ?_⟩
    rcases hc : d.certificate with _ | c <;> rcases hk : d.privateKey with _ | k
    · rw [hc, hk] at h
      by_cases hr : tr.route = true
      · simp [StartRouted, hr] at h
      · simp [StartRouted, hr] at h
        rw [← h] at hid
        simp [Ex, Exception.Arg] at hid
    · rw [hc, hk] at h
      simp only at h ⊢
      cases h
      rfl
    · rw [hc, hk] at h
      simp only at h ⊢
      cases h
      rfl
    · rw [hc, hk] at h
      by_cases hr : tr.route = true
      · simp [StartRouted, hr] at h
      · simp [StartRouted, hr] at h
        rw [← h] at hid
        simp [Ex, Exception.Arg] at hid

/-- C32, the claim as worded fails: on a new server with the port 0, a
certificate and no private key, `Start()` raises `MissingPrivateKey` and
`Port()`, 0 before the call, is afterwards the port the probe has bound. -/
theorem C32_port_after_failed_start_counterexample :
    HttpServer.Port (webccImpl qtRef trRef) (newServer 0 (some [1]) none) = 0 ∧
    (HttpServer.Start (webccImpl qtRef trRef) (newServer 0 (some [1]) none)).1 =
      Except.error ((Ex EventId.MissingPrivateKey).Arg "https://127.0.0.1:49152".toList) ∧
    HttpServer.Port (webccImpl qtRef trRef)
        (HttpServer.Start (webccImpl qtRef trRef) (newServer 0 (some [1]) none)).2 = 49152 ∧
    HttpServer.Running
        (HttpServer.Start (webccImpl qtRef trRef) (newServer 0 (some [1]) none)).2 = false := by
  decide

/-- C32, amended: whenever `Start()` raises `MissingCertificate` or
`MissingPrivateKey`, `Running()` remains false and address, certificate,
private key, server object, server name and endpoints are as before, while
`Port()` is afterwards the port the probe of `GetFreePort` has bound for the
configured port; it is the port configured before exactly when the probe
bound that very port. -/
theorem C32_failed_start_keeps_all_but_port (qt : Qt) (tr : Transport)
    (s : HttpServer HttpServerWebcc) (e : Exception)
    (hraise : (HttpServer.Start (webccImpl qt tr) s).1 = Except.error e)
    (hid : e.id = EventId.MissingCertificate ∨ e.id = EventId.MissingPrivateKey) :
    HttpServer.Running (HttpServer.Start (webccImpl qt tr) s).2 = false ∧
    (∃ port : Int, tr.bindPort s.derived.port = Except.ok port ∧
      (HttpServer.Start (webccImpl qt tr) s).2 =
        { started := false, derived := { s.derived with port := port } } ∧
      HttpServer.Port (webccImpl qt tr) (HttpServer.Start (webccImpl qt tr) s).2 = port ∧
      (HttpServer.Port (webccImpl qt tr) (HttpServer.Start (webccImpl qt tr) s).2 =
          HttpServer.Port (webccImpl qt tr) s ↔
        tr.bindPort s.derived.port = Except.ok s.derived.port)) := by
  have hs : s.started = false := by
    by_contra hn
    have h1 : s.started = true := by simpa using hn
    rw [HttpServer.start_of_started _ s h1] at hraise
    cases hraise
  have h1 : (StartPrivate tr s.derived).1 = Except.error e := by
    rw [← hraise, HttpServer.start_result _ s hs]
    rfl
  obtain ⟨port, hb, hsp⟩ := StartPrivate_raise_tls tr s.derived e h1 hid
  have h := webcc_start qt tr s hs
  rw [hsp] at h
  simp only at h
  rw [h]
  refine ⟨rfl, port, hb, rfl, rfl, ?_⟩
  show port = s.derived.port ↔ _
  rw [hb]
  constructor
  · intro hp
    rw [hp]
  · intro hp
    injection hp

/-- C32, the amended claim on a new server with the port 8080, a private key
and no certificate: `Start()` raises `MissingCertificate`, the server does not
run and the port is still 8080, which the probe has bound. -/
theorem C32_failed_start_keeps_all_but_port_witness :
    HttpServer.Running
        (HttpServer.Start (webccImpl qtRef trRef) (newServer 8080 none (some [2]))).2 = false ∧
    ∃ port : Int, trRef.bindPort (newServer 8080 none (some [2])).derived.port = Except.ok port ∧
      (HttpServer.Start (webccImpl qtRef trRef) (newServer 8080 none (some [2]))).2 =
        { started := false,
          derived := { (newServer 8080 none (some [2])).derived with port := port } } ∧
      HttpServer.Port (webccImpl qtRef trRef)
        (HttpServer.Start (webccImpl qtRef trRef) (newServer 8080 none (some [2]))).2 = port ∧
      (HttpServer.Port (webccImpl qtRef trRef)
          (HttpServer.Start (webccImpl qtRef trRef) (newServer 8080 none (some [2]))).2 =
          HttpServer.Port (webccImpl qtRef trRef) (newServer 8080 none (some [2])) ↔
        trRef.bindPort (newServer 8080 none (some [2])).derived.port =
          Except.ok (newServer 8080 none (some [2])).derived.port) :=
  C32_failed_start_keeps_all_but_port qtRef trRef (newServer 8080 none (some [2]))
    ((Ex EventId.MissingCertificate).Arg "https://127.0.0.1:8080".toList)
    (by decide) (Or.inl rfl)

/-! ## Lemmas on reachable registries -/

theorem RemoveEndpoint.subset (endpoints : Endpoints) (t : QString) (m : HttpMethod) :
    ∀ it ∈ (RemoveEndpoint endpoints t m).2, it ∈ endpoints := by
  intro it hit
  unfold RemoveEndpoint at hit
  rcases RemoveEndpoint.loop_spec endpoints t m endpoints with ⟨_, h⟩ | ⟨_, x, _, _, _, _, _, h⟩
  · rw [h] at hit
    exact hit
  · rw [h] at hit
    exact ((QHash.mem_remove endpoints x.1 it).mp hit).1

theorem Reachable.validated (qt : Qt) (r : Endpoints) (h : Reachable qt r) :
    ∀ it ∈ r, PassesValidation qt it.2 := by
  induction h with
  | empty => simp
  | add r t m _ ih =>
    intro it hit
    rcases addEndpoint_exits qt r t m with
      ⟨_, h⟩ | ⟨_, _, h⟩ | ⟨_, _, _, h⟩ | ⟨_, _, _, _, h⟩ | ⟨_, _, _, h⟩ | ⟨hv, _, h⟩
    · rw [h] at hit
      exact ih it hit
    · rw [h] at hit
      exact ih it hit
    · rw [h] at hit
      exact ih it hit
    · rw [h] at hit
      exact ih it hit
    · rw [h] at hit
      exact ih it hit
    · rw [h] at hit
      rcases QHash.mem_insert r _ _ it hit with h1 | h1
      · exact ih it h1
      · rw [h1]
        exact hv
  | remove r t m _ ih =>
    intro it hit
    exact ih it (RemoveEndpoint.subset r t m it hit)
  | reorder r r2 _ hp ih =>
    intro it hit
    exact ih it (hp.mem_iff.mpr hit)

theorem WellFormed.index_unique (qt : Qt) (r : Endpoints) (hw : WellFormed qt r)
    (i j : Nat) (it1 it2 : (QString × HttpMethod) × QString)
    (h1 : r[i]? = some it1) (h2 : r[j]? = some it2) (hm : it1.1.2 = it2.1.2)
    (hk : endpointAdjusted qt it1.2 = endpointAdjusted qt it2.2) : i = j := by
  have hkey : it1.1 = it2.1 := by
    have e1 := hw.2 it1 (List.mem_iff_getElem?.mpr ⟨i, h1⟩)
    have e2 := hw.2 it2 (List.mem_iff_getElem?.mpr ⟨j, h2⟩)
    exact Prod.ext (by rw [e1, e2, hk]) hm
  have hnd : (r.map Prod.fst).Nodup := hw.1
  have g1 : (r.map Prod.fst)[i]? = some it1.1 := by
    rw [List.getElem?_map, h1]
    rfl
  have g2 : (r.map Prod.fst)[j]? = some it1.1 := by
    rw [List.getElem?_map, h2, hkey]
    rfl
  obtain ⟨hi, e1⟩ := List.getElem?_eq_some_iff.mp g1
  obtain ⟨hj, e2⟩ := List.getElem?_eq_some_iff.mp g2
  exact (List.Nodup.getElem_inj_iff hnd).mp (e1.trans e2.symm)

/-! ## C33: level ties under one method -/

/-- C33: the ambiguity check of `AddEndpoint` does not prevent level ties.
`/a/{x}` and `/{y}/b` are both accepted under `GET`, one after the other on
an empty server, because their normalized keys differ; both match `/a/b` with
level 1, so when `HandleRequest` visits the second entry it finds a match of
equal level kept under `GET`: the equal-level branch is reached, and it leaves
the kept match as it is. -/
theorem C33_level_tie_under_one_method :
    Reachable qtRef
      (registryOfTwo "/a/{x}".toList HttpMethod.GET "/{y}/b".toList HttpMethod.GET) ∧
    (AddEndpoint qtRef [] "/a/{x}".toList HttpMethod.GET).1 = Except.ok true ∧
    (AddEndpoint qtRef (AddEndpoint qtRef [] "/a/{x}".toList HttpMethod.GET).2
        "/{y}/b".toList HttpMethod.GET).1 = Except.ok true ∧
    registryOfTwo "/a/{x}".toList HttpMethod.GET "/{y}/b".toList HttpMethod.GET =
      [(("/a/[variableName]".toList, HttpMethod.GET), "/a/{x}".toList),
        (("/[variableName]/b".toList, HttpMethod.GET), "/{y}/b".toList)] ∧
    (Matches qtRef "/a/{x}".toList "/a/b".toList).matched = true ∧
    (Matches qtRef "/{y}/b".toList "/a/b".toList).matched = true ∧
    (Matches qtRef "/a/{x}".toList "/a/b".toList).level = 1 ∧
    (Matches qtRef "/{y}/b".toList "/a/b".toList).level = 1 ∧
    QHash.find
        (HandleRequest.matches qtRef
          [(("/a/[variableName]".toList, HttpMethod.GET), "/a/{x}".toList)] "/a/b".toList)
        HttpMethod.GET = some (Matches qtRef "/a/{x}".toList "/a/b".toList) ∧
    HandleRequest.visit qtRef "/a/b".toList
        (HandleRequest.matches qtRef
          [(("/a/[variableName]".toList, HttpMethod.GET), "/a/{x}".toList)] "/a/b".toList)
        (("/[variableName]/b".toList, HttpMethod.GET), "/{y}/b".toList) =
      HandleRequest.matches qtRef
        [(("/a/[variableName]".toList, HttpMethod.GET), "/a/{x}".toList)] "/a/b".toList :=
  ⟨Reachable.add _ _ _ (Reachable.add _ _ _ Reachable.empty), by decide, by decide, by decide,
    by decide, by decide, by decide, by decide, by decide, by decide⟩

/-! ## C37: the invariant of the registry -/

/-- C37: in every registry reachable from the empty one by `AddEndpoint` and
`RemoveEndpoint`, the key of each entry is the normalized form of the template
stored under it, this template passes the validation of `AddEndpoint`, and
the keys are pairwise distinct; so no two entries have both the same template
and the same method. -/
theorem C37_registry_invariant (qt : Qt) (r : Endpoints) (hr : Reachable qt r) :
    (∀ it ∈ r, it.1.1 = endpointAdjusted qt it.2 ∧ PassesValidation qt it.2) ∧
    QHash.UniqueKeys r ∧
    (∀ (i j : Nat) (it1 it2 : (QString × HttpMethod) × QString),
      r[i]? = some it1 → r[j]? = some it2 → it1.2 = it2.2 → it1.1.2 = it2.1.2 → i = j) := by
  have hw := Reachable.wellFormed qt r hr
  refine ⟨fun it hit => ⟨hw.2 it hit, Reachable.validated qt r hr it hit⟩, hw.1, ?_⟩
  intro i j it1 it2 h1 h2 ht hm
  exact WellFormed.index_unique qt r hw i j it1 it2 h1 h2 hm (by rw [ht])

/-- C37 on the registry of `/a/{b}` and `/c` under `GET`. -/
theorem C37_registry_invariant_witness :
    (∀ it ∈ registryOfTwo "/a/{b}".toList HttpMethod.GET "/c".toList HttpMethod.GET,
      it.1.1 = endpointAdjusted qtRef it.2 ∧ PassesValidation qtRef it.2) ∧
    QHash.UniqueKeys
      (registryOfTwo "/a/{b}".toList HttpMethod.GET "/c".toList HttpMethod.GET) :=
  ⟨(C37_registry_invariant qtRef
      (registryOfTwo "/a/{b}".toList HttpMethod.GET "/c".toList HttpMethod.GET)
      (Reachable.add _ _ _ (Reachable.add _ _ _ Reachable.empty))).1,
    (C37_registry_invariant qtRef
      (registryOfTwo "/a/{b}".toList HttpMethod.GET "/c".toList HttpMethod.GET)
      (Reachable.add _ _ _ (Reachable.add _ _ _ Reachable.empty))).2.1⟩

/-! ## C38: adding and removing again -/

theorem QHash.remove_perm_of_added {κ ν : Type} [DecidableEq κ] (r r2 : QHash κ ν) (k : κ)
    (v : ν) (hf : QHash.find r k = none) (hp : List.Perm r2 (r ++ [(k, v)])) :
    List.Perm (QHash.remove r2 k) r ∧ QHash.remove (r ++ [(k, v)]) k = r := by
  have hr : QHash.remove (r ++ [(k, v)]) k = r := by
    unfold QHash.remove
    rw [List.filter_append]
    have h1 : r.filter (fun it => decide (it.1 ≠ k)) = r := by
      rw [List.filter_eq_self]
      intro it hit
      simpa using (QHash.find_none_iff r k).mp hf it hit
    rw [h1]
    simp
  refine ⟨?_, hr⟩
  rw [← hr]
  exact hp.filter _

theorem RemoveEndpoint.of_added (qt : Qt) (r2 : Endpoints) (t : QString) (m : HttpMethod)
    (hw : WellFormed qt r2) (hmem : ((endpointAdjusted qt t, m), t) ∈ r2) :
    RemoveEndpoint r2 t m = (true, QHash.remove r2 (endpointAdjusted qt t, m)) := by
  unfold RemoveEndpoint
  rcases RemoveEndpoint.loop_spec r2 t m r2 with ⟨hno, _⟩ | ⟨l1, it, l2, hl, _, ht, hm, h⟩
  · exact absurd ⟨rfl, rfl⟩ (hno _ hmem)
  · have hit : it ∈ r2 := by
      rw [hl]
      simp
    have hk : it.1 = (endpointAdjusted qt t, m) :=
      Prod.ext (by rw [hw.2 it hit, ht]) hm
    rw [h, hk]

/-- C38: when `AddEndpoint(t, m)` succeeds on a reachable registry `R`,
`RemoveEndpoint(t, m)` on the registry it leaves returns true and gives back
exactly `R` (and a reordering of `R` when the items are visited in another
order), after which `AddEndpoint(t, m)` succeeds again with the same result as
the first time. -/
theorem C38_add_remove_round_trip (qt : Qt) (r : Endpoints) (t : QString) (m : HttpMethod)
    (hr : Reachable qt r) (hadd : (AddEndpoint qt r t m).1 = Except.ok true) :
    RemoveEndpoint (AddEndpoint qt r t m).2 t m = (true, r) ∧
    (∀ r2 : Endpoints, List.Perm r2 (AddEndpoint qt r t m).2 →
      (RemoveEndpoint r2 t m).1 = true ∧ List.Perm (RemoveEndpoint r2 t m).2 r) ∧
    (AddEndpoint qt (RemoveEndpoint (AddEndpoint qt r t m).2 t m).2 t m).1 = Except.ok true ∧
    (AddEndpoint qt (RemoveEndpoint (AddEndpoint qt r t m).2 t m).2 t m).2 =
      (AddEndpoint qt r t m).2 := by
  have hadded : QHash.find r (endpointAdjusted qt t, m) = none ∧
      (AddEndpoint qt r t m).2 = r ++ [((endpointAdjusted qt t, m), t)] := by
    rcases addEndpoint_exits qt r t m with
      ⟨_, h⟩ | ⟨_, _, h⟩ | ⟨_, _, _, h⟩ | ⟨_, _, _, _, h⟩ | ⟨_, _, _, h⟩ | ⟨_, hf, h⟩
    · rw [h] at hadd
      cases hadd
    · rw [h] at hadd
      cases hadd
    · rw [h] at hadd
      cases hadd
    · rw [h] at hadd
      cases hadd
    · rw [h] at hadd
      cases hadd
    · exact ⟨hf, by rw [h, QHash.insert_of_find_none r _ t hf]⟩
  obtain ⟨hf, he⟩ := hadded
  have hw2 : WellFormed qt (AddEndpoint qt r t m).2 :=
    Reachable.wellFormed qt _ (Reachable.add r t m hr)
  have hperm : ∀ r2 : Endpoints, List.Perm r2 (AddEndpoint qt r t m).2 →
      RemoveEndpoint r2 t m = (true, QHash.remove r2 (endpointAdjusted qt t, m)) := by
    intro r2 hp
    have hw : WellFormed qt r2 :=
      Reachable.wellFormed qt _ (Reachable.reorder _ r2 (Reachable.add r t m hr) hp.symm)
    apply RemoveEndpoint.of_added qt r2 t m hw
    rw [hp.mem_iff, he]
    simp
  have h1 : RemoveEndpoint (AddEndpoint qt r t m).2 t m = (true, r) := by
    rw [hperm _ (List.Perm.refl _), he]
    rw [(QHash.remove_perm_of_added r _ _ t hf (List.Perm.refl _)).2]
  refine ⟨h1, ?_, ?_, ?_⟩
  · intro r2 hp
    rw [hperm r2 hp]
    refine ⟨rfl, ?_⟩
    rw [he] at hp
    exact (QHash.remove_perm_of_added r r2 _ t hf hp).1
  · rw [h1]
    exact hadd
  · rw [h1]

/-- C38 on the registry holding `/a/{b}` under `GET`, with `/c` under `GET`
added and removed again. -/
theorem C38_add_remove_round_trip_witness :
    RemoveEndpoint
        (AddEndpoint qtRef (AddEndpoint qtRef [] "/a/{b}".toList HttpMethod.GET).2
          "/c".toList HttpMethod.GET).2 "/c".toList HttpMethod.GET =
      (true, (AddEndpoint qtRef [] "/a/{b}".toList HttpMethod.GET).2) :=
  (C38_add_remove_round_trip qtRef (AddEndpoint qtRef [] "/a/{b}".toList HttpMethod.GET).2
    "/c".toList HttpMethod.GET (Reachable.add _ _ _ Reachable.empty) (by decide)).1

/-! ## C34: the loop of Matches and the specified walk -/

theorem Matches.loop_eq_specified (qt : Qt) (urlLevels : List QString) (l : List QString) :
    ∀ (i : Nat) (um : UrlMatch),
      (∀ (k : Nat), l[k]? = some ['#'] → k + 1 = l.length) →
      Matches.loop qt urlLevels i l um = MatchesSpecified.loop qt urlLevels i l um := by
  induction l with
  | nil =>
    intro i um _
    rfl
  | cons level rest ih =>
    intro i um h
    have hrest : ∀ (k : Nat), rest[k]? = some ['#'] → k + 1 = rest.length := by
      intro k hk
      have h1 := h (k + 1) (by simpa using hk)
      simpa using h1
    cases hv : pathVariableExact qt.dot level with
    | some name =>
      rw [Matches.loop_variable qt urlLevels i level rest um name hv]
      simp only [MatchesSpecified.loop, hv]
      exact ih _ _ hrest
    | none =>
      by_cases hh : level = ['#']
      · subst hh
        have hnil : rest = [] := by
          have h1 := h 0 (by simp)
          simp at h1
          exact h1
        subst hnil
        rw [Matches.loop_hash, Matches.loop_nil]
        simp only [MatchesSpecified.loop, hv, if_true]
      · by_cases hd : urlLevels.getD i [] = level
        · rw [Matches.loop_equal qt urlLevels i level rest um hv hh hd]
          simp only [MatchesSpecified.loop, hv, if_neg hh]
          rw [if_neg (fun hne => hne hd)]
          exact ih _ _ hrest
        · rw [Matches.loop_differ qt urlLevels i level rest um hv hh hd]
          simp only [MatchesSpecified.loop, hv, if_neg hh]
          rw [if_pos hd]

theorem hash_level_is_last (s : QString)
    (h : ∀ (i : Nat), s[i]? = some '#' → i + 1 = s.length) :
    ∀ (k : Nat), (split '/' s)[k]? = some ['#'] → k + 1 = (split '/' s).length := by
  intro k hk
  rcases List.eq_nil_or_concat s with hs | ⟨pre, c, hs⟩
  · subst hs
    have hk2 : ([[]] : List QString)[k]? = some ['#'] := hk
    rcases k with _ | k <;> simp at hk2
  · rw [List.concat_eq_append] at hs
    subst hs
    have hpre : '#' ∉ pre := by
      intro hm
      obtain ⟨j, hj⟩ := List.mem_iff_getElem?.mp hm
      have hjl : j < pre.length := by
        by_contra hn
        rw [List.getElem?_eq_none (by omega)] at hj
        cases hj
      have h1 := h j (by rw [List.getElem?_append_left hjl]; exact hj)
      simp at h1
      omega
    by_cases hc : c = '#'
    · subst hc
      obtain ⟨init, last, h1, h2⟩ := split_append_char '/' '#' (by decide) pre
      rw [h2] at hk ⊢
      have hinit : ∀ seg ∈ init, '#' ∉ seg := by
        intro seg hseg hm
        exact hpre (mem_of_mem_split '/' pre seg (by rw [h1]; simp [hseg]) '#' hm)
      by_cases hki : k < init.length
      · rw [List.getElem?_append_left hki] at hk
        exact absurd (by simp) (hinit _ (List.mem_iff_getElem?.mpr ⟨k, hk⟩))
      · have hkl : k < (init ++ [last ++ ['#']]).length := by
          by_contra hn
          rw [List.getElem?_eq_none (by omega)] at hk
          cases hk
        simp at hkl ⊢
        omega
    · exfalso
      have hm : ['#'] ∈ split '/' (pre ++ [c]) := List.mem_iff_getElem?.mpr ⟨k, hk⟩
      have h1 := mem_of_mem_split '/' (pre ++ [c]) ['#'] hm '#' (by simp)
      rcases List.mem_append.mp h1 with h2 | h2
      · exact hpre h2
      · simp at h2
        exact hc h2.symm

theorem addEndpoint_hash_last (qt : Qt) (endpoints : Endpoints) (t : QString) (m : HttpMethod)
    (b : Bool) (hok : (AddEndpoint qt endpoints t m).1 = Except.ok b) :
    ∀ (i : Nat), t[i]? = some '#' → i + 1 = t.length := by
  have hpos : ¬ (contains t '#' = true ∧ indexOf '#' t ≠ (t.length : Int) - 1) := by
    rcases addEndpoint_exits qt endpoints t m with
      ⟨_, h⟩ | ⟨h, _⟩ | ⟨h, _⟩ | ⟨h, _⟩ | ⟨h, _⟩ | ⟨h, _⟩
    · rw [h] at hok
      cases hok
    · exact h
    · exact h
    · exact h
    · exact h.1
    · exact h.1
  rw [hashtag_test_iff] at hpos
  intro i hi
  have hil : i < t.length := by
    by_contra hn
    rw [List.getElem?_eq_none (by omega)] at hi
    cases hi
  by_contra hne
  exact hpos ⟨i, by omega, hi⟩

/-- C34: for every template accepted by `AddEndpoint` that `QUrl` gives back
unchanged, a level equal to `#` can only be the last level, and for every
path `Matches`, whose loop goes on after the `#` branch, returns the same
`match`, `level`, `pathVariables` and `multiLevel` as the specified matcher,
whose walk ends at `#`. The two differ on levels that have a `#` before the
end, as `/#/b` against `/x/c` shows. -/
theorem C34_matcher_refinement (qt : Qt) (endpoints : Endpoints) (t p : QString)
    (m : HttpMethod) (b : Bool) (hok : (AddEndpoint qt endpoints t m).1 = Except.ok b)
    (hq : qt.urlPath t = t) :
    (∀ (k : Nat), (endpointLevels qt t)[k]? = some ['#'] →
      k + 1 = (endpointLevels qt t).length) ∧
    Matches qt t p = MatchesSpecified qt t p ∧
    (Matches qt t p).matched = (MatchesSpecified qt t p).matched ∧
    (Matches qt t p).level = (MatchesSpecified qt t p).level ∧
    (Matches qt t p).pathVariables = (MatchesSpecified qt t p).pathVariables ∧
    (Matches qt t p).multiLevel = (MatchesSpecified qt t p).multiLevel ∧
    (Matches qtRef "/#/b".toList "/x/c".toList).matched = false ∧
    (MatchesSpecified qtRef "/#/b".toList "/x/c".toList).matched = true := by
  have hlast : ∀ (k : Nat), (endpointLevels qt t)[k]? = some ['#'] →
      k + 1 = (endpointLevels qt t).length := by
    unfold endpointLevels
    rw [hq]
    exact hash_level_is_last t (addEndpoint_hash_last qt endpoints t m b hok)
  have heq : Matches qt t p = MatchesSpecified qt t p := by
    unfold Matches MatchesSpecified
    simp only []
    split
    · rfl
    · split
      · rfl
      · exact Matches.loop_eq_specified qt _ _ 0 _ hlast
  refine ⟨hlast, heq, ?_, ?_, ?_, ?_, by decide, by decide⟩ <;> rw [heq]

/-- C34 on the accepted template `/files/#` and the path `/files/a/b`. -/
theorem C34_matcher_refinement_witness :
    Matches qtRef "/files/#".toList "/files/a/b".toList =
      MatchesSpecified qtRef "/files/#".toList "/files/a/b".toList :=
  (C34_matcher_refinement qtRef [] "/files/#".toList "/files/a/b".toList HttpMethod.GET true
    (by decide) rfl).2.1

/-! ## C36: the accesses of the loop of Matches -/

theorem Matches.loopChecked_spec (qt : Qt) (urlLevels endpointLevels : List QString)
    (hlen : endpointLevels.length ≤ urlLevels.length) :
    ∀ (remaining i : Nat) (um : UrlMatch), i + remaining = endpointLevels.length →
      ∃ n, n ≤ remaining ∧
        Matches.loopChecked qt urlLevels endpointLevels remaining i um =
          some (Matches.loop qt urlLevels i (endpointLevels.drop i) um, n) := by
  intro remaining
  induction remaining with
  | zero =>
    intro i um hi
    refine ⟨0, le_refl _, ?_⟩
    have hd : endpointLevels.drop i = [] := List.drop_eq_nil_of_le (by omega)
    rw [hd]
    rfl
  | succ remaining ih =>
    intro i um hi
    have hil : i < endpointLevels.length := by omega
    have hiu : i < urlLevels.length := by omega
    have he : endpointLevels[i]? = some endpointLevels[i] := List.getElem?_eq_getElem hil
    have hu : urlLevels[i]? = some urlLevels[i] := List.getElem?_eq_getElem hiu
    have hg : urlLevels.getD i [] = urlLevels[i] := getD_eq_of_getElem? urlLevels i _ hu
    have hd : endpointLevels.drop i = endpointLevels[i] :: endpointLevels.drop (i + 1) :=
      List.drop_eq_getElem_cons hil
    rw [hd]
    generalize endpointLevels[i] = level at he hd ⊢
    generalize urlLevels[i] = urlLevel at hu hg ⊢
    cases hv : pathVariableExact qt.dot level with
    | some name =>
      obtain ⟨n, hn, h⟩ := ih (i + 1)
        { um with
          pathVariables := QHash.insert um.pathVariables name urlLevel
          level := um.level + 1 } (by omega)
      refine ⟨n + 1, by omega, ?_⟩
      rw [Matches.loop_variable qt urlLevels i level _ um name hv, hg]
      simp only [Matches.loopChecked, he, hv, hu, h, Option.map_some']
    | none =>
      by_cases hh : level = ['#']
      · obtain ⟨n, hn, h⟩ := ih (i + 1)
          { um with
            multiLevel := '/' :: join '/' (urlLevels.drop i)
            level := (urlLevels.length : Int) - (i : Int) + 1 } (by omega)
        refine ⟨n + 1, by omega, ?_⟩
        subst hh
        rw [Matches.loop_hash]
        simp only [Matches.loopChecked, he, hv, if_true, h, Option.map_some']
      · by_cases hd2 : urlLevel = level
        · obtain ⟨n, hn, h⟩ := ih (i + 1) um (by omega)
          refine ⟨n + 1, by omega, ?_⟩
          rw [Matches.loop_equal qt urlLevels i level _ um hv hh (hg.trans hd2)]
          simp only [Matches.loopChecked, he, hv, if_neg hh, hu]
          rw [if_neg (fun hne => hne hd2), h]
          rfl
        · refine ⟨1, by omega, ?_⟩
          rw [Matches.loop_differ qt urlLevels i level _ um hv hh (by rw [hg]; exact hd2)]
          simp only [Matches.loopChecked, he, hv, if_neg hh, hu]
          rw [if_pos hd2]

/-- C36: for every template and path, no access `endpointLevels[i]` or
`urlLevels[i]` of the loop of `Matches` is out of bounds: the function with
checked accesses always returns, with the result of `Matches`, after at most
as many iterations as the template has levels, and it begins an iteration only
when the path has at least as many levels as the template. Without that guard
an access does leave the bounds, as the loop over the two levels of `/a` on
the one level of the empty path shows. -/
theorem C36_matcher_index_safety (qt : Qt) (t p : QString) :
    (∃ n, n ≤ (endpointLevels qt t).length ∧
      MatchesChecked qt t p = some (Matches qt t p, n)) ∧
    (∀ n, MatchesChecked qt t p = some (Matches qt t p, n) → 0 < n →
      (endpointLevels qt t).length ≤ (split '/' p).length) ∧
    Matches.loopChecked qtRef (split '/' []) (split '/' "/a".toList) 2 0
      (UrlMatch.initial "/a".toList) = none := by
  refine ⟨?_, ?_, by decide⟩
  · unfold MatchesChecked Matches endpointLevels
    simp only []
    split
    · exact ⟨0, Nat.zero_le _, rfl⟩
    · split
      · exact ⟨0, Nat.zero_le _, rfl⟩
      · rename_i h1 _
        obtain ⟨n, hn, h⟩ := Matches.loopChecked_spec qt (split '/' p)
          (split '/' (qt.urlPath t)) (by omega) (split '/' (qt.urlPath t)).length 0
          { matched := false, level := 0, endpoint := t, pathVariables := [], multiLevel := [] }
          (by omega)
        exact ⟨n, hn, by rw [h]; rfl⟩
  · intro n h hn
    by_contra hlt
    have hlt2 : (split '/' p).length < (split '/' (qt.urlPath t)).length := by
      unfold endpointLevels at hlt
      omega
    unfold MatchesChecked at h
    simp only [hlt2, if_true] at h
    injection h with h
    injection h with _ h2
    omega

/-! ## C35: TLS setters that fail -/

/-- C35, the claim as worded fails: on a server holding a certificate and a
private key, which `Start()` would start as an HTTPS server, `SetCertificate`
with data that does not parse returns false and leaves the server without
certificate, and `Start()` then raises `MissingCertificate`. -/
theorem C35_failed_setter_counterexample :
    trRef.certificate [] SslEncoding.PEM = none ∧
    (HttpServer.Start (webccImpl qtRef trRef) (newServer 8080 (some [1]) (some [2]))).1 =
      Except.ok true ∧
    HttpServer.SetCertificate (webccImpl qtRef trRef) [] SslEncoding.PEM
        (newServer 8080 (some [1]) (some [2])) =
      (Except.ok false, newServer 8080 none (some [2])) ∧
    (HttpServer.Start (webccImpl qtRef trRef)
        (HttpServer.SetCertificate (webccImpl qtRef trRef) [] SslEncoding.PEM
          (newServer 8080 (some [1]) (some [2]))).2).1 =
      Except.error ((Ex EventId.MissingCertificate).Arg "https://127.0.0.1:8080".toList) := by
  decide

/-- C35, amended: on a server that is not running, `SetCertificate` (resp.
`SetPrivateKey` with a supported algorithm) with data that does not parse
returns false and leaves the server with no certificate (resp. no private
key), everything else as before; the state is unchanged only when none was
stored before. `SetPrivateKey` with the algorithm `DiffieHellman` returns
false and changes nothing. -/
theorem C35_failed_setters_clear (qt : Qt) (tr : Transport) (s : HttpServer HttpServerWebcc)
    (hs : HttpServer.Running s = false) :
    (∀ (data : QByteArray) (encoding : SslEncoding), tr.certificate data encoding = none →
      HttpServer.SetCertificate (webccImpl qt tr) data encoding s =
          (Except.ok false,
            { started := false, derived := { s.derived with certificate := none } }) ∧
        (s.derived.certificate = none →
          HttpServer.SetCertificate (webccImpl qt tr) data encoding s = (Except.ok false, s))) ∧
    (∀ (data : QByteArray) (encoding : SslEncoding) (algorithm : SslKeyAlgorithm)
        (passphrase : QString),
      algorithm ≠ SslKeyAlgorithm.DiffieHellman →
      tr.privateKey data algorithm encoding passphrase = none →
      HttpServer.SetPrivateKey (webccImpl qt tr) data encoding algorithm passphrase s =
          (Except.ok false,
            { started := false, derived := { s.derived with privateKey := none } }) ∧
        (s.derived.privateKey = none →
          HttpServer.SetPrivateKey (webccImpl qt tr) data encoding algorithm passphrase s =
            (Except.ok false, s))) ∧
    (∀ (data : QByteArray) (encoding : SslEncoding) (passphrase : QString),
      HttpServer.SetPrivateKey (webccImpl qt tr) data encoding SslKeyAlgorithm.DiffieHellman
        passphrase s = (Except.ok false, s)) := by
  have hst : s.started = false := hs
  obtain ⟨started, derived⟩ := s
  simp only at hst
  subst hst
  refine ⟨?_, ?_, ?_⟩
  · intro data encoding hc
    have h1 : HttpServer.SetCertificate (webccImpl qt tr) data encoding
        { started := false, derived := derived } =
        (Except.ok false,
          { started := false, derived := { derived with certificate := none } }) := by
      simp [HttpServer.SetCertificate, HttpServer.forward, webccImpl, SetCertificatePrivate, hc]
    refine ⟨h1, ?_⟩
    intro hn
    rw [h1]
    obtain ⟨a, p, c, k, sv, sn, e⟩ := derived
    simp only at hn
    subst hn
    rfl
  · intro data encoding algorithm passphrase halg hk
    have h1 : HttpServer.SetPrivateKey (webccImpl qt tr) data encoding algorithm passphrase
        { started := false, derived := derived } =
        (Except.ok false,
          { started := false, derived := { derived with privateKey := none } }) := by
      cases algorithm <;>
        simp [HttpServer.SetPrivateKey, HttpServer.forward, webccImpl, SetPrivateKeyPrivate,
          hk] at halg ⊢
    refine ⟨h1, ?_⟩
    intro hn
    rw [h1]
    obtain ⟨a, p, c, k, sv, sn, e⟩ := derived
    simp only at hn
    subst hn
    rfl
  · intro data encoding passphrase
    simp [HttpServer.SetPrivateKey, HttpServer.forward, webccImpl, SetPrivateKeyPrivate]

/-- C35, the amended claim on a new server holding a private key: a
certificate that does not parse and a key with the algorithm `DiffieHellman`
are both refused. -/
theorem C35_failed_setters_clear_witness :
    HttpServer.SetCertificate (webccImpl qtRef trRef) [] SslEncoding.PEM
        (newServer 8080 none (some [2])) = (Except.ok false, newServer 8080 none (some [2])) ∧
    HttpServer.SetPrivateKey (webccImpl qtRef trRef) [3] SslEncoding.PEM
        SslKeyAlgorithm.DiffieHellman [] (newServer 8080 none (some [2])) =
      (Except.ok false, newServer 8080 none (some [2])) :=
  ⟨((C35_failed_setters_clear qtRef trRef (newServer 8080 none (some [2])) rfl).1
      [] SslEncoding.PEM (by decide)).2 rfl,
    (C35_failed_setters_clear qtRef trRef (newServer 8080 none (some [2])) rfl).2.2
      [3] SslEncoding.PEM []⟩

/-! ## C39 and C40: literal levels and the captured tail -/

theorem AllPass.take_eq_of_literal (qt : Qt) (urlLevels : List QString) (l : List QString) :
    ∀ (i : Nat), (∀ s ∈ l, pathVariableExact qt.dot s = none ∧ s ≠ ['#']) →
      AllPass qt urlLevels i l → i + l.length ≤ urlLevels.length →
      (urlLevels.drop i).take l.length = l := by
  induction l with
  | nil =>
    intro i _ _ _
    simp
  | cons level rest ih =>
    intro i hlit hp hlen
    have hil : i < urlLevels.length := by
      simp at hlen
      omega
    obtain ⟨h1, h2⟩ := hp
    have hlev := hlit level (List.mem_cons_self _ _)
    have hg : urlLevels.getD i [] = level := by
      rcases h1 with h | h | h
      · exact absurd hlev.1 h
      · exact absurd h hlev.2
      · exact h
    have hu : urlLevels[i] = level := by
      rw [← hg]
      exact (getD_eq_of_getElem? urlLevels i _ (List.getElem?_eq_getElem hil)).symm
    rw [List.drop_eq_getElem_cons hil, hu, List.length_cons, List.take_succ_cons]
    rw [ih (i + 1) (fun s hs => hlit s (List.mem_cons_of_mem _ hs)) h2
      (by simp at hlen; omega)]

theorem AllPass.of_same_levels (qt : Qt) (l : List QString) :
    AllPass qt l 0 l := by
  rw [AllPass.iff_forall]
  intro k level hk
  right
  right
  rw [Nat.zero_add]
  exact getD_eq_of_getElem? l k level hk

theorem join_append_of_ne_nil (sep : Char) (a b : List QString) (ha : a ≠ []) (hb : b ≠ []) :
    join sep (a ++ b) = join sep a ++ sep :: join sep b := by
  induction a with
  | nil => exact absurd rfl ha
  | cons w rest ih =>
    cases rest with
    | nil =>
      obtain ⟨x, xs, hx⟩ := List.exists_cons_of_ne_nil hb
      subst hx
      rfl
    | cons w2 rest2 =>
      have h := ih (by simp)
      show w ++ sep :: join sep (w2 :: rest2 ++ b) = (w ++ sep :: join sep (w2 :: rest2)) ++ _
      rw [h]
      simp

theorem literal_levels (qt : Qt) (s : QString) (hopen : '{' ∉ s) (hhash : '#' ∉ s) :
    ∀ level ∈ split '/' s, pathVariableExact qt.dot level = none ∧ level ≠ ['#'] := by
  intro level hl
  constructor
  · exact pathVariableExact_of_no_open qt.dot level
      (fun hm => hopen (mem_of_mem_split '/' s level hl '{' hm))
  · intro he
    exact hhash (mem_of_mem_split '/' s level hl '#' (by rw [he]; simp))

theorem endsWith_false_of_not_mem (s : QString) (c : Char) (h : c ∉ s) :
    endsWith s c = false := by
  unfold endsWith
  by_contra hn
  have h1 : s.getLast? = some c := by simpa using hn
  exact h (List.mem_of_getLast?_eq_some h1)

/-- C39: for a template whose path form contains neither `{` nor `#` (so
every level is a literal), `Matches` succeeds on a path exactly when the path
is that path form, character by character, and then the level is 0 and there
are neither path variables nor a multi-level tail; when `QUrl` gives the
template back unchanged, the path is the template itself. -/
theorem C39_literal_templates_match_themselves (qt : Qt) (t p : QString)
    (hopen : '{' ∉ qt.urlPath t) (hhash : '#' ∉ qt.urlPath t) :
    ((Matches qt t p).matched = true ↔ p = qt.urlPath t) ∧
    ((Matches qt t p).matched = true →
      (Matches qt t p).level = 0 ∧ (Matches qt t p).pathVariables = [] ∧
        (Matches qt t p).multiLevel = []) ∧
    (qt.urlPath t = t → ((Matches qt t p).matched = true ↔ p = t)) := by
  have hlit := literal_levels qt (qt.urlPath t) hopen hhash
  have hend := endsWith_false_of_not_mem (qt.urlPath t) '#' hhash
  have hiff : (Matches qt t p).matched = true ↔ p = qt.urlPath t := by
    rw [Matches.matched_iff]
    unfold endpointLevels
    constructor
    · rintro ⟨h1, h2, h3⟩
      have hlen : (split '/' (qt.urlPath t)).length = (split '/' p).length := by
        by_contra hne
        have h4 := h2 (by omega)
        rw [hend] at h4
        cases h4
      have h5 := AllPass.take_eq_of_literal qt (split '/' p) (split '/' (qt.urlPath t)) 0
        hlit h3 (by omega)
      rw [List.drop_zero, hlen, List.take_length] at h5
      rw [← join_split '/' p, h5, join_split]
    · intro hp
      subst hp
      exact ⟨le_refl _, fun h => absurd h (lt_irrefl _), AllPass.of_same_levels qt _⟩
  refine ⟨hiff, ?_, ?_⟩
  · intro hm
    have hall := ((Matches.matched_iff qt t p).mp hm)
    have hno : ∀ s ∈ endpointLevels qt t, s ≠ ['#'] := fun s hs => (hlit s hs).2
    have hnv : variableNames qt (endpointLevels qt t) = [] :=
      variableNames_of_no_variable qt _ (fun s hs => (hlit s hs).1)
    rw [Matches.eq_loop_of_matched qt t p hm]
    obtain ⟨h1, h2⟩ := Matches.loop_level_of_no_hash qt (split '/' p) (endpointLevels qt t) 0
      (UrlMatch.initial t) hno hall.2.2
    obtain ⟨_, h3⟩ := Matches.loop_pathVariables qt (split '/' p) (endpointLevels qt t) 0
      (UrlMatch.initial t) (by have := hall.1; omega) (by simp [UrlMatch.initial, QHash.UniqueKeys])
    refine ⟨?_, ?_, ?_⟩
    · rw [h1, hnv]
      rfl
    · apply List.eq_nil_iff_forall_not_mem.mpr
      intro it hit
      rcases h3 it hit with h4 | h4
      · simp [UrlMatch.initial] at h4
      · rw [hnv] at h4
        simp at h4
    · rw [h2]
      rfl
  · intro hq
    rw [hiff, hq]

/-- C39 on the template `/status/now` and the path `/status/now`. -/
theorem C39_literal_templates_match_themselves_witness :
    (Matches qtRef "/status/now".toList "/status/now".toList).matched = true :=
  (C39_literal_templates_match_themselves qtRef "/status/now".toList "/status/now".toList
    (by decide) (by decide)).1.mpr rfl

/-- C40, the claim as worded fails: the template `#`, which `AddEndpoint`
accepts, has `#` as its last level at index 0 and matches the path `/a` with
`multiLevel` equal to `//a`, so the first 0 levels of the path joined by `/`,
the empty string, followed by `multiLevel` is `//a` and not `/a`. -/
theorem C40_sole_hash_counterexample :
    (AddEndpoint qtRef [] "#".toList HttpMethod.GET).1 = Except.ok true ∧
    endpointLevels qtRef "#".toList = [] ++ [['#']] ∧
    (Matches qtRef "#".toList "/a".toList).matched = true ∧
    (Matches qtRef "#".toList "/a".toList).multiLevel = "//a".toList ∧
    join '/' ((split '/' "/a".toList).take 0) ++
      (Matches qtRef "#".toList "/a".toList).multiLevel ≠ "/a".toList := by
  decide

/-- C40, amended: for every template whose last level is `#` at an index `i`
of at least 1 and every path on which `Matches` succeeds, the path is its
first `i` levels joined by `/` followed by `multiLevel`; in particular for a
template whose path form is a literal prefix `P` followed by `/#`, the path is
`P` followed by `multiLevel`. -/
theorem C40_wildcard_capture_reconstructs (qt : Qt) (t p : QString)
    (hm : (Matches qt t p).matched = true) :
    (∀ pre : List QString, endpointLevels qt t = pre ++ [['#']] → pre ≠ [] →
      p = join '/' ((split '/' p).take pre.length) ++ (Matches qt t p).multiLevel) ∧
    (∀ P : QString, qt.urlPath t = P ++ ['/', '#'] → '{' ∉ P → '#' ∉ P →
      p = P ++ (Matches qt t p).multiLevel) := by
  have hall := (Matches.matched_iff qt t p).mp hm
  have part1 : ∀ pre : List QString, endpointLevels qt t = pre ++ [['#']] → pre ≠ [] →
      p = join '/' ((split '/' p).take pre.length) ++ (Matches qt t p).multiLevel := by
    intro pre hlast hpre
    have hlen : pre.length + 1 ≤ (split '/' p).length := by
      have h1 := hall.1
      rw [hlast] at h1
      simpa using h1
    have hpos : 0 < pre.length := List.length_pos.mpr hpre
    rw [(Matches.of_last_hash qt t p pre hlast hm).1]
    have h2 : join '/' ((split '/' p).take pre.length ++ (split '/' p).drop pre.length) =
        join '/' ((split '/' p).take pre.length) ++
          '/' :: join '/' ((split '/' p).drop pre.length) := by
      apply join_append_of_ne_nil
      · intro hn
        have h3 : ((split '/' p).take pre.length).length = pre.length :=
          List.length_take_of_le (by omega)
        rw [hn] at h3
        simp at h3
        omega
      · intro hn
        have h3 : ((split '/' p).drop pre.length).length =
            (split '/' p).length - pre.length := List.length_drop _ _
        rw [hn] at h3
        simp at h3
        omega
    rw [← h2, List.take_append_drop, join_split]
  refine ⟨part1, ?_⟩
  intro P hP hopen hhash
  have hlast : endpointLevels qt t = split '/' P ++ [['#']] := by
    unfold endpointLevels
    rw [hP, split_append_sep]
    rfl
  have h1 := part1 (split '/' P) hlast (split_ne_nil '/' P)
  have h2 := hall.2.2
  rw [hlast, AllPass.append_iff] at h2
  have hlen : (split '/' P).length + 1 ≤ (split '/' p).length := by
    have h3 := hall.1
    rw [hlast] at h3
    simpa using h3
  have h4 := AllPass.take_eq_of_literal qt (split '/' p) (split '/' P) 0
    (literal_levels qt P hopen hhash) h2.1 (by omega)
  rw [List.drop_zero] at h4
  rw [h4, join_split] at h1
  exact h1

/-- C40, the amended claim on the template `/files/#` and the path
`/files/a/b`: the path is `/files` followed by the captured tail. -/
theorem C40_wildcard_capture_reconstructs_witness :
    "/files/a/b".toList =
      "/files".toList ++ (Matches qtRef "/files/#".toList "/files/a/b".toList).multiLevel :=
  (C40_wildcard_capture_reconstructs qtRef "/files/#".toList "/files/a/b".toList
    (by decide)).2 "/files".toList rfl (by decide) (by decide)

end Mau
